import Mathlib

/-!
# Rain: the per-torrent engine, the piece writer, the announcer and the plain handshake

A shallow embedding of `torrent/private.go` (the event loop of one torrent),
`internal/piecewriter/piecewriter.go`, `internal/announcer/announcer.go` and
`librain/handshake.go`.

Conventions of the embedding

* Go pointers to peers are indices into `Torrent.heap`; `peer.New` allocates the
  next index.  A peer that has been disconnected stays on the heap, so a stale
  pointer (such as `optimisticUnchokedPeer`) still designates its object.
* Go maps are association lists without duplicate keys; ranging over a map
  visits the entries in list order.
* Everything the loop does to the outside (messages handed to a peer, closed
  connections, values sent on channels of sub-tasks) is appended to `Torrent.log`.
* A handler returns `none` where the Go code panics (nil dereference, index out
  of range, closing a closed channel).
* `uint32` values are natural numbers; arithmetic on them is reduced modulo `2^32`.
-/

set_option linter.dupNamespace false

namespace Rain

/-! ## Maps and sets -/

/-- The value stored under `k`, as in `v, ok := m[k]`. -/
def mapGet {κ α : Type} [DecidableEq κ] : List (κ × α) → κ → Option α
  | [], _ => none
  | (k', v) :: m, k => if k' = k then some v else mapGet m k

/-- The assignment `m[k] = v`: an existing entry is replaced in place, a new one is added. -/
def mapSet {κ α : Type} [DecidableEq κ] : List (κ × α) → κ → α → List (κ × α)
  | [], k, v => [(k, v)]
  | (k', v') :: m, k, v => if k' = k then (k, v) :: m else (k', v') :: mapSet m k v

/-- The statement `delete(m, k)`. -/
def mapDelete {κ α : Type} [DecidableEq κ] (m : List (κ × α)) (k : κ) : List (κ × α) :=
  m.filter (fun e => decide (e.1 ≠ k))

/-- The assignment `s[k] = struct{}{}` on a `map[K]struct{}`. -/
def setInsert {κ : Type} [DecidableEq κ] (s : List κ) (k : κ) : List κ :=
  if k ∈ s then s else s ++ [k]

/-- The statement `delete(s, k)` on a `map[K]struct{}`. -/
def setDelete {κ : Type} [DecidableEq κ] (s : List κ) (k : κ) : List κ :=
  s.filter (fun e => decide (e ≠ k))

/-! ## Basic data -/

/-- One octet. -/
abbrev Byte := Fin 256

/-- The modulus of `uint32` arithmetic. -/
def u32 : Nat := 2 ^ 32

/-- A peer identity (`[20]byte`), kept as its bytes. -/
abbrev PeerID := List Byte

/-- A `*peerconn.Conn`: `addr` is the identity of the pointer, the other fields are
what the engine reads from it. -/
structure Conn where
  addr : Nat
  ID : PeerID := []
  FastExtension : Bool := false
  deriving DecidableEq

/-- A `*peer.Peer`: an index into the heap of the engine. -/
abbrev PeerPtr := Nat

/-- A block of a piece. -/
structure Block where
  Index : Nat
  Begin : Nat
  Length : Nat
  deriving DecidableEq

/-- A `pieceio.Piece`: the storage side of a piece (`t.data.Pieces[i]`). -/
structure DataPiece where
  Index : Nat
  Length : Nat := 0
  Hash : List Byte := []
  Blocks : List Block := []
  deriving DecidableEq

/-- A `piece.Piece`: the engine side of a piece (`t.pieces[i]`). -/
structure Piece where
  Piece : DataPiece
  HavingPeers : List Conn := []
  AllowedFastPeers : List Conn := []
  RequestedPeers : List Conn := []
  Writing : Bool := false
  deriving DecidableEq

/-- The function `piece.New`. -/
def Piece.new (p : DataPiece) : Rain.Piece := { Piece := p }

/-- The parsed metadata, as far as the engine reads it. -/
structure Info where
  PieceLength : Nat := 0
  NumPieces : Nat := 0
  TotalLength : Int := 0
  InfoSize : Nat := 0
  Bytes : List Byte := []
  deriving DecidableEq

/-! ## Bitfield -/

/-- Modelled from the spec: the package `internal/bitfield` is not part of the sources.
A bitfield is a boolean vector of piece presence whose length is the number of pieces. -/
structure Bitfield where
  bits : List Bool
  deriving DecidableEq

/-- Modelled from the spec: `bitfield.New(n)`, the bitfield of `n` clear bits. -/
def Bitfield.new (n : Nat) : Bitfield := ⟨List.replicate n false⟩

/-- Modelled from the spec: `Len()`. -/
def Bitfield.Len (b : Bitfield) : Nat := b.bits.length

/-- Modelled from the spec: `Test(i)`; an index outside the bitfield is taken to panic, as an
index outside a slice does. -/
def Bitfield.Test (b : Bitfield) (i : Nat) : Option Bool := b.bits[i]?

/-- Modelled from the spec: `Set(i)`; an index outside the bitfield is taken to panic, as an
index outside a slice does. -/
def Bitfield.Set (b : Bitfield) (i : Nat) : Option Bitfield :=
  if i < b.bits.length then some ⟨b.bits.set i true⟩ else none

/-- Modelled from the spec: `Count()`, the number of set bits. -/
def Bitfield.Count (b : Bitfield) : Nat := b.bits.count true

/-- Modelled from the spec: `All()`, whether every bit is set. -/
def Bitfield.All (b : Bitfield) : Bool := b.bits.all id

/-- The value of up to eight bits, most significant first, padded with clear bits. -/
def packByte (bs : List Bool) : Byte :=
  Fin.ofNat (((bs ++ List.replicate (8 - bs.length) false).foldl
    (fun acc x => 2 * acc + (if x then 1 else 0)) 0))

/-- The bits packed eight to a byte. -/
def packBits : Nat → List Bool → List Byte
  | 0, _ => []
  | _ + 1, [] => []
  | fuel + 1, b :: bs => packByte ((b :: bs).take 8) :: packBits fuel ((b :: bs).drop 8)

/-- Modelled from the spec: `Bytes()`, the compact form; unused trailing bits are zero. -/
def Bitfield.Bytes (b : Bitfield) : List Byte := packBits b.bits.length b.bits

/-- Modelled from the spec: `bitfield.NumBytes(n)`, the bytes needed for `n` bits. -/
def Bitfield.NumBytes (n : Nat) : Nat := (n + 7) / 8

/-- The eight bits of a byte, most significant first. -/
def unpackByte (x : Byte) : List Bool :=
  (List.range 8).map (fun k => decide (x.val / 2 ^ (7 - k) % 2 = 1))

/-- Modelled from the spec: `bitfield.NewBytes(data, n)`, the first `n` bits of `data`. -/
def Bitfield.newBytes (data : List Byte) (n : Nat) : Bitfield :=
  ⟨((data.map unpackByte).flatten ++ List.replicate n false).take n⟩

/-! ## Peer protocol messages -/

/-- The payload of an extension handshake (`peerprotocol.ExtensionHandshakeMessage`). -/
structure ExtensionHandshakeMessage where
  M : List (String × Nat) := []
  MetadataSize : Nat := 0
  deriving DecidableEq

/-- The values of `ExtensionMetadataMessage.Type`; `other` is any value without a case. -/
inductive MetadataMessageType where
  | request
  | data
  | reject
  | other
  deriving DecidableEq

/-- The payload of a metadata message (`peerprotocol.ExtensionMetadataMessage`). -/
structure ExtensionMetadataMessage where
  MsgType : MetadataMessageType
  Piece : Nat
  TotalSize : Nat := 0
  Data : List Byte := []
  deriving DecidableEq

/-- What an outgoing `peerprotocol.ExtensionMessage` carries. -/
inductive ExtensionPayload where
  | handshake (h : ExtensionHandshakeMessage)
  | metadata (m : ExtensionMetadataMessage)
  deriving DecidableEq

/-- The messages of the peer protocol that the engine receives or sends.  `other` stands
for a decoded message whose type has no case in `handlePeerMessage`. -/
inductive Message where
  | have (Index : Nat)
  | bitfield (Data : List Byte)
  | haveAll
  | haveNone
  | allowedFast (Index : Nat)
  | unchoke
  | choke
  | interested
  | notInterested
  | piece (Index Begin Length : Nat) (Data : List Byte)
  | request (Index Begin Length : Nat)
  | reject (Index Begin Length : Nat)
  | extensionHandshake (h : ExtensionHandshakeMessage)
  | extensionMetadata (m : ExtensionMetadataMessage)
  | extension (ExtendedMessageID : Nat) (Payload : ExtensionPayload)
  | other
  deriving DecidableEq

/-- The key of the metadata extension in the `m` dictionary of an extension handshake. -/
def ExtensionMetadataKey : String := "ut_metadata"

/-- The identifier of the extension handshake itself. -/
def ExtensionHandshakeID : Nat := 0

/-! ## Sub-task handles and peers -/

/-- A `*piecedownloader.PieceDownloader`: the piece and the connection it downloads from. -/
structure PieceDownloader where
  Piece : DataPiece
  Peer : Conn
  deriving DecidableEq

/-- A `*infodownloader.InfoDownloader`: the connection it downloads from. -/
structure InfoDownloader where
  Peer : Conn
  deriving DecidableEq

/-- A `*peer.Peer`, the object a `PeerPtr` designates. -/
structure Peer where
  Conn : Conn
  AmChoking : Bool := true
  AmInterested : Bool := false
  PeerChoking : Bool := true
  PeerInterested : Bool := false
  OptimisticUnhoked : Bool := false
  BytesDownlaodedInChokePeriod : Int := 0
  Messages : List Message := []
  ExtensionHandshake : Option ExtensionHandshakeMessage := none
  Downloader : Option PieceDownloader := none
  InfoDownloader : Option InfoDownloader := none
  deriving DecidableEq

/-- Modelled from the spec: `peer.New` is not part of the sources.  A new peer wraps the
connection, is choked in both directions, not interested, not optimistically unchoked, has an
empty message queue, a zero byte counter and no downloader. -/
def Peer.new (p : Rain.Conn) : Peer := { Conn := p }

/-- Modelled from the spec: `Peer.ID()` is the identity of the wrapped connection. -/
def Peer.ID (pe : Peer) : PeerID := pe.Conn.ID

/-- A raw inbound connection (`net.Conn`) with its remote address. -/
structure NetConn where
  addr : Nat
  RemoteAddr : String := ""
  deriving DecidableEq

/-- The errors with which the engine stops the torrent. -/
inductive StopReason where
  | closed
  | stopped
  | allocation
  | verification
  | resumeBitfield
  | writePiece
  | parseInfo
  | resumeInfo
  deriving DecidableEq

/-- The `tracker.Transfer` the engine answers an announcer with. -/
structure Transfer where
  InfoHash : List Byte
  PeerID : PeerID
  Port : Nat
  BytesLeft : Int
  deriving DecidableEq

/-- The status of a torrent. -/
inductive Status where
  | Stopped
  | Downloading
  | Seeding
  deriving DecidableEq

/-- The answer to a stats request. -/
structure Stats where
  Status : Status
  BytesTotal : Int := 0
  BytesComplete : Int := 0
  BytesIncomplete : Int := 0
  deriving DecidableEq

/-! ## Effects, collaborators and the state of the engine -/

/-- What the engine does to its collaborators, in the order in which it does it. -/
inductive Effect where
  /-- The call `pe.SendMessage(m)` on a peer. -/
  | peerSend (pe : PeerPtr) (m : Message)
  /-- The call `c.SendMessage(m)` on a connection. -/
  | connSend (c : Conn) (m : Message)
  /-- The call `c.SendPiece(msg, pi)`. -/
  | connSendPiece (c : Conn) (Index Begin Length : Nat) (pi : DataPiece)
  /-- The call `c.Close()` on a peer connection. -/
  | connClose (c : Conn)
  /-- The call `c.CloseConn()` on a peer connection. -/
  | connCloseConn (c : Conn)
  /-- The call `pe.Close()` on a peer, in `close()`. -/
  | peerClose (pe : PeerPtr)
  /-- The statement `go pe.Run()`. -/
  | peerRun (pe : PeerPtr)
  /-- The call `conn.Close()` on a raw inbound connection. -/
  | netConnClose (c : NetConn)
  /-- A request sent on `writeRequestC`. -/
  | writeRequest (p : DataPiece) (data : List Byte)
  /-- The statement `close(t.completeC)`. -/
  | closeCompleteC
  /-- The call `t.stop(err)`. -/
  | stop (reason : StopReason)
  /-- The call `t.start()`. -/
  | start
  | pieceDownloadersSignal (n : Nat)
  | pieceDownloadersStop
  | pieceDownloadersStart
  | infoDownloadersSignal (n : Nat)
  | infoDownloadersStop
  /-- A value offered on `pd.UnchokeC` of the download from `c`. -/
  | downloaderUnchoke (c : Conn)
  | downloaderChoke (c : Conn)
  | downloaderPiece (c : Conn) (b : Block) (data : List Byte)
  | downloaderReject (c : Conn) (b : Block)
  | downloaderRun (pd : PieceDownloader)
  | downloaderClose (pd : PieceDownloader)
  | infoDownloaderData (c : Conn) (Index : Nat) (data : List Byte)
  | infoDownloaderRun (id : InfoDownloader)
  | infoDownloaderClose (id : InfoDownloader)
  | startAcceptor
  | startAnnouncers
  | allocatorRun (info : Info)
  | verifierRun (pieces : List DataPiece)
  | resumeWriteBitfield (bytes : List Byte)
  | resumeWriteInfo (bytes : List Byte)
  | incomingHandshakerRun (c : NetConn)
  | incomingHandshakerClose (remote : String)
  | outgoingHandshakerRun (remote : String)
  | outgoingHandshakerClose (remote : String)
  | addrListPush (addrs : List String)
  | dialLimitSignal (n : Nat)
  | dialLimitStop
  | announcerResponse (tr : Transfer)
  | statsResponse (st : Stats)
  | notifyErrorResponse
  /-- The deferred statement `close(t.doneC)`. -/
  | closeDoneC
  deriving DecidableEq

/-- The pure collaborators of the engine that are not part of the sources. -/
structure Env where
  /-- The SHA-1 primitive. -/
  sha1 : List Byte → List Byte
  /-- The method `Verify` of a storage piece. -/
  verify : DataPiece → List Byte → Bool
  /-- The method `Blocks.Find(begin, length)` of a storage piece. -/
  findBlock : DataPiece → Nat → Nat → Option Block
  /-- The parser `metainfo.NewInfo`; `none` is a parse error, with which it returns a nil info. -/
  newInfo : List Byte → Option Info
  /-- The value of `peerprotocol.NewExtensionHandshake()`. -/
  newExtensionHandshake : ExtensionHandshakeMessage
  /-- The constant `maxPeerAccept`. -/
  maxPeerAccept : Nat
  /-- The order `peer.ByDownloadRate`: whether the first peer ranks at least as high. -/
  byDownloadRate : Peer → Peer → Bool

/-- The state of one torrent: the fields of `Torrent` that `private.go` reads or writes,
the heap of peer objects, and the log of effects. -/
structure Torrent where
  peerID : PeerID := []
  infoHash : List Byte := []
  port : Nat := 0
  info : Option Info := none
  bitfield : Option Bitfield := none
  data : Option (List DataPiece) := none
  pieces : List Piece := []
  sortedPieces : List Nat := []
  heap : List Peer := []
  connectedPeers : List (Conn × PeerPtr) := []
  peerIDs : List PeerID := []
  incomingPeers : List PeerPtr := []
  outgoingPeers : List PeerPtr := []
  incomingHandshakers : List (String × NetConn) := []
  outgoingHandshakers : List (String × String) := []
  pieceDownloads : List (Conn × PieceDownloader) := []
  infoDownloads : List (Conn × InfoDownloader) := []
  optimisticUnchokedPeer : Option PeerPtr := none
  running : Bool := false
  completed : Bool := false
  /-- Whether `completeC` has been closed. -/
  completeCClosed : Bool := false
  /-- Whether `t.resume != nil`. -/
  resume : Bool := false
  /-- Whether `t.allocator != nil`. -/
  allocator : Bool := false
  /-- Whether `t.verifier != nil`. -/
  verifier : Bool := false
  log : List Effect := []
  deriving DecidableEq

/-- Append one effect to the log. -/
def Torrent.emit (t : Torrent) (e : Effect) : Torrent := { t with log := t.log ++ [e] }

/-- Store `pe` in the object that `p` designates. -/
def Torrent.setPeer (t : Torrent) (p : PeerPtr) (pe : Peer) : Torrent :=
  { t with heap := t.heap.set p pe }

/-- Modelled from the spec: `stop(reason)` is not part of the sources.  It marks
`running=false` and reports the reason; the cancellation of the child tasks is part of the
logged effect. -/
def stop (t : Torrent) (reason : StopReason) : Torrent :=
  { t.emit (.stop reason) with running := false }

/-- Modelled from the spec: `start()` is not part of the sources.  It marks `running=true`;
the invocation of the allocator is part of the logged effect. -/
def start (t : Torrent) : Torrent :=
  { t.emit .start with running := true }

/-! ## Choking, interest and completion -/

/-- The method `Torrent.chokePeer`. -/
def chokePeer (t : Torrent) (p : PeerPtr) : Option Torrent := do
  let pe ← t.heap[p]?
  if !pe.AmChoking then
    some ((t.setPeer p { pe with AmChoking := true }).emit (.peerSend p .choke))
  else
    some t

/-- The method `Torrent.unchokePeer`. -/
def unchokePeer (t : Torrent) (p : PeerPtr) : Option Torrent := do
  let pe ← t.heap[p]?
  if pe.AmChoking then
    some ((t.setPeer p { pe with AmChoking := false }).emit (.peerSend p .unchoke))
  else
    some t

/-- The loop of `updateInterestedState` over the piece indices still to visit: whether some
piece is missing here and present at the peer. -/
def interestedLoop (bf : Bitfield) (pieces : List Piece) (c : Conn) : List Nat → Option Bool
  | [] => some false
  | i :: rest => do
    let weHave ← bf.Test i
    let pc ← pieces[i]?
    if !weHave && decide (c ∈ pc.HavingPeers) then some true
    else interestedLoop bf pieces c rest

/-- The method `Torrent.updateInterestedState`. -/
def updateInterestedState (t : Torrent) (p : PeerPtr) : Option Torrent :=
  match t.info with
  | none => some t
  | some _ => do
    let bf ← t.bitfield
    let pe ← t.heap[p]?
    let interested ← interestedLoop bf t.pieces pe.Conn (List.range bf.Len)
    if !pe.AmInterested && interested then
      some ((t.setPeer p { pe with AmInterested := true }).emit (.connSend pe.Conn .interested))
    else if pe.AmInterested && !interested then
      some ((t.setPeer p { pe with AmInterested := false }).emit
        (.connSend pe.Conn .notInterested))
    else
      some t

/-- The method `Torrent.checkCompletion`; closing a closed channel panics. -/
def checkCompletion (t : Torrent) : Option Torrent :=
  if t.completed then some t
  else do
    let bf ← t.bitfield
    if bf.All then
      if t.completeCClosed then none
      else some { t.emit .closeCompleteC with completeCClosed := true, completed := true }
    else
      some t

/-- The method `Torrent.status`. -/
def status (t : Torrent) : Status :=
  if !t.running then .Stopped
  else if !t.completed then .Downloading
  else .Seeding

/-! ## Peer messages -/

/-- A message together with the peer that sent it (`peer.Message`). -/
structure PeerMessage where
  Peer : PeerPtr
  Message : Message
  deriving DecidableEq

/-- The statement `t.pieces[i].HavingPeers[c] = struct{}{}`. -/
def addHavingPeer (pieces : List Piece) (i : Nat) (c : Conn) : Option (List Piece) := do
  let pc ← pieces[i]?
  some (pieces.set i { pc with HavingPeers := setInsert pc.HavingPeers c })

/-- The statement `t.pieces[i].AllowedFastPeers[c] = struct{}{}`. -/
def addAllowedFastPeer (pieces : List Piece) (i : Nat) (c : Conn) : Option (List Piece) := do
  let pc ← pieces[i]?
  some (pieces.set i { pc with AllowedFastPeers := setInsert pc.AllowedFastPeers c })

/-- The loop of the bitfield case over the piece indices still to visit. -/
def bitfieldLoop (bf : Bitfield) (c : Conn) : List Piece → List Nat → Option (List Piece)
  | pieces, [] => some pieces
  | pieces, i :: rest => do
    let has ← bf.Test i
    if has then
      let pieces' ← addHavingPeer pieces i c
      bitfieldLoop bf c pieces' rest
    else
      bitfieldLoop bf c pieces rest

/-- The slice expression `b[start:end]`, which panics unless `start ≤ end ≤ len(b)`. -/
def slice (b : List Byte) (start stop : Nat) : Option (List Byte) :=
  if start ≤ stop ∧ stop ≤ b.length then some ((b.take stop).drop start) else none

/-- The method `Torrent.handlePeerMessage`. -/
def handlePeerMessage (env : Env) (t : Torrent) (pm : PeerMessage) : Option Torrent := do
  let p := pm.Peer
  let pe ← t.heap[p]?
  match pm.Message with
  | .have index =>
    match t.bitfield with
    | none => some (t.setPeer p { pe with Messages := pe.Messages ++ [.have index] })
    | some _ =>
      let dataPieces ← t.data
      if index ≥ dataPieces.length % u32 then some (t.emit (.connClose pe.Conn))
      else
        let pi ← dataPieces[index]?
        let t1 := t.emit (.pieceDownloadersSignal 1)
        let pieces ← addHavingPeer t1.pieces pi.Index pe.Conn
        updateInterestedState { t1 with pieces := pieces } p
  | .bitfield data =>
    match t.bitfield with
    | none => some (t.setPeer p { pe with Messages := pe.Messages ++ [.bitfield data] })
    | some _ =>
      let dataPieces ← t.data
      let numBytes := Bitfield.NumBytes (dataPieces.length % u32) % u32
      if data.length % u32 ≠ numBytes then some (t.emit (.connClose pe.Conn))
      else
        let bf := Bitfield.newBytes data (dataPieces.length % u32)
        let pieces ← bitfieldLoop bf pe.Conn t.pieces (List.range bf.Len)
        let t1 := { t with pieces := pieces }.emit (.pieceDownloadersSignal bf.Count)
        updateInterestedState t1 p
  | .haveAll =>
    match t.bitfield with
    | none => some (t.setPeer p { pe with Messages := pe.Messages ++ [.haveAll] })
    | some _ =>
      let pieces := t.pieces.map
        (fun pc => { pc with HavingPeers := setInsert pc.HavingPeers pe.Conn })
      let t1 := { t with pieces := pieces }.emit (.pieceDownloadersSignal t.pieces.length)
      updateInterestedState t1 p
  | .haveNone => some t
  | .allowedFast index =>
    match t.bitfield with
    | none => some (t.setPeer p { pe with Messages := pe.Messages ++ [.allowedFast index] })
    | some _ =>
      let dataPieces ← t.data
      if index ≥ dataPieces.length % u32 then some (t.emit (.connClose pe.Conn))
      else
        let _ ← dataPieces[index]?
        let pieces ← addAllowedFastPeer t.pieces index pe.Conn
        some { t with pieces := pieces }
  | .unchoke =>
    let t1 := (t.emit (.pieceDownloadersSignal 1)).setPeer p { pe with PeerChoking := false }
    match mapGet t1.pieceDownloads pe.Conn with
    | some _ => some (t1.emit (.downloaderUnchoke pe.Conn))
    | none => some t1
  | .choke =>
    let t1 := t.setPeer p { pe with PeerChoking := true }
    match mapGet t1.pieceDownloads pe.Conn with
    | some _ => some (t1.emit (.downloaderChoke pe.Conn))
    | none => some t1
  | .interested => some t
  | .notInterested => some t
  | .piece index begin length data =>
    match t.bitfield with
    | none => some (t.emit (.connClose pe.Conn))
    | some _ =>
      let dataPieces ← t.data
      if index ≥ dataPieces.length % u32 then some (t.emit (.connClose pe.Conn))
      else
        let piece ← dataPieces[index]?
        match env.findBlock piece begin length with
        | none => some (t.emit (.connClose pe.Conn))
        | some block =>
          let t1 := t.setPeer p { pe with
            BytesDownlaodedInChokePeriod := pe.BytesDownlaodedInChokePeriod + data.length }
          match mapGet t1.pieceDownloads pe.Conn with
          | some _ => some (t1.emit (.downloaderPiece pe.Conn block data))
          | none => some t1
  | .request index begin length =>
    match t.bitfield with
    | none => some (t.emit (.connClose pe.Conn))
    | some _ =>
      let dataPieces ← t.data
      if index ≥ dataPieces.length % u32 then some (t.emit (.connClose pe.Conn))
      else
        let pi ← dataPieces[index]?
        if (begin + length) % u32 > pi.Length then some (t.emit (.connClose pe.Conn))
        else if pe.AmChoking then
          if pe.Conn.FastExtension then
            some (t.emit (.peerSend p (.reject index begin length)))
          else some t
        else
          some (t.emit (.connSendPiece pe.Conn index begin length pi))
  | .reject index begin length =>
    match t.bitfield with
    | none => some (t.emit (.connClose pe.Conn))
    | some _ =>
      let dataPieces ← t.data
      if index ≥ dataPieces.length % u32 then some (t.emit (.connClose pe.Conn))
      else
        let piece ← dataPieces[index]?
        match env.findBlock piece begin length with
        | none => some (t.emit (.connClose pe.Conn))
        | some block =>
          match mapGet t.pieceDownloads pe.Conn with
          | none => some (t.emit (.connClose pe.Conn))
          | some _ => some (t.emit (.downloaderReject pe.Conn block))
  | .extensionHandshake h =>
    some ((t.setPeer p { pe with ExtensionHandshake := some h }).emit (.infoDownloadersSignal 1))
  | .extensionMetadata msg =>
    match msg.MsgType with
    | .request =>
      match t.info with
      | none => some t
      | some info =>
        let hs ← pe.ExtensionHandshake
        let extMsgID := (mapGet hs.M ExtensionMetadataKey).getD 0
        let start := 16 * 1024 * msg.Piece % u32
        let stop := 16 * 1024 * ((msg.Piece + 1) % u32) % u32
        let totalSize := info.Bytes.length % u32
        let stop := if stop > totalSize then totalSize else stop
        let data ← slice info.Bytes start stop
        let dataMsg : ExtensionMetadataMessage :=
          { MsgType := .data, Piece := msg.Piece, TotalSize := totalSize, Data := data }
        some (t.emit (.connSend pe.Conn (.extension extMsgID (.metadata dataMsg))))
    | .data =>
      match mapGet t.infoDownloads pe.Conn with
      | none => some t
      | some _ => some (t.emit (.infoDownloaderData pe.Conn msg.Piece msg.Data))
    | .reject => some t
    | .other => some t
  | .extension _ _ => none
  | .other => none

/-- The inner loop of `processQueuedMessages`: the queued messages of one peer. -/
def processPeerMessages (env : Env) (p : PeerPtr) : Torrent → List Message → Option Torrent
  | t, [] => some t
  | t, msg :: rest => do
    let t' ← handlePeerMessage env t { Peer := p, Message := msg }
    processPeerMessages env p t' rest

/-- The outer loop of `processQueuedMessages` over the connected peers still to visit. -/
def processQueuedLoop (env : Env) : Torrent → List (Conn × PeerPtr) → Option Torrent
  | t, [] => some t
  | t, (_, p) :: rest => do
    let pe ← t.heap[p]?
    let t' ← processPeerMessages env p t pe.Messages
    processQueuedLoop env t' rest

/-- The method `Torrent.processQueuedMessages`. -/
def processQueuedMessages (env : Env) (t : Torrent) : Option Torrent :=
  processQueuedLoop env t t.connectedPeers

/-! ## Starting and dropping peers -/

/-- Which of the two peer lists `startPeer` appends to. -/
inductive PeerList where
  | incoming
  | outgoing
  deriving DecidableEq

/-- The method `Torrent.sendFirstMessage`. -/
def sendFirstMessage (env : Env) (t : Torrent) (p : Conn) : Torrent :=
  let t1 :=
    match t.bitfield with
    | some bf =>
      if p.FastExtension && bf.All then t.emit (.connSend p .haveAll)
      else if p.FastExtension && decide (bf.Count = 0) then t.emit (.connSend p .haveNone)
      else t.emit (.connSend p (.bitfield bf.Bytes))
    | none =>
      if p.FastExtension then t.emit (.connSend p .haveNone) else t
  let hs : ExtensionHandshakeMessage :=
    match t.info with
    | some info => { env.newExtensionHandshake with MetadataSize := info.InfoSize }
    | none => env.newExtensionHandshake
  t1.emit (.connSend p (.extension ExtensionHandshakeID (.handshake hs)))

/-- The method `Torrent.startPeer`. -/
def startPeer (env : Env) (t : Torrent) (p : Conn) (peers : PeerList) : Option Torrent :=
  if p.ID ∈ t.peerIDs then
    some (t.emit (.connCloseConn p))
  else
    let pe : PeerPtr := t.heap.length
    let t1 : Torrent := { t with
      peerIDs := setInsert t.peerIDs p.ID
      heap := t.heap ++ [Peer.new p]
      connectedPeers := mapSet t.connectedPeers p pe }
    let t2 : Torrent :=
      match peers with
      | .incoming => { t1 with incomingPeers := t1.incomingPeers ++ [pe] }
      | .outgoing => { t1 with outgoingPeers := t1.outgoingPeers ++ [pe] }
    let t3 := sendFirstMessage env (t2.emit (.peerRun pe)) p
    if t3.connectedPeers.length ≤ 4 then unchokePeer t3 pe else some t3

/-- The method `Torrent.preparePieces`. -/
def preparePieces (t : Torrent) : Option Torrent := do
  let dataPieces ← t.data
  some { t with
    pieces := dataPieces.map Piece.new
    sortedPieces := List.range dataPieces.length }

/-- The three `delete` statements of the peer-disconnected case on one piece. -/
def Piece.dropConn (pc : Rain.Piece) (c : Conn) : Rain.Piece :=
  { pc with
    HavingPeers := setDelete pc.HavingPeers c
    AllowedFastPeers := setDelete pc.AllowedFastPeers c
    RequestedPeers := setDelete pc.RequestedPeers c }

/-- The case `pe := <-t.peerDisconnectedC` of `run`. -/
def peerDisconnected (t : Torrent) (p : PeerPtr) : Option Torrent := do
  let pe ← t.heap[p]?
  let t1 : Torrent := { t with peerIDs := setDelete t.peerIDs pe.ID }
  let t2 : Torrent :=
    match pe.Downloader with
    | some pd => { t1.emit (.downloaderClose pd) with
        pieceDownloads := mapDelete t1.pieceDownloads pe.Conn }
    | none => t1
  let t3 : Torrent :=
    match pe.InfoDownloader with
    | some id => { t2.emit (.infoDownloaderClose id) with
        infoDownloads := mapDelete t2.infoDownloads pe.Conn }
    | none => t2
  some { t3 with
    connectedPeers := mapDelete t3.connectedPeers pe.Conn
    pieces := t3.pieces.map (fun pc => pc.dropConn pe.Conn) }

/-! ## Results of the sub-tasks -/

/-- The result of a piece download. -/
structure PieceDownloaderResult where
  Peer : Conn
  Piece : DataPiece
  Bytes : List Byte := []
  deriving DecidableEq

/-- The statement `if pe, ok := t.connectedPeers[c]; ok { pe.Downloader = nil }`. -/
def clearDownloader (t : Torrent) (c : Conn) : Option Torrent :=
  match mapGet t.connectedPeers c with
  | some p => do
    let pe ← t.heap[p]?
    some (t.setPeer p { pe with Downloader := none })
  | none => some t

/-- The case `res := <-t.pieceDownloaderResultC` of `run`. -/
def pieceDownloaderResult (env : Env) (t : Torrent) (res : PieceDownloaderResult) :
    Option Torrent := do
  let t1 ← clearDownloader t res.Peer
  let t2 : Torrent := { t1 with pieceDownloads := mapDelete t1.pieceDownloads res.Peer }
  let pc ← t2.pieces[res.Piece.Index]?
  let pc1 : Piece := { pc with RequestedPeers := setDelete pc.RequestedPeers res.Peer }
  let t3 := { t2 with pieces := t2.pieces.set res.Piece.Index pc1 }.emit
    (.pieceDownloadersSignal 1)
  let ok := env.verify pc1.Piece res.Bytes
  if !ok then some t3
  else
    let t4 := t3.emit (.writeRequest res.Piece res.Bytes)
    some { t4 with pieces := t4.pieces.set res.Piece.Index { pc1 with Writing := true } }

/-- A response of the piece writer: the piece of its request and the error of the write. -/
structure WriteResponse where
  Piece : DataPiece
  Data : List Byte := []
  Error : Bool := false
  deriving DecidableEq

/-- The loop of the write-response case over the connected peers still to visit. -/
def haveLoop (index : Nat) : Torrent → List (Conn × PeerPtr) → Option Torrent
  | t, [] => some t
  | t, (_, p) :: rest => do
    let t' ← updateInterestedState (t.emit (.peerSend p (.have index))) p
    haveLoop index t' rest

/-- The case `resp := <-t.writeResponseC` of `run`; `resumeFails` tells whether the write of
the bitfield to the resume database returns an error. -/
def writeResponse (t : Torrent) (resp : WriteResponse) (resumeFails : Bool) :
    Option Torrent := do
  let index := resp.Piece.Index
  let pc ← t.pieces[index]?
  let t1 : Torrent := { t with pieces := t.pieces.set index { pc with Writing := false } }
  if resp.Error then some (stop t1 .writePiece)
  else
    let bf ← t1.bitfield
    let bf' ← bf.Set index
    let t2 : Torrent := { t1 with bitfield := some bf' }
    if t2.resume then
      let t3 := t2.emit (.resumeWriteBitfield bf'.Bytes)
      if resumeFails then some (stop t3 .resumeBitfield)
      else do
        let t4 ← checkCompletion t3
        haveLoop index t4 t4.connectedPeers
    else do
      let t4 ← checkCompletion t2
      haveLoop index t4 t4.connectedPeers

/-- The result of an info download: the connection, the bytes and whether it failed. -/
structure InfoDownloaderResult where
  Peer : Conn
  Bytes : List Byte := []
  Error : Bool := false
  deriving DecidableEq

/-- The case `res := <-t.infoDownloaderResultC` of `run`; `resumeFails` tells whether the
write of the info to the resume database returns an error. -/
def infoDownloaderResult (env : Env) (t : Torrent) (res : InfoDownloaderResult)
    (resumeFails : Bool) : Option Torrent := do
  let p ← mapGet t.connectedPeers res.Peer
  let pe ← t.heap[p]?
  let t1 := t.setPeer p { pe with InfoDownloader := none }
  let t2 := { t1 with infoDownloads := mapDelete t1.infoDownloads res.Peer }.emit
    (.infoDownloadersSignal 1)
  if res.Error then some (t2.emit (.connClose res.Peer))
  else if env.sha1 res.Bytes ≠ t2.infoHash then
    some ((t2.emit (.infoDownloadersSignal 1)).emit (.connClose res.Peer))
  else
    let t3 := t2.emit .infoDownloadersStop
    match env.newInfo res.Bytes with
    | none => some (stop { t3 with info := none } .parseInfo)
    | some info =>
      let t4 : Torrent := { t3 with info := some info }
      let t5 := if t4.resume then t4.emit (.resumeWriteInfo info.Bytes) else t4
      if t4.resume && resumeFails then some (stop t5 .resumeInfo)
      else some { t5.emit (.allocatorRun info) with allocator := true }

/-- The result of the allocator. -/
structure AllocatorResult where
  Data : List DataPiece := []
  NeedHashCheck : Bool := false
  Error : Bool := false
  deriving DecidableEq

/-- The three calls that follow `processQueuedMessages` once the bitfield exists. -/
def startTasks (t : Torrent) : Torrent :=
  ((t.emit .pieceDownloadersStart).emit .startAcceptor).emit .startAnnouncers

/-- The case `res := <-t.allocatorResultC` of `run`. -/
def allocatorResult (env : Env) (t : Torrent) (res : AllocatorResult) : Option Torrent :=
  let t1 : Torrent := { t with allocator := false }
  if res.Error then some (stop t1 .allocation)
  else do
    let t2 ← preparePieces { t1 with data := some res.Data }
    match t2.bitfield with
    | some _ =>
      let t3 ← checkCompletion t2
      let t4 ← processQueuedMessages env t3
      some (startTasks t4)
    | none =>
      if !res.NeedHashCheck then
        let info ← t2.info
        let t3 : Torrent := { t2 with bitfield := some (Bitfield.new info.NumPieces) }
        let t4 ← processQueuedMessages env t3
        some (startTasks t4)
      else
        some { t2.emit (.verifierRun res.Data) with verifier := true }

/-- The result of the verifier. -/
structure VerifierResult where
  Bitfield : Bitfield
  Error : Bool := false
  deriving DecidableEq

/-- The inner loop of the verifier-result case: one `Have` for every set bit. -/
def sendHaves (bf : Bitfield) (p : PeerPtr) : Torrent → List Nat → Option Torrent
  | t, [] => some t
  | t, i :: rest => do
    let has ← bf.Test i
    if has then sendHaves bf p (t.emit (.peerSend p (.have i))) rest
    else sendHaves bf p t rest

/-- The outer loop of the verifier-result case over the connected peers still to visit. -/
def announceBitfield (bf : Bitfield) : Torrent → List (Conn × PeerPtr) → Option Torrent
  | t, [] => some t
  | t, (_, p) :: rest => do
    let t1 ← sendHaves bf p t (List.range bf.Len)
    let t2 ← updateInterestedState t1 p
    announceBitfield bf t2 rest

/-- The case `res := <-t.verifierResultC` of `run`; `resumeFails` tells whether the write of
the bitfield to the resume database returns an error. -/
def verifierResult (env : Env) (t : Torrent) (res : VerifierResult) (resumeFails : Bool) :
    Option Torrent :=
  let t1 : Torrent := { t with verifier := false }
  if res.Error then some (stop t1 .verification)
  else
    let t2 : Torrent := { t1 with bitfield := some res.Bitfield }
    let t3 := if t2.resume then t2.emit (.resumeWriteBitfield res.Bitfield.Bytes) else t2
    if t2.resume && resumeFails then some (stop t3 .resumeBitfield)
    else do
      let t4 ← announceBitfield res.Bitfield t3 t3.connectedPeers
      let t5 ← checkCompletion t4
      let t6 ← processQueuedMessages env t5
      some (startTasks t6)

/-! ## The choke timers -/

/-- The peers of a range over `connectedPeers` whose object satisfies `keep`; a pointer
without an object panics. -/
def selectPeers (heap : List Peer) (keep : Peer → Bool) :
    List (Conn × PeerPtr) → Option (List PeerPtr)
  | [] => some []
  | (_, p) :: rest => do
    let pe ← heap[p]?
    let tail ← selectPeers heap keep rest
    some (if keep pe then p :: tail else tail)

/-- Insertion of a pointer into a list ranked by `peer.ByDownloadRate`. -/
def insertByRate (env : Env) (heap : List Peer) (p : PeerPtr) : List PeerPtr → List PeerPtr
  | [] => [p]
  | q :: rest =>
    match heap[p]?, heap[q]? with
    | some a, some b =>
      if env.byDownloadRate b a then q :: insertByRate env heap p rest else p :: q :: rest
    | _, _ => p :: q :: rest

/-- The call `sort.Sort(peer.ByDownloadRate(peers))`. -/
def sortByRate (env : Env) (heap : List Peer) : List PeerPtr → List PeerPtr
  | [] => []
  | p :: rest => insertByRate env heap p (sortByRate env heap rest)

/-- The loop that resets the byte counter of every connected peer. -/
def resetCounters : Torrent → List (Conn × PeerPtr) → Option Torrent
  | t, [] => some t
  | t, (_, p) :: rest => do
    let pe ← t.heap[p]?
    resetCounters (t.setPeer p { pe with BytesDownlaodedInChokePeriod := 0 }) rest

/-- The loop that unchokes the peers given, which are the first three of the ranking. -/
def unchokeAll : Torrent → List PeerPtr → Option Torrent
  | t, [] => some t
  | t, p :: rest => do
    let t' ← unchokePeer t p
    unchokeAll t' rest

/-- The loop that chokes every connected peer outside `unchokedPeers`. -/
def chokeOthers (unchokedPeers : List PeerPtr) : Torrent → List (Conn × PeerPtr) → Option Torrent
  | t, [] => some t
  | t, (_, p) :: rest =>
    if p ∈ unchokedPeers then chokeOthers unchokedPeers t rest
    else do
      let t' ← chokePeer t p
      chokeOthers unchokedPeers t' rest

/-- The case `<-t.unchokeTimerC` of `run`. -/
def unchokeTick (env : Env) (t : Torrent) : Option Torrent := do
  let peers ← selectPeers t.heap (fun pe => !pe.OptimisticUnhoked) t.connectedPeers
  let peers := sortByRate env t.heap peers
  let t1 ← resetCounters t t.connectedPeers
  let unchokedPeers := peers.take 3
  let t2 ← unchokeAll t1 unchokedPeers
  chokeOthers unchokedPeers t2 t2.connectedPeers

/-- The statement `if t.optimisticUnchokedPeer != nil { ... }` of the optimistic tick: the
previous pick loses its flag and is choked. -/
def chokePreviousPick (t : Torrent) : Option Torrent :=
  match t.optimisticUnchokedPeer with
  | some q => do
    let pe ← t.heap[q]?
    chokePeer (t.setPeer q { pe with OptimisticUnhoked := false }) q
  | none => some t

/-- The case `<-t.optimisticUnchokeTimerC` of `run`; `rnd` is the value from which
`rand.Intn(len(peers))` is taken. -/
def optimisticUnchokeTick (t : Torrent) (rnd : Nat) : Option Torrent := do
  let peers ← selectPeers t.heap (fun pe => !pe.OptimisticUnhoked && pe.AmChoking)
    t.connectedPeers
  let t1 ← chokePreviousPick t
  if peers.length = 0 then some { t1 with optimisticUnchokedPeer := none }
  else do
    let p ← peers[rnd % peers.length]?
    let pe ← t1.heap[p]?
    let t2 ← unchokePeer (t1.setPeer p { pe with OptimisticUnhoked := true }) p
    some { t2 with optimisticUnchokedPeer := some p }

/-! ## Connections, handshakes and slots -/

/-- The case `conn := <-t.newInConnC` of `run`. -/
def newInConn (env : Env) (t : Torrent) (conn : NetConn) : Torrent :=
  if t.incomingHandshakers.length + t.incomingPeers.length ≥ env.maxPeerAccept then
    t.emit (.netConnClose conn)
  else
    { t with incomingHandshakers := mapSet t.incomingHandshakers conn.RemoteAddr conn }.emit
      (.incomingHandshakerRun conn)

/-- The result of an incoming handshake. -/
structure IncomingHandshakerResult where
  Conn : NetConn
  Peer : Rain.Conn
  Error : Bool := false
  deriving DecidableEq

/-- The case `res := <-t.incomingHandshakerResultC` of `run`. -/
def incomingHandshakerResult (env : Env) (t : Torrent) (res : IncomingHandshakerResult) :
    Option Torrent :=
  let t1 : Torrent := { t with
    incomingHandshakers := mapDelete t.incomingHandshakers res.Conn.RemoteAddr }
  if res.Error then some (t1.emit (.netConnClose res.Conn))
  else startPeer env t1 res.Peer .incoming

/-- The result of an outgoing handshake. -/
structure OutgoingHandshakerResult where
  Addr : String
  Peer : Rain.Conn
  Error : Bool := false
  deriving DecidableEq

/-- The case `res := <-t.outgoingHandshakerResultC` of `run`. -/
def outgoingHandshakerResult (env : Env) (t : Torrent) (res : OutgoingHandshakerResult) :
    Option Torrent :=
  let t1 : Torrent := { t with
    outgoingHandshakers := mapDelete t.outgoingHandshakers res.Addr }
  if res.Error then some t1
  else startPeer env t1 res.Peer .outgoing

/-- The case `<-t.dialLimit.Ready` of `run`; `addr` is what `t.addrList.Pop()` returns. -/
def dialLimitReady (t : Torrent) (addr : Option String) : Torrent :=
  match addr with
  | none => t.emit .dialLimitStop
  | some a =>
    { t with outgoingHandshakers := mapSet t.outgoingHandshakers a a }.emit
      (.outgoingHandshakerRun a)

/-- The case `<-t.infoDownloaders.Ready` of `run`; `next` is what `t.nextInfoDownload()`
returns. -/
def infoDownloadersReady (t : Torrent) (next : Option InfoDownloader) : Option Torrent :=
  match t.info, next with
  | some _, _ => some (t.emit .infoDownloadersStop)
  | none, none => some (t.emit .infoDownloadersStop)
  | none, some id => do
    let t1 : Torrent := { t with infoDownloads := mapSet t.infoDownloads id.Peer id }
    let p ← mapGet t1.connectedPeers id.Peer
    let pe ← t1.heap[p]?
    some ((t1.setPeer p { pe with InfoDownloader := some id }).emit (.infoDownloaderRun id))

/-- The case `<-t.pieceDownloaders.Ready` of `run`; `next` is what `t.nextPieceDownload()`
returns. -/
def pieceDownloadersReady (t : Torrent) (next : Option PieceDownloader) : Option Torrent :=
  match t.bitfield, next with
  | none, _ => some (t.emit .pieceDownloadersStop)
  | some _, none => some (t.emit .pieceDownloadersStop)
  | some _, some pd => do
    let t1 : Torrent := { t with pieceDownloads := mapSet t.pieceDownloads pd.Peer pd }
    let pc ← t1.pieces[pd.Piece.Index]?
    let pc1 : Piece := { pc with RequestedPeers := setInsert pc.RequestedPeers pd.Peer }
    let t2 : Torrent := { t1 with pieces := t1.pieces.set pd.Piece.Index pc1 }
    let p ← mapGet t2.connectedPeers pd.Peer
    let pe ← t2.heap[p]?
    some ((t2.setPeer p { pe with Downloader := some pd }).emit (.downloaderRun pd))

/-! ## Statistics -/

/-- The value of an `int64` after overflow. -/
def toInt64 (x : Int) : Int := (x + 2 ^ 63) % 2 ^ 64 - 2 ^ 63

/-- The constant `math.MaxUint32`. -/
def MaxUint32 : Int := 2 ^ 32 - 1

/-- The value of `stats.BytesComplete` in the branch of `stats` with info and bitfield. -/
def bytesComplete (t : Torrent) (info : Info) (bf : Bitfield) : Option Int := do
  let complete := toInt64 ((info.PieceLength : Int) * (bf.Count : Int))
  let last := (bf.Len + u32 - 1) % u32
  let lastSet ← bf.Test last
  if lastSet then do
    let pc ← t.pieces[last]?
    some (toInt64 (toInt64 (complete - info.PieceLength) + pc.Piece.Length))
  else some complete

/-- The method `Torrent.stats`. -/
def stats (t : Torrent) : Option Stats :=
  match t.info, t.bitfield with
  | some info, some bf => do
    let complete ← bytesComplete t info bf
    some { Status := status t, BytesTotal := info.TotalLength, BytesComplete := complete,
           BytesIncomplete := toInt64 (info.TotalLength - complete) }
  | _, _ => some { Status := status t, BytesIncomplete := MaxUint32 }

/-- The value of `tr.BytesLeft` in the announcer-request case. -/
def bytesLeft (t : Torrent) : Option Int :=
  match t.bitfield with
  | none => some MaxUint32
  | some bf => do
    let info ← t.info
    some (toInt64 (info.TotalLength - toInt64 ((info.PieceLength : Int) * (bf.Count : Int))))

/-- The case `req := <-t.announcerRequests` of `run`. -/
def announcerRequest (t : Torrent) : Option Torrent := do
  let left ← bytesLeft t
  some (t.emit (.announcerResponse
    { InfoHash := t.infoHash, PeerID := t.peerID, Port := t.port, BytesLeft := left }))

/-! ## Closing -/

/-- The method `Torrent.close`. -/
def close (t : Torrent) : Torrent :=
  let t := stop t .closed
  let t := t.outgoingHandshakers.foldl (fun t e => t.emit (.outgoingHandshakerClose e.1)) t
  let t := t.incomingHandshakers.foldl (fun t e => t.emit (.incomingHandshakerClose e.1)) t
  let t := t.infoDownloads.foldl (fun t e => t.emit (.infoDownloaderClose e.2)) t
  let t := t.pieceDownloads.foldl (fun t e => t.emit (.downloaderClose e.2)) t
  let t := t.incomingPeers.foldl (fun t p => t.emit (.peerClose p)) t
  let t := t.outgoingPeers.foldl (fun t p => t.emit (.peerClose p)) t
  t

/-! ## The event loop -/

/-- The events of the `select` in `run`, with the answers of the collaborators that the
handling of the event consults. -/
inductive Event where
  | closeC
  | startCommand
  | stopCommand
  | notifyErrorCommand
  | statsCommand
  | allocatorProgress
  | allocatorResult (res : AllocatorResult)
  | verifierProgress
  | verifierResult (res : VerifierResult) (resumeFails : Bool)
  | addrsFromTrackers (addrs : List String)
  | dialLimitReady (addr : Option String)
  | newInConn (conn : NetConn)
  | announcerRequest
  | infoDownloadersReady (next : Option InfoDownloader)
  | infoDownloaderResult (res : InfoDownloaderResult) (resumeFails : Bool)
  | pieceDownloadersReady (next : Option PieceDownloader)
  | pieceDownloaderResult (res : PieceDownloaderResult)
  | writeResponse (resp : WriteResponse) (resumeFails : Bool)
  | unchokeTimer
  | optimisticUnchokeTimer (rnd : Nat)
  | incomingHandshakerResult (res : IncomingHandshakerResult)
  | outgoingHandshakerResult (res : OutgoingHandshakerResult)
  | peerDisconnected (pe : PeerPtr)
  | message (pm : PeerMessage)
  deriving DecidableEq

/-- One iteration of the loop of `Torrent.run`: the handling of one event.  On `closeC` the
loop returns and the deferred calls run. -/
def run (env : Env) (t : Torrent) : Event → Option Torrent
  | .closeC => some ((close t).emit .closeDoneC)
  | .startCommand => some (start t)
  | .stopCommand => some (stop t .stopped)
  | .notifyErrorCommand => some (t.emit .notifyErrorResponse)
  | .statsCommand => do
    let st ← stats t
    some (t.emit (.statsResponse st))
  | .allocatorProgress => some t
  | .allocatorResult res => allocatorResult env t res
  | .verifierProgress => some t
  | .verifierResult res resumeFails => verifierResult env t res resumeFails
  | .addrsFromTrackers addrs =>
    some ((t.emit (.addrListPush addrs)).emit (.dialLimitSignal addrs.length))
  | .dialLimitReady addr => some (dialLimitReady t addr)
  | .newInConn conn => some (newInConn env t conn)
  | .announcerRequest => announcerRequest t
  | .infoDownloadersReady next => infoDownloadersReady t next
  | .infoDownloaderResult res resumeFails => infoDownloaderResult env t res resumeFails
  | .pieceDownloadersReady next => pieceDownloadersReady t next
  | .pieceDownloaderResult res => pieceDownloaderResult env t res
  | .writeResponse resp resumeFails => writeResponse t resp resumeFails
  | .unchokeTimer => unchokeTick env t
  | .optimisticUnchokeTimer rnd => optimisticUnchokeTick t rnd
  | .incomingHandshakerResult res => incomingHandshakerResult env t res
  | .outgoingHandshakerResult res => outgoingHandshakerResult env t res
  | .peerDisconnected pe => peerDisconnected t pe
  | .message pm => handlePeerMessage env t pm

/-- The handling of a sequence of events, one after the other. -/
def runAll (env : Env) : Torrent → List Event → Option Torrent
  | t, [] => some t
  | t, e :: rest => do
    let t' ← run env t e
    runAll env t' rest

/-! ## The piece writer (`internal/piecewriter/piecewriter.go`) -/

/-- What a piece writer does to its collaborators. -/
inductive WriterEffect where
  /-- The call `writesPerSecond.Update(n)`. -/
  | writesPerSecond (n : Int)
  /-- The call `writeBytesPerSecond.Update(n)`. -/
  | writeBytesPerSecond (n : Int)
  /-- The call `w.Piece.Data.Write(data)`. -/
  | write (p : DataPiece) (data : List Byte)
  /-- The writer sent on `resultC`. -/
  | result (HashOK : Bool) (Error : Option String)
  deriving DecidableEq

/-- The struct `PieceWriter`; `Error` is `none` for a nil error. -/
structure PieceWriter where
  Piece : DataPiece
  Source : Nat := 0
  Buffer : List Byte := []
  HashOK : Bool := false
  Error : Option String := none
  deriving DecidableEq

/-- The function `piecewriter.New`. -/
def PieceWriter.New (p : DataPiece) (source : Nat) (buf : List Byte) : PieceWriter :=
  { Piece := p, Source := source, Buffer := buf }

/-- The method `PieceWriter.Run`.  `verifyHash` is the method `VerifyHash` of the piece with
a fresh SHA-1 state, `writeError` is the error that the write to storage returns, and `closed`
tells whether the final `select` takes the branch of `closeC`.  The result is the writer
afterwards and what it did. -/
def PieceWriter.Run (verifyHash : DataPiece → List Byte → Bool) (writeError : Option String)
    (closed : Bool) (w : PieceWriter) : PieceWriter × List WriterEffect :=
  let w1 : PieceWriter := { w with HashOK := verifyHash w.Piece w.Buffer }
  let (w2, log) : PieceWriter × List WriterEffect :=
    if w1.HashOK then
      ({ w1 with Error := writeError },
        [.writesPerSecond 1, .writeBytesPerSecond w1.Buffer.length, .write w1.Piece w1.Buffer])
    else (w1, [])
  if closed then (w2, log) else (w2, log ++ [.result w2.HashOK w2.Error])

/-! ## The plain handshake (`librain/handshake.go`) -/

namespace Librain

/-- The type `shared.InfoHash`, an array of 20 bytes. -/
abbrev InfoHash := { l : List Byte // l.length = 20 }

/-- The type `shared.PeerID`, an array of 20 bytes. -/
abbrev PeerID := { l : List Byte // l.length = 20 }

/-- Modelled from the spec: the constant `bitTorrent10pstrLen` is not part of the sources;
the length byte of the handshake is 19. -/
def bitTorrent10pstrLen : Nat := 19

/-- Modelled from the spec: the constant `bitTorrent10pstr` is not part of the sources; it is
the literal `BitTorrent protocol`. -/
def bitTorrent10pstr : List Byte :=
  [66, 105, 116, 84, 111, 114, 114, 101, 110, 116, 32, 112, 114, 111, 116, 111, 99, 111, 108]

/-- The errors of the two read functions. -/
inductive HandShakeError where
  | EOF
  | ErrUnexpectedEOF
  | invalidPstrlen (pstrLen : Byte)
  | invalidPstr (pstr : List Byte)
  deriving DecidableEq

/-- The connection of a `peerConn`: the bytes still to be read and the bytes written. -/
structure peerConn where
  input : List Byte := []
  output : List Byte := []
  deriving DecidableEq

/-- The call `io.ReadFull(p.conn, buf)` for a buffer of `n` bytes (and a read of `n` bytes by
`binary.Read`): the bytes and the connection afterwards. -/
def readFull (p : peerConn) (n : Nat) : Except HandShakeError (List Byte × peerConn) :=
  if n ≤ p.input.length then .ok (p.input.take n, { p with input := p.input.drop n })
  else if p.input.length = 0 then .error .EOF
  else .error .ErrUnexpectedEOF

/-- The call `io.CopyN(ioutil.Discard, p.conn, n)`: the connection after `n` bytes have been
discarded; an input that ends before that gives `io.EOF`, however many bytes it had. -/
def copyN (p : peerConn) (n : Nat) : Except HandShakeError peerConn :=
  if n ≤ p.input.length then .ok { p with input := p.input.drop n }
  else .error .EOF

/-- The method `readHandShake1`. -/
def readHandShake1 (p : peerConn) : Except HandShakeError (InfoHash × peerConn) :=
  match readFull p 1 with
  | .error e => .error e
  | .ok (b, p1) =>
    let pstrLen : Byte := b.headD 0
    if pstrLen.val ≠ bitTorrent10pstrLen then .error (.invalidPstrlen pstrLen)
    else
      match readFull p1 bitTorrent10pstrLen with
      | .error e => .error e
      | .ok (pstr, p2) =>
        if pstr ≠ bitTorrent10pstr then .error (.invalidPstr pstr)
        else
          match copyN p2 8 with
          | .error e => .error e
          | .ok p3 =>
            match readFull p3 20 with
            | .error e => .error e
            | .ok (ih, p4) =>
              if h : ih.length = 20 then .ok (⟨ih, h⟩, p4) else .error .ErrUnexpectedEOF

/-- The method `readHandShake2`. -/
def readHandShake2 (p : peerConn) : Except HandShakeError (PeerID × peerConn) :=
  match readFull p 20 with
  | .error e => .error e
  | .ok (id, p1) =>
    if h : id.length = 20 then .ok (⟨id, h⟩, p1) else .error .ErrUnexpectedEOF

/-- The struct `peerHandShake`; `Reserved` is its blank field of eight bytes. -/
structure peerHandShake where
  Pstrlen : Byte
  Pstr : List Byte
  Reserved : List Byte
  InfoHash : InfoHash
  PeerID : PeerID
  deriving DecidableEq

/-- The built-in `copy(dst, src)`: as many bytes as fit go to the front of `dst`. -/
def copy (dst src : List Byte) : List Byte :=
  src.take dst.length ++ dst.drop src.length

/-- The function `newPeerHandShake`. -/
def newPeerHandShake (ih : InfoHash) (id : PeerID) : peerHandShake :=
  { Pstrlen := Fin.ofNat bitTorrent10pstrLen
    Pstr := copy (List.replicate bitTorrent10pstrLen 0) bitTorrent10pstr
    Reserved := List.replicate 8 0
    InfoHash := ih
    PeerID := id }

/-- The encoding of the struct by `binary.Write`: the fields in order, byte by byte. -/
def peerHandShake.encode (h : peerHandShake) : List Byte :=
  [h.Pstrlen] ++ h.Pstr ++ h.Reserved ++ h.InfoHash.val ++ h.PeerID.val

/-- The method `sendHandShake`: the encoded struct is written to the connection. -/
def sendHandShake (p : peerConn) (ih : InfoHash) (id : PeerID) : peerConn :=
  { p with output := p.output ++ (newPeerHandShake ih id).encode }

end Librain

/-! ## Observations on states -/

/-- The write requests in a log, in order. -/
def writeRequests : List Effect → List (DataPiece × List Byte)
  | [] => []
  | .writeRequest p d :: rest => (p, d) :: writeRequests rest
  | _ :: rest => writeRequests rest

/-- The second state has the bitfield and the write requests of the first. -/
def Untouched (t t' : Torrent) : Prop :=
  t'.bitfield = t.bitfield ∧ writeRequests t'.log = writeRequests t.log

/-- Whether the engine has a bitfield in which bit `i` is set. -/
def bitSet (t : Torrent) (i : Nat) : Bool :=
  match t.bitfield with
  | some bf => decide (bf.Test i = some true)
  | none => false

/-! ## Sample data -/

/-- Sample collaborators: a toy digest (the first byte), verification by that digest, blocks
found by offset and length, an info parser that keeps the bytes, a cap of two inbound peers and
the ranking by bytes downloaded. -/
def exEnv : Env :=
  { sha1 := fun b => b.take 1
    verify := fun p b => decide (b.take 1 = p.Hash)
    findBlock := fun p b l => p.Blocks.find? (fun x => decide (x.Begin = b ∧ x.Length = l))
    newInfo := fun b => some { Bytes := b }
    newExtensionHandshake := {}
    maxPeerAccept := 2
    byDownloadRate := fun a b =>
      decide (a.BytesDownlaodedInChokePeriod ≥ b.BytesDownlaodedInChokePeriod) }

/-- A sample connection. -/
def exConn1 : Conn := { addr := 1, ID := [1] }

/-- A second sample connection. -/
def exConn2 : Conn := { addr := 2, ID := [2], FastExtension := true }

/-- The storage pieces of the sample torrent: four bytes and two bytes. -/
def exData : List DataPiece :=
  [{ Index := 0, Length := 4, Hash := [7], Blocks := [{ Index := 0, Begin := 0, Length := 4 }] },
   { Index := 1, Length := 2, Hash := [9], Blocks := [{ Index := 0, Begin := 0, Length := 2 }] }]

/-- The info of the sample torrent. -/
def exInfo : Info :=
  { PieceLength := 4, NumPieces := 2, TotalLength := 6, InfoSize := 3, Bytes := [1, 2, 3] }

/-- A running engine that has nothing of the sample torrent yet, with one connected peer. -/
def exDownloading : Torrent :=
  { infoHash := [1]
    info := some exInfo
    bitfield := some ⟨[false, false]⟩
    data := some exData
    pieces := exData.map Piece.new
    sortedPieces := [0, 1]
    heap := [Peer.new exConn1]
    connectedPeers := [(exConn1, 0)]
    peerIDs := [[1]]
    outgoingPeers := [0]
    running := true }

/-- The same engine while the verifier runs: the bitfield does not exist yet. -/
def exVerifying : Torrent :=
  { exDownloading with bitfield := none, verifier := true }

/-- The sample engine after the write of piece 0 has been answered without error. -/
def exWritten : Torrent :=
  { exDownloading with
    bitfield := some ⟨[true, false]⟩
    log := [.peerSend 0 (.have 0)] }

/-- The states that an engine without peers reaches by calls of `startPeer` and by
peer-disconnected events, each for a peer that is connected when the event arrives. -/
inductive PeerReach (env : Env) : Torrent → Prop where
  | init (t : Torrent) (hc : t.connectedPeers = []) (hi : t.peerIDs = []) : PeerReach env t
  | start (t t' : Torrent) (p : Conn) (l : PeerList) (h : PeerReach env t)
      (hs : startPeer env t p l = some t') : PeerReach env t'
  | disconnected (t t' : Torrent) (c : Conn) (pe : PeerPtr) (h : PeerReach env t)
      (hc : (c, pe) ∈ t.connectedPeers) (hs : run env t (.peerDisconnected pe) = some t') :
      PeerReach env t'

/-- The identity of the peer that `p` designates. -/
def peerIDOf (t : Torrent) (p : PeerPtr) : Option PeerID := (t.heap[p]?).map Peer.ID

/-- What holds of the peers of every reachable state: a connected peer has an object that
wraps its connection, the identities of the connections are distinct, and `peerIDs` holds
exactly those identities, each once. -/
structure PeerInv (t : Torrent) : Prop where
  conn : ∀ c p, (c, p) ∈ t.connectedPeers → ∃ pe, t.heap[p]? = some pe ∧ pe.Conn = c
  nodup : (t.connectedPeers.map (fun e => e.1.ID)).Nodup
  ids : ∀ id, id ∈ t.peerIDs ↔ ∃ e ∈ t.connectedPeers, e.1.ID = id
  idsNodup : t.peerIDs.Nodup

/-- The engine without torrent data after `startPeer` for the first sample connection. -/
def exOnePeer : Torrent :=
  { heap := [{ Peer.new exConn1 with AmChoking := false }]
    connectedPeers := [(exConn1, 0)]
    peerIDs := [[1]]
    outgoingPeers := [0]
    log := [.peerRun 0,
      .connSend exConn1 (.extension ExtensionHandshakeID (.handshake {})),
      .peerSend 0 .unchoke] }

/-- The writes to storage in the log of a piece writer, in order. -/
def writerWrites : List WriterEffect → List (DataPiece × List Byte)
  | [] => []
  | .write p d :: rest => (p, d) :: writerWrites rest
  | _ :: rest => writerWrites rest

/-- An engine started from a magnet link: no info yet, and an info download from its one
peer under way. -/
def exMagnet : Torrent :=
  { infoHash := [1]
    heap := [{ Peer.new exConn1 with InfoDownloader := some ⟨exConn1⟩ }]
    connectedPeers := [(exConn1, 0)]
    peerIDs := [[1]]
    outgoingPeers := [0]
    infoDownloads := [(exConn1, ⟨exConn1⟩)]
    running := true }

/-- A sequence of calls of `checkCompletion` on one torrent; before each call the bitfield
is the next one of the list. -/
def checkCompletions : Torrent → List Bitfield → Option Torrent
  | t, [] => some t
  | t, bf :: rest => do
    let t' ← checkCompletion { t with bitfield := some bf }
    checkCompletions t' rest

/-- The number of times that `completeC` is closed in a log. -/
def completeCloses (log : List Effect) : Nat := log.count .closeCompleteC

/-- The second state has the bitfield, the connected peers and, peer by peer, the queued
messages of the first. -/
def Kept (t t' : Torrent) : Prop :=
  t'.bitfield = t.bitfield ∧ t'.connectedPeers = t.connectedPeers ∧
    t'.heap.map (fun pe => pe.Messages) = t.heap.map (fun pe => pe.Messages)

/-- The queued messages of the connected peers given, as the events of their arrival: peer
by peer in the order of the range, and for one peer in the order of its queue.  There is no
such list if one of the peers has no object. -/
def queuedEvents (t : Torrent) : List (Conn × PeerPtr) → Option (List Event)
  | [] => some []
  | (_, p) :: rest => do
    let msgs ← (t.heap[p]?).map (fun pe => pe.Messages)
    let tail ← queuedEvents t rest
    some (msgs.map (fun m => Event.message { Peer := p, Message := m }) ++ tail)

/-- The sample engine with two messages of its peer in the queue. -/
def exQueued : Torrent :=
  { exDownloading with heap := [{ Peer.new exConn1 with Messages := [.have 1, .have 0] }] }

/-- How often the message `m` was handed to the peer `p` by `SendMessage` in a log. -/
def sentTo (log : List Effect) (p : PeerPtr) (m : Message) : Nat :=
  log.count (.peerSend p m)

/-- What the handling of a write response for the piece `index` relies on: the bitfield
exists and has a bit for the piece, the engine has a piece for every bit, every connected
peer has an object, and the completion channel is open while the torrent is not completed. -/
def WriteReady (t : Torrent) (index : Nat) : Prop :=
  ∃ bf, t.bitfield = some bf ∧ index < bf.Len ∧ bf.Len ≤ t.pieces.length ∧
    (∀ e ∈ t.connectedPeers, e.2 < t.heap.length) ∧
    (t.completed = false → t.completeCClosed = false)

/-- The second state has the bitfield, the pieces, the info, the connected peers and the
number of peer objects of the first. -/
def Stable (t t' : Torrent) : Prop :=
  t'.bitfield = t.bitfield ∧ t'.pieces = t.pieces ∧ t'.info = t.info ∧
    t'.connectedPeers = t.connectedPeers ∧ t'.heap.length = t.heap.length

/-- The sample engine with a resume database. -/
def exResuming : Torrent := { exDownloading with resume := true }

/-- Whether the object that `p` designates exists and satisfies `f`. -/
def peerHas (heap : List Peer) (f : Peer → Bool) (p : PeerPtr) : Bool :=
  match heap[p]? with
  | some pe => f pe
  | none => false

/-- The number of connected peers whose object satisfies `f`. -/
def countPeers (t : Torrent) (f : Peer → Bool) : Nat :=
  (t.connectedPeers.filter (fun e => peerHas t.heap f e.2)).length

/-- The flag `AmChoking` of the object that `p` designates. -/
def choking (t : Torrent) (p : PeerPtr) : Option Bool := (t.heap[p]?).map (fun pe => pe.AmChoking)

/-- The flag `OptimisticUnhoked` of the object that `p` designates. -/
def optimistic (t : Torrent) (p : PeerPtr) : Option Bool :=
  (t.heap[p]?).map (fun pe => pe.OptimisticUnhoked)

/-- The second state has the connected peers, the number of peer objects and the optimistic
flags of the first. -/
def SamePeers (t t' : Torrent) : Prop :=
  t'.connectedPeers = t.connectedPeers ∧ t'.heap.length = t.heap.length ∧
    ∀ q, optimistic t' q = optimistic t q

/-- The sample engine with five connected peers: four choked ones that uploaded 10, 40, 30
and 20 bytes in this period, and one that is optimistically unchoked. -/
def exSwarm : Torrent :=
  { exDownloading with
    heap :=
      [{ Conn := { addr := 1, ID := [1] }, BytesDownlaodedInChokePeriod := 10 },
       { Conn := { addr := 2, ID := [2] }, BytesDownlaodedInChokePeriod := 40 },
       { Conn := { addr := 3, ID := [3] }, BytesDownlaodedInChokePeriod := 30 },
       { Conn := { addr := 4, ID := [4] }, BytesDownlaodedInChokePeriod := 20 },
       { Conn := { addr := 5, ID := [5] }, AmChoking := false, OptimisticUnhoked := true }]
    connectedPeers :=
      [({ addr := 1, ID := [1] }, 0), ({ addr := 2, ID := [2] }, 1),
       ({ addr := 3, ID := [3] }, 2), ({ addr := 4, ID := [4] }, 3),
       ({ addr := 5, ID := [5] }, 4)]
    peerIDs := [[1], [2], [3], [4], [5]]
    outgoingPeers := [0, 1, 2, 3, 4]
    optimisticUnchokedPeer := some 4 }

/-- The sample engine with its peer unchoked. -/
def exServing : Torrent :=
  { exDownloading with heap := [{ Peer.new exConn1 with AmChoking := false }] }

/-- The sample engine with both pieces, whose peer has sent an extension handshake. -/
def exSeeding : Torrent :=
  { exDownloading with
    bitfield := some ⟨[true, true]⟩
    completed := true
    completeCClosed := true
    heap := [{ Peer.new exConn1 with
      ExtensionHandshake := some { M := [(ExtensionMetadataKey, 3)] } }] }

/-- The number that the new-connection case compares with `maxPeerAccept`. -/
def inboundCount (t : Torrent) : Nat :=
  t.incomingHandshakers.length + t.incomingPeers.length

/-- Inbound connections: two from the same remote address, then two from other addresses. -/
def exInA1 : NetConn := { addr := 1, RemoteAddr := "10.0.0.1:6881" }

/-- The second connection from the address of `exInA1`. -/
def exInA2 : NetConn := { addr := 2, RemoteAddr := "10.0.0.1:6881" }

/-- A connection from a second address. -/
def exInB : NetConn := { addr := 3, RemoteAddr := "10.0.0.2:6881" }

/-- A connection from a third address. -/
def exInC : NetConn := { addr := 4, RemoteAddr := "10.0.0.3:6881" }

/-- A run on the fresh engine: the second connection replaces the handshaker entry of the
first, the failure of the first removes the entry of the second, and the success of the
second then adds a peer although no entry is removed. -/
def exInboundRun : List Event :=
  [ .newInConn exInA1, .newInConn exInA2, .newInConn exInB,
    .incomingHandshakerResult { Conn := exInA1, Peer := exConn1, Error := true },
    .newInConn exInC,
    .incomingHandshakerResult { Conn := exInA2, Peer := exConn1 } ]

/-- An engine with one registered incoming handshaker. -/
def exAccepting : Torrent :=
  { running := true, incomingHandshakers := [(exInB.RemoteAddr, exInB)] }

/-- The sum of the lengths of the pieces whose bit is set. -/
def completeLength : List Rain.Piece → List Bool → Nat
  | pc :: pcs, b :: bs => (if b then pc.Piece.Length else 0) + completeLength pcs bs
  | _, _ => 0

/-- The sum of the lengths of all pieces. -/
def piecesLength (pcs : List Rain.Piece) : Nat := (pcs.map (fun pc => pc.Piece.Length)).sum

/-! ## The announcer (`internal/announcer/announcer.go`) -/

namespace Announcer

/-- Modelled from the spec: the package `internal/tracker` is not part of the sources; these
are the four events that `Run` passes to `tr.Announce`. -/
inductive TrackerEvent where
  | EventNone
  | EventCompleted
  | EventStarted
  | EventStopped
  deriving DecidableEq

/-- What one call of the closure `announce` meets: the answer of `tr.Announce` (`Error` for
`err != nil`, else `Interval` and `Peers`), the value that `retry.NextBackOff()` would
return, and which case of the inner `select` proceeds (`Sent` for the send on
`a.peerList.NewPeers`, otherwise `<-stopC`). -/
structure AnnounceOutcome where
  Error : Bool := false
  Interval : Nat := 0
  Peers : List String := []
  NextBackOff : Nat := 0
  Sent : Bool := true
  deriving DecidableEq

/-- What the announcer does to its collaborators. -/
inductive Action where
  | logError
  | httptrackerNew
  | udptrackerNew
  | retryReset
  | announce (e : TrackerEvent)
  | newPeers (peers : List String)
  | trackerClose
  deriving DecidableEq

/-- The case of the `select` in the loop of `Run` that proceeds, with what the call of
`announce` in that case meets. -/
inductive Signal where
  | timer (r : AnnounceOutcome)
  | completed (r : AnnounceOutcome)
  | stop (r : AnnounceOutcome)
  deriving DecidableEq

/-- The outcome that a signal carries. -/
def Signal.outcome : Signal → AnnounceOutcome
  | .timer r => r
  | .completed r => r
  | .stop r => r

/-- The struct `Announcer`, as far as `Run` reads it: `scheme` is the result of
`url.Parse(a.url)` (`none` for an error, else `u.Scheme`), `completedC` tells whether the
channel is not nil. -/
structure Announcer where
  scheme : Option String := none
  completedC : Bool := true
  deriving DecidableEq

/-- The variables of `Run`: `nextAnnounce`, whether `a.completedC` is not nil, whether `Run`
has returned, and the actions so far. -/
structure State where
  nextAnnounce : Nat := 0
  completedC : Bool := true
  returned : Bool := false
  log : List Action := []
  deriving DecidableEq

/-- Append one action to the log. -/
def State.emit (s : State) (a : Action) : State := { s with log := s.log ++ [a] }

/-- The closure `announce` of `Run`. -/
def announce (s : State) (e : TrackerEvent) (r : AnnounceOutcome) : State :=
  let s := s.emit (.announce e)
  if r.Error then
    { s.emit .logError with nextAnnounce := r.NextBackOff }
  else
    let s := { s.emit .retryReset with nextAnnounce := r.Interval }
    if r.Sent then s.emit (.newPeers r.Peers) else s

/-- The `for` loop of `Run` on the signals that arrive.  A receive from a nil channel never
proceeds, so a completion signal is not taken once `a.completedC` is nil. -/
def loop (s : State) : List Signal → State
  | [] => s
  | .timer r :: rest => loop (announce s .EventNone r) rest
  | .completed r :: rest =>
    if s.completedC then loop { announce s .EventCompleted r with completedC := false } rest
    else loop s rest
  | .stop r :: _ => { (announce s .EventStopped r).emit .trackerClose with returned := true }

/-- The method `Announcer.Run`; `first` is what the announce of `EventStarted` meets. -/
def Run (a : Announcer) (first : AnnounceOutcome) (sigs : List Signal) : State :=
  match a.scheme with
  | none => { completedC := a.completedC, returned := true, log := [.logError] }
  | some scheme =>
    if scheme = "http" ∨ scheme = "https" then
      loop (announce { completedC := a.completedC, log := [.httptrackerNew, .retryReset] }
        .EventStarted first) sigs
    else if scheme = "udp" then
      loop (announce { completedC := a.completedC, log := [.udptrackerNew, .retryReset] }
        .EventStarted first) sigs
    else { completedC := a.completedC, returned := true, log := [.logError] }

/-- The events announced, in order. -/
def announced (log : List Action) : List TrackerEvent :=
  log.filterMap (fun a => match a with
    | .announce e => some e
    | _ => none)

/-- Every push of peers in the log directly follows an announce and the reset of the backoff
that the success branch of `announce` performs. -/
def PushAfterSuccess (log : List Action) : Prop :=
  ∀ pre ps post, log = pre ++ .newPeers ps :: post →
    ∃ pre' e, pre = pre' ++ [.announce e, .retryReset]

/-- A run over a tracker that fails twice, then answers; the torrent completes, the timer
fires once more and the announcer is stopped. -/
def exSignals : List Signal :=
  [ .timer { Error := true, NextBackOff := 10 },
    .timer { Interval := 1800, Peers := ["10.0.0.2:6881"] },
    .completed { Interval := 1800 },
    .completed { Interval := 1800 },
    .timer { Interval := 1800, Peers := ["10.0.0.3:6881"] },
    .stop { Error := true },
    .timer { Interval := 1800 } ]

/-- An announcer for a UDP tracker, with a completion channel. -/
def exAnnouncer : Announcer := { scheme := some "udp" }

end Announcer

/-! # Properties -/

theorem writeRequests_append (l₁ l₂ : List Effect) :
    writeRequests (l₁ ++ l₂) = writeRequests l₁ ++ writeRequests l₂ := by
  induction l₁ with
  | nil => rfl
  | cons e l ih => cases e <;> simp [writeRequests, ih]

@[simp]
theorem emit_bitfield (t : Torrent) (e : Effect) : (t.emit e).bitfield = t.bitfield := rfl
@[simp]
theorem emit_log (t : Torrent) (e : Effect) : (t.emit e).log = t.log ++ [e] := rfl
@[simp]
theorem setPeer_bitfield (t : Torrent) (p : PeerPtr) (pe : Peer) :
    (t.setPeer p pe).bitfield = t.bitfield := rfl
@[simp]
theorem setPeer_log (t : Torrent) (p : PeerPtr) (pe : Peer) :
    (t.setPeer p pe).log = t.log := rfl

theorem Untouched.untouched_refl (t : Torrent) : Untouched t t := ⟨rfl, rfl⟩

theorem Untouched.untouched_trans {a b c : Torrent} (h₁ : Untouched a b) (h₂ : Untouched b c) :
    Untouched a c := ⟨h₂.1.trans h₁.1, h₂.2.trans h₁.2⟩

theorem chokePeer_untouched {t t' : Torrent} {p : PeerPtr} (h : chokePeer t p = some t') :
    Untouched t t' := by
  unfold chokePeer at h
  cases hp : t.heap[p]? with
  | none => simp [hp] at h
  | some pe =>
    simp only [hp, Option.bind_eq_bind, Option.some_bind] at h
    split at h <;> cases h <;> simp [Untouched, writeRequests_append, writeRequests]

theorem updateInterestedState_untouched {t t' : Torrent} {p : PeerPtr}
    (h : updateInterestedState t p = some t') : Untouched t t' := by
  unfold updateInterestedState at h
  split at h
  · cases h; exact Untouched.untouched_refl _
  · simp only [Option.bind_eq_bind, Option.bind_eq_some] at h
    obtain ⟨bf, -, pe, -, b, -, h⟩ := h
    split at h
    · cases h; simp [Untouched, writeRequests_append, writeRequests]
    · split at h <;> cases h <;> simp [Untouched, writeRequests_append, writeRequests]


theorem handlePeerMessage_untouched {env : Env} {t t' : Torrent} {pm : PeerMessage}
    (h : handlePeerMessage env t pm = some t') : Untouched t t' := by
  unfold handlePeerMessage at h
  repeat' first
    | (cases h <;> simp [Untouched, writeRequests_append, writeRequests] <;> done)
    | (have hu := updateInterestedState_untouched h
       simpa [Untouched, writeRequests_append, writeRequests] using hu)
    | split at h
    | (obtain ⟨_, _, h⟩ := h)
    | (simp only [Option.bind_eq_bind, Option.bind_eq_some] at h)

theorem unchokePeer_untouched {t t' : Torrent} {p : PeerPtr} (h : unchokePeer t p = some t') :
    Untouched t t' := by
  unfold unchokePeer at h
  repeat' first
    | (cases h <;> simp [Untouched, writeRequests_append, writeRequests] <;> done)
    | split at h
    | (obtain ⟨_, _, h⟩ := h)
    | (simp only [Option.bind_eq_bind, Option.bind_eq_some] at h)

theorem checkCompletion_untouched {t t' : Torrent} (h : checkCompletion t = some t') :
    Untouched t t' := by
  unfold checkCompletion at h
  repeat' first
    | (cases h <;> simp [Untouched, writeRequests_append, writeRequests] <;> done)
    | split at h
    | (obtain ⟨_, _, h⟩ := h)
    | (simp only [Option.bind_eq_bind, Option.bind_eq_some] at h)

theorem processPeerMessages_untouched {env : Env} {p : PeerPtr} (msgs : List Message) :
    ∀ {t t' : Torrent}, processPeerMessages env p t msgs = some t' → Untouched t t' := by
  induction msgs with
  | nil => intro t t' h; cases h; exact Untouched.untouched_refl _
  | cons m rest ih =>
    intro t t' h
    simp only [processPeerMessages, Option.bind_eq_bind, Option.bind_eq_some] at h
    obtain ⟨t1, h1, h2⟩ := h
    exact (handlePeerMessage_untouched h1).untouched_trans (ih h2)

theorem processQueuedLoop_untouched {env : Env} (l : List (Conn × PeerPtr)) :
    ∀ {t t' : Torrent}, processQueuedLoop env t l = some t' → Untouched t t' := by
  induction l with
  | nil => intro t t' h; cases h; exact Untouched.untouched_refl _
  | cons e rest ih =>
    intro t t' h
    obtain ⟨c, p⟩ := e
    simp only [processQueuedLoop, Option.bind_eq_bind, Option.bind_eq_some] at h
    obtain ⟨pe, -, t1, h1, h2⟩ := h
    exact (processPeerMessages_untouched _ h1).untouched_trans (ih h2)

theorem processQueuedMessages_untouched {env : Env} {t t' : Torrent}
    (h : processQueuedMessages env t = some t') : Untouched t t' :=
  processQueuedLoop_untouched _ h

theorem sendFirstMessage_untouched (env : Env) (t : Torrent) (p : Conn) :
    Untouched t (sendFirstMessage env t p) := by
  unfold sendFirstMessage
  refine ⟨?_, ?_⟩
  · simp only [emit_bitfield]
    split
    · split
      · rfl
      · split <;> rfl
    · split <;> rfl
  · simp only [emit_log, writeRequests_append]
    split
    · split
      · simp [writeRequests_append, writeRequests]
      · split <;> simp [writeRequests_append, writeRequests]
    · split <;> simp [writeRequests_append, writeRequests]


theorem startPeer_untouched {env : Env} {t t' : Torrent} {p : Conn} {l : PeerList}
    (h : startPeer env t p l = some t') : Untouched t t' := by
  unfold startPeer at h
  split at h
  · cases h; simp [Untouched, writeRequests_append, writeRequests]
  · have key : ∀ t2 : Torrent, Untouched t t2 →
        Untouched t (sendFirstMessage env (t2.emit (.peerRun t.heap.length)) p) := by
      intro t2 h2
      refine Untouched.untouched_trans ?_ (sendFirstMessage_untouched env _ p)
      exact ⟨h2.1, by simp [writeRequests_append, writeRequests, h2.2]⟩
    cases l
    · simp only at h
      split at h
      · have u := unchokePeer_untouched h
        refine Untouched.untouched_trans ?_ u
        exact key _ ⟨rfl, rfl⟩
      · cases h; exact key _ ⟨rfl, rfl⟩
    · simp only at h
      split at h
      · have u := unchokePeer_untouched h
        refine Untouched.untouched_trans ?_ u
        exact key _ ⟨rfl, rfl⟩
      · cases h; exact key _ ⟨rfl, rfl⟩

theorem peerDisconnected_untouched {t t' : Torrent} {p : PeerPtr}
    (h : peerDisconnected t p = some t') : Untouched t t' := by
  unfold peerDisconnected at h
  simp only [Option.bind_eq_bind, Option.bind_eq_some] at h
  obtain ⟨pe, -, h⟩ := h
  cases h
  refine ⟨?_, ?_⟩
  · simp only
    split <;> split <;> rfl
  · simp only
    split <;> split <;> simp [writeRequests_append, writeRequests]

theorem infoDownloaderResult_log {env : Env} {t t' : Torrent} {res : InfoDownloaderResult}
    {rf : Bool} (h : infoDownloaderResult env t res rf = some t') : Untouched t t' := by
  unfold infoDownloaderResult at h
  repeat' first
    | (cases h <;> simp [Untouched, stop, writeRequests_append, writeRequests] <;> done)
    | (cases h <;> simp [Untouched, stop, writeRequests_append, writeRequests] <;>
        split <;> simp [writeRequests_append, writeRequests])
    | split at h
    | (obtain ⟨_, _, h⟩ := h)
    | (simp only [Option.bind_eq_bind, Option.bind_eq_some] at h)

theorem resetCounters_untouched (l : List (Conn × PeerPtr)) :
    ∀ {t t' : Torrent}, resetCounters t l = some t' → Untouched t t' := by
  induction l with
  | nil => intro t t' h; cases h; exact Untouched.untouched_refl _
  | cons e rest ih =>
    intro t t' h
    obtain ⟨c, p⟩ := e
    simp only [resetCounters, Option.bind_eq_bind, Option.bind_eq_some] at h
    obtain ⟨pe, -, h2⟩ := h
    have u := ih h2
    refine Untouched.untouched_trans ?_ u
    exact ⟨rfl, rfl⟩

theorem unchokeAll_untouched (l : List PeerPtr) :
    ∀ {t t' : Torrent}, unchokeAll t l = some t' → Untouched t t' := by
  induction l with
  | nil => intro t t' h; cases h; exact Untouched.untouched_refl _
  | cons p rest ih =>
    intro t t' h
    simp only [unchokeAll, Option.bind_eq_bind, Option.bind_eq_some] at h
    obtain ⟨t1, h1, h2⟩ := h
    exact (unchokePeer_untouched h1).untouched_trans (ih h2)

theorem chokeOthers_untouched (u : List PeerPtr) (l : List (Conn × PeerPtr)) :
    ∀ {t t' : Torrent}, chokeOthers u t l = some t' → Untouched t t' := by
  induction l with
  | nil => intro t t' h; cases h; exact Untouched.untouched_refl _
  | cons e rest ih =>
    intro t t' h
    obtain ⟨c, p⟩ := e
    simp only [chokeOthers] at h
    split at h
    · exact ih h
    · simp only [Option.bind_eq_bind, Option.bind_eq_some] at h
      obtain ⟨t1, h1, h2⟩ := h
      exact (chokePeer_untouched h1).untouched_trans (ih h2)

theorem unchokeTick_untouched {env : Env} {t t' : Torrent} (h : unchokeTick env t = some t') :
    Untouched t t' := by
  unfold unchokeTick at h
  simp only [Option.bind_eq_bind, Option.bind_eq_some] at h
  obtain ⟨peers, -, t1, h1, t2, h2, h3⟩ := h
  exact ((resetCounters_untouched _ h1).untouched_trans (unchokeAll_untouched _ h2)).untouched_trans
    (chokeOthers_untouched _ _ h3)

theorem chokePreviousPick_untouched {t t' : Torrent} (h : chokePreviousPick t = some t') :
    Untouched t t' := by
  unfold chokePreviousPick at h
  split at h
  · simp only [Option.bind_eq_bind, Option.bind_eq_some] at h
    obtain ⟨pe, -, h1⟩ := h
    have u := chokePeer_untouched h1
    refine Untouched.untouched_trans ?_ u
    exact ⟨rfl, rfl⟩
  · cases h; exact Untouched.untouched_refl _

theorem optimisticUnchokeTick_untouched {t t' : Torrent} {rnd : Nat}
    (h : optimisticUnchokeTick t rnd = some t') : Untouched t t' := by
  unfold optimisticUnchokeTick at h
  simp only [Option.bind_eq_bind, Option.bind_eq_some] at h
  obtain ⟨peers, -, t1, h1, h⟩ := h
  have u1 : Untouched t t1 := chokePreviousPick_untouched h1
  split at h
  · cases h; exact u1.untouched_trans ⟨rfl, rfl⟩
  · simp only [Option.bind_eq_bind, Option.bind_eq_some] at h
    obtain ⟨p, -, pe, -, t2, h2, h⟩ := h
    cases h
    have u2 := unchokePeer_untouched h2
    have u3 : Untouched t1 t2 := by
      refine Untouched.untouched_trans ?_ u2
      exact ⟨rfl, rfl⟩
    exact (u1.untouched_trans u3).untouched_trans ⟨rfl, rfl⟩

theorem newInConn_untouched (env : Env) (t : Torrent) (c : NetConn) :
    Untouched t (newInConn env t c) := by
  unfold newInConn
  split <;> simp [Untouched, writeRequests_append, writeRequests]

theorem incomingHandshakerResult_untouched {env : Env} {t t' : Torrent}
    {res : IncomingHandshakerResult} (h : incomingHandshakerResult env t res = some t') :
    Untouched t t' := by
  unfold incomingHandshakerResult at h
  simp only at h
  split at h
  · cases h; simp [Untouched, writeRequests_append, writeRequests]
  · have u := startPeer_untouched h
    refine Untouched.untouched_trans ?_ u
    exact ⟨rfl, rfl⟩

theorem outgoingHandshakerResult_untouched {env : Env} {t t' : Torrent}
    {res : OutgoingHandshakerResult} (h : outgoingHandshakerResult env t res = some t') :
    Untouched t t' := by
  unfold outgoingHandshakerResult at h
  simp only at h
  split at h
  · cases h; exact ⟨rfl, rfl⟩
  · have u := startPeer_untouched h
    refine Untouched.untouched_trans ?_ u
    exact ⟨rfl, rfl⟩

theorem dialLimitReady_untouched (t : Torrent) (a : Option String) :
    Untouched t (dialLimitReady t a) := by
  unfold dialLimitReady
  split <;> simp [Untouched, writeRequests_append, writeRequests]

theorem infoDownloadersReady_untouched {t t' : Torrent} {next : Option InfoDownloader}
    (h : infoDownloadersReady t next = some t') : Untouched t t' := by
  unfold infoDownloadersReady at h
  repeat' first
    | (cases h <;> simp [Untouched, writeRequests_append, writeRequests] <;> done)
    | split at h
    | (obtain ⟨_, _, h⟩ := h)
    | (simp only [Option.bind_eq_bind, Option.bind_eq_some] at h)

theorem pieceDownloadersReady_untouched {t t' : Torrent} {next : Option PieceDownloader}
    (h : pieceDownloadersReady t next = some t') : Untouched t t' := by
  unfold pieceDownloadersReady at h
  repeat' first
    | (cases h <;> simp [Untouched, writeRequests_append, writeRequests] <;> done)
    | split at h
    | (obtain ⟨_, _, h⟩ := h)
    | (simp only [Option.bind_eq_bind, Option.bind_eq_some] at h)

theorem announcerRequest_untouched {t t' : Torrent} (h : announcerRequest t = some t') :
    Untouched t t' := by
  unfold announcerRequest at h
  simp only [Option.bind_eq_bind, Option.bind_eq_some] at h
  obtain ⟨l, -, h⟩ := h
  cases h
  simp [Untouched, writeRequests_append, writeRequests]

theorem foldl_emit_untouched {α : Type} (f : α → Effect)
    (hf : ∀ a, writeRequests [f a] = []) (l : List α) :
    ∀ t : Torrent, Untouched t (l.foldl (fun t a => t.emit (f a)) t) := by
  induction l with
  | nil => intro t; exact Untouched.untouched_refl _
  | cons a rest ih =>
    intro t
    simp only [List.foldl_cons]
    refine Untouched.untouched_trans ?_ (ih _)
    exact ⟨rfl, by simp [writeRequests_append, hf]⟩

theorem close_untouched (t : Torrent) : Untouched t (close t) := by
  have h0 : Untouched t (stop t .closed) := by
    simp [Untouched, stop, writeRequests_append, writeRequests]
  have h1 := fun l t => foldl_emit_untouched (fun e : String × String =>
    Effect.outgoingHandshakerClose e.1) (fun _ => rfl) l t
  have h2 := fun l t => foldl_emit_untouched (fun e : String × NetConn =>
    Effect.incomingHandshakerClose e.1) (fun _ => rfl) l t
  have h3 := fun l t => foldl_emit_untouched (fun e : Conn × InfoDownloader =>
    Effect.infoDownloaderClose e.2) (fun _ => rfl) l t
  have h4 := fun l t => foldl_emit_untouched (fun e : Conn × PieceDownloader =>
    Effect.downloaderClose e.2) (fun _ => rfl) l t
  have h5 := fun l t => foldl_emit_untouched (fun p : PeerPtr =>
    Effect.peerClose p) (fun _ => rfl) l t
  unfold close
  exact (((((h0.untouched_trans (h1 _ _)).untouched_trans (h2 _ _)).untouched_trans
    (h3 _ _)).untouched_trans (h4 _ _)).untouched_trans (h5 _ _)).untouched_trans (h5 _ _)


theorem haveLoop_untouched (index : Nat) (l : List (Conn × PeerPtr)) :
    ∀ {t t' : Torrent}, haveLoop index t l = some t' → Untouched t t' := by
  induction l with
  | nil => intro t t' h; cases h; exact Untouched.untouched_refl _
  | cons e rest ih =>
    intro t t' h
    obtain ⟨c, p⟩ := e
    simp only [haveLoop, Option.bind_eq_bind, Option.bind_eq_some] at h
    obtain ⟨t1, h1, h2⟩ := h
    have u := updateInterestedState_untouched h1
    have u0 : Untouched t t1 := by
      refine Untouched.untouched_trans ?_ u
      simp [Untouched, writeRequests_append, writeRequests]
    exact u0.untouched_trans (ih h2)

theorem sendHaves_untouched (bf : Bitfield) (p : PeerPtr) (l : List Nat) :
    ∀ {t t' : Torrent}, sendHaves bf p t l = some t' → Untouched t t' := by
  induction l with
  | nil => intro t t' h; cases h; exact Untouched.untouched_refl _
  | cons i rest ih =>
    intro t t' h
    simp only [sendHaves, Option.bind_eq_bind, Option.bind_eq_some] at h
    obtain ⟨b, -, h⟩ := h
    split at h
    · have u := ih h
      refine Untouched.untouched_trans ?_ u
      simp [Untouched, writeRequests_append, writeRequests]
    · exact ih h

theorem announceBitfield_untouched (bf : Bitfield) (l : List (Conn × PeerPtr)) :
    ∀ {t t' : Torrent}, announceBitfield bf t l = some t' → Untouched t t' := by
  induction l with
  | nil => intro t t' h; cases h; exact Untouched.untouched_refl _
  | cons e rest ih =>
    intro t t' h
    obtain ⟨c, p⟩ := e
    simp only [announceBitfield, Option.bind_eq_bind, Option.bind_eq_some] at h
    obtain ⟨t1, h1, t2, h2, h3⟩ := h
    have u := (sendHaves_untouched _ _ _ h1).untouched_trans (updateInterestedState_untouched h2)
    exact u.untouched_trans (ih h3)

theorem startTasks_untouched (t : Torrent) : Untouched t (startTasks t) := by
  simp [Untouched, startTasks, writeRequests_append, writeRequests]

theorem clearDownloader_spec {t t' : Torrent} {c : Conn} (h : clearDownloader t c = some t') :
    Untouched t t' ∧ t'.pieces = t.pieces := by
  unfold clearDownloader at h
  split at h
  · simp only [Option.bind_eq_bind, Option.bind_eq_some] at h
    obtain ⟨pe, -, h⟩ := h
    cases h
    exact ⟨⟨rfl, rfl⟩, rfl⟩
  · cases h; exact ⟨Untouched.untouched_refl _, rfl⟩

theorem pieceDownloaderResult_spec {env : Env} {t t' : Torrent} {res : PieceDownloaderResult}
    (h : pieceDownloaderResult env t res = some t') :
    t'.bitfield = t.bitfield ∧ ∃ pc, t.pieces[res.Piece.Index]? = some pc ∧
      writeRequests t'.log = writeRequests t.log ++
        (if env.verify pc.Piece res.Bytes then [(res.Piece, res.Bytes)] else []) := by
  unfold pieceDownloaderResult at h
  simp only [Option.bind_eq_bind, Option.bind_eq_some] at h
  obtain ⟨t1, h1, pc, hpc, h⟩ := h
  obtain ⟨u, hp⟩ := clearDownloader_spec h1
  simp only [hp] at hpc
  refine ⟨?_, pc, hpc, ?_⟩
  · split at h <;> cases h <;> simp [u.1]
  · split at h
    · rename_i hv
      cases h
      simp at hv
      simp [hv, writeRequests_append, writeRequests, u.2]
    · rename_i hv
      cases h
      simp at hv
      simp [hv, writeRequests_append, writeRequests, u.2]

theorem writeResponse_spec {t t' : Torrent} {resp : WriteResponse} {rf : Bool}
    (h : writeResponse t resp rf = some t') :
    writeRequests t'.log = writeRequests t.log ∧
      (resp.Error = true → t'.bitfield = t.bitfield) ∧
      (resp.Error = false → ∃ bf bf', t.bitfield = some bf ∧
        bf.Set resp.Piece.Index = some bf' ∧ t'.bitfield = some bf') := by
  unfold writeResponse at h
  simp only [Option.bind_eq_bind, Option.bind_eq_some] at h
  obtain ⟨pc, -, h⟩ := h
  split at h
  · rename_i he
    cases h
    refine ⟨by simp [stop, writeRequests_append, writeRequests], fun _ => rfl, ?_⟩
    intro hf; rw [hf] at he; cases he
  · rename_i he
    simp only [Option.bind_eq_bind, Option.bind_eq_some] at h
    obtain ⟨bf, hbf, bf', hset, h⟩ := h
    have hk : writeRequests t'.log = writeRequests t.log ∧ t'.bitfield = some bf' := by
      split at h
      · split at h
        · cases h
          exact ⟨by simp [stop, writeRequests_append, writeRequests], rfl⟩
        · simp only [Option.bind_eq_bind, Option.bind_eq_some] at h
          obtain ⟨t4, h4, h5⟩ := h
          have u := (checkCompletion_untouched h4).untouched_trans (haveLoop_untouched _ _ h5)
          exact ⟨by simpa [writeRequests_append, writeRequests] using u.2, by simpa using u.1⟩
      · simp only [Option.bind_eq_bind, Option.bind_eq_some] at h
        obtain ⟨t4, h4, h5⟩ := h
        have u := (checkCompletion_untouched h4).untouched_trans (haveLoop_untouched _ _ h5)
        exact ⟨by simpa using u.2, by simpa using u.1⟩
    refine ⟨hk.1, ?_, fun _ => ⟨bf, bf', hbf, hset, hk.2⟩⟩
    intro ht; rw [ht] at he; exact absurd rfl he

theorem allocatorResult_spec {env : Env} {t t' : Torrent} {res : AllocatorResult}
    (h : allocatorResult env t res = some t') :
    writeRequests t'.log = writeRequests t.log ∧
      (t'.bitfield = t.bitfield ∨ ∃ n, t'.bitfield = some (Bitfield.new n)) := by
  unfold allocatorResult at h
  simp only at h
  split at h
  · cases h
    exact ⟨by simp [stop, writeRequests_append, writeRequests], Or.inl rfl⟩
  · simp only [Option.bind_eq_bind, Option.bind_eq_some] at h
    obtain ⟨t2, h2, h⟩ := h
    have u2 : Untouched t t2 := by
      unfold preparePieces at h2
      simp only [Option.bind_eq_bind, Option.bind_eq_some] at h2
      obtain ⟨d, -, h2⟩ := h2
      cases h2
      exact ⟨rfl, rfl⟩
    split at h
    · simp only [Option.bind_eq_bind, Option.bind_eq_some] at h
      obtain ⟨t3, h3, t4, h4, h⟩ := h
      cases h
      have u := ((u2.untouched_trans (checkCompletion_untouched h3)).untouched_trans
        (processQueuedMessages_untouched h4)).untouched_trans (startTasks_untouched t4)
      exact ⟨u.2, Or.inl u.1⟩
    · split at h
      · simp only [Option.bind_eq_bind, Option.bind_eq_some] at h
        obtain ⟨info, -, t4, h4, h⟩ := h
        cases h
        have u := (processQueuedMessages_untouched h4).untouched_trans (startTasks_untouched t4)
        exact ⟨by simpa [u2.2] using u.2, Or.inr ⟨info.NumPieces, by simpa using u.1⟩⟩
      · cases h
        exact ⟨by simp [writeRequests_append, writeRequests, u2.2], Or.inl (by simp [u2.1])⟩

theorem verifierResult_spec {env : Env} {t t' : Torrent} {res : VerifierResult} {rf : Bool}
    (h : verifierResult env t res rf = some t') :
    writeRequests t'.log = writeRequests t.log ∧
      (t'.bitfield = t.bitfield ∨ (res.Error = false ∧ t'.bitfield = some res.Bitfield)) := by
  unfold verifierResult at h
  simp only at h
  split at h
  · cases h
    exact ⟨by simp [stop, writeRequests_append, writeRequests], Or.inl rfl⟩
  · rename_i he
    have he' : res.Error = false := by simpa using he
    have u3 : ∀ t3 : Torrent,
        t3 = (if t.resume = true then
          ({ t with verifier := false, bitfield := some res.Bitfield } : Torrent).emit
            (.resumeWriteBitfield res.Bitfield.Bytes)
          else { t with verifier := false, bitfield := some res.Bitfield }) →
        writeRequests t3.log = writeRequests t.log ∧ t3.bitfield = some res.Bitfield := by
      intro t3 h3
      subst h3
      split <;> simp [writeRequests_append, writeRequests]
    split at h
    · cases h
      have := u3 _ rfl
      exact ⟨by simpa [stop, writeRequests_append, writeRequests] using this.1,
        Or.inr ⟨he', by simpa [stop] using this.2⟩⟩
    · simp only [Option.bind_eq_bind, Option.bind_eq_some] at h
      obtain ⟨t4, h4, t5, h5, t6, h6, h⟩ := h
      cases h
      have u0 := (announceBitfield_untouched _ _ h4).untouched_trans (checkCompletion_untouched h5)
      have u := (u0.untouched_trans (processQueuedMessages_untouched h6)).untouched_trans
        (startTasks_untouched t6)
      have := u3 _ rfl
      exact ⟨u.2.trans this.1, Or.inr ⟨he', u.1.trans this.2⟩⟩


theorem bitfield_new_test (n i : Nat) : (Bitfield.new n).Test i ≠ some true := by
  unfold Bitfield.new Bitfield.Test
  intro h
  simp only [List.getElem?_eq_some_iff] at h
  obtain ⟨hi, h⟩ := h
  simp at h

theorem bitfield_set_test {bf bf' : Bitfield} {i j : Nat} (h : bf.Set i = some bf')
    (hj : bf'.Test j = some true) : j = i ∨ bf.Test j = some true := by
  unfold Bitfield.Set at h
  split at h
  · cases h
    unfold Bitfield.Test at hj ⊢
    simp only at hj
    by_cases hij : i = j
    · exact Or.inl hij.symm
    · right
      rwa [List.getElem?_set_ne hij] at hj
  · cases h

theorem bitfield_set_test_self {bf bf' : Bitfield} {i : Nat} (h : bf.Set i = some bf') :
    bf'.Test i = some true := by
  unfold Bitfield.Set at h
  split at h
  · rename_i hi
    cases h
    unfold Bitfield.Test
    simp [List.getElem?_set_self hi]
  · cases h

/-- Every event other than the four that the bitfield or a write request depends on leaves
both as they were. -/
theorem run_untouched {env : Env} {t t' : Torrent} {e : Event} (h : run env t e = some t')
    (h1 : ∀ res, e ≠ .allocatorResult res) (h2 : ∀ res rf, e ≠ .verifierResult res rf)
    (h3 : ∀ res, e ≠ .pieceDownloaderResult res) (h4 : ∀ resp rf, e ≠ .writeResponse resp rf) :
    Untouched t t' := by
  cases e with
  | closeC =>
    cases h
    refine (close_untouched t).untouched_trans ?_
    simp [Untouched, writeRequests_append, writeRequests]
  | startCommand => cases h; simp [Untouched, start, writeRequests_append, writeRequests]
  | stopCommand => cases h; simp [Untouched, stop, writeRequests_append, writeRequests]
  | notifyErrorCommand => cases h; simp [Untouched, writeRequests_append, writeRequests]
  | statsCommand =>
    simp only [run, Option.bind_eq_bind, Option.bind_eq_some] at h
    obtain ⟨st, -, h⟩ := h
    cases h
    simp [Untouched, writeRequests_append, writeRequests]
  | allocatorProgress => cases h; exact Untouched.untouched_refl _
  | allocatorResult res => exact absurd rfl (h1 res)
  | verifierProgress => cases h; exact Untouched.untouched_refl _
  | verifierResult res rf => exact absurd rfl (h2 res rf)
  | addrsFromTrackers addrs => cases h; simp [Untouched, writeRequests_append, writeRequests]
  | dialLimitReady addr => cases h; exact dialLimitReady_untouched _ _
  | newInConn conn => cases h; exact newInConn_untouched _ _ _
  | announcerRequest => exact announcerRequest_untouched h
  | infoDownloadersReady next => exact infoDownloadersReady_untouched h
  | infoDownloaderResult res rf => exact infoDownloaderResult_log h
  | pieceDownloadersReady next => exact pieceDownloadersReady_untouched h
  | pieceDownloaderResult res => exact absurd rfl (h3 res)
  | writeResponse resp rf => exact absurd rfl (h4 resp rf)
  | unchokeTimer => exact unchokeTick_untouched h
  | optimisticUnchokeTimer rnd => exact optimisticUnchokeTick_untouched h
  | incomingHandshakerResult res => exact incomingHandshakerResult_untouched h
  | outgoingHandshakerResult res => exact outgoingHandshakerResult_untouched h
  | peerDisconnected pe => exact peerDisconnected_untouched h
  | message pm => exact handlePeerMessage_untouched h

theorem bitSet_of_eq {t t' : Torrent} (h : t'.bitfield = t.bitfield) (i : Nat) :
    bitSet t' i = bitSet t i := by
  unfold bitSet; rw [h]

/-- C1 (as amended): in one step of the event loop, a bit that was not set before is set
afterwards only if the event is a piece-writer response without error for that piece, or a
verifier result without error whose bitfield has that bit (it replaces the bitfield of the
engine); the step issues a write request only when the event is a piece-download result whose
bytes pass the verification of the engine's piece at that index, and then exactly one, for the
piece and bytes of the result; a piece-download result and a write response with an error leave
the bitfield as it was; a write response without error leaves the bit of its piece set. -/
theorem bit_set_only_by_writer_or_verifier (env : Env) (t t' : Torrent) (e : Event)
    (h : run env t e = some t') :
    (∀ i, bitSet t i = false → bitSet t' i = true →
      (∃ resp rf, e = .writeResponse resp rf ∧ resp.Error = false ∧ resp.Piece.Index = i) ∨
      (∃ res rf, e = .verifierResult res rf ∧ res.Error = false ∧
        res.Bitfield.Test i = some true)) ∧
    (writeRequests t'.log = writeRequests t.log ∨
      ∃ res pc, e = .pieceDownloaderResult res ∧ t.pieces[res.Piece.Index]? = some pc ∧
        env.verify pc.Piece res.Bytes = true ∧
        writeRequests t'.log = writeRequests t.log ++ [(res.Piece, res.Bytes)]) ∧
    (∀ res, e = .pieceDownloaderResult res → t'.bitfield = t.bitfield) ∧
    (∀ resp rf, e = .writeResponse resp rf → resp.Error = true → t'.bitfield = t.bitfield) ∧
    (∀ resp rf, e = .writeResponse resp rf → resp.Error = false →
      bitSet t' resp.Piece.Index = true) := by
  by_cases c1 : ∃ res, e = .allocatorResult res
  · obtain ⟨res, rfl⟩ := c1
    obtain ⟨hw, hb⟩ := allocatorResult_spec h
    refine ⟨?_, Or.inl hw, fun _ hh => (by cases hh), fun _ _ hh => (by cases hh),
      fun _ _ hh => (by cases hh)⟩
    intro i hi hi'
    exfalso
    rcases hb with hb | ⟨n, hb⟩
    · rw [bitSet_of_eq hb] at hi'; rw [hi] at hi'; cases hi'
    · unfold bitSet at hi'
      rw [hb] at hi'
      simp only [decide_eq_true_eq] at hi'
      exact bitfield_new_test n i hi'
  by_cases c2 : ∃ res rf, e = .verifierResult res rf
  · obtain ⟨res, rf, rfl⟩ := c2
    obtain ⟨hw, hb⟩ := verifierResult_spec h
    refine ⟨?_, Or.inl hw, fun _ hh => (by cases hh), fun _ _ hh => (by cases hh),
      fun _ _ hh => (by cases hh)⟩
    intro i hi hi'
    rcases hb with hb | ⟨he, hb⟩
    · rw [bitSet_of_eq hb] at hi'; rw [hi] at hi'; cases hi'
    · right
      refine ⟨res, rf, rfl, he, ?_⟩
      unfold bitSet at hi'
      rw [hb] at hi'
      simpa using hi'
  by_cases c3 : ∃ res, e = .pieceDownloaderResult res
  · obtain ⟨res, rfl⟩ := c3
    obtain ⟨hb, pc, hpc, hw⟩ := pieceDownloaderResult_spec h
    refine ⟨?_, ?_, fun _ _ => hb, fun _ _ hh => (by cases hh), fun _ _ hh => (by cases hh)⟩
    · intro i hi hi'
      rw [bitSet_of_eq hb] at hi'; rw [hi] at hi'; cases hi'
    · by_cases hv : env.verify pc.Piece res.Bytes = true
      · right
        exact ⟨res, pc, rfl, hpc, hv, by simpa [hv] using hw⟩
      · left
        simpa [hv] using hw
  by_cases c4 : ∃ resp rf, e = .writeResponse resp rf
  · obtain ⟨resp, rf, rfl⟩ := c4
    obtain ⟨hw, hbe, hbn⟩ := writeResponse_spec h
    refine ⟨?_, Or.inl hw, fun _ hh => (by cases hh), ?_, ?_⟩
    · intro i hi hi'
      left
      cases he : resp.Error with
      | true =>
        rw [bitSet_of_eq (hbe he)] at hi'; rw [hi] at hi'; cases hi'
      | false =>
        obtain ⟨bf, bf', hbf, hset, hb'⟩ := hbn he
        refine ⟨resp, rf, rfl, he, ?_⟩
        unfold bitSet at hi hi'
        rw [hbf] at hi
        rw [hb'] at hi'
        simp only [decide_eq_true_eq, decide_eq_false_iff_not] at hi hi'
        rcases bitfield_set_test hset hi' with hj | hj
        · exact hj.symm
        · exact absurd hj hi
    · intro resp' rf' hh he
      cases hh
      exact hbe he
    · intro resp' rf' hh he
      cases hh
      obtain ⟨bf, bf', hbf, hset, hb'⟩ := hbn he
      unfold bitSet
      rw [hb']
      simp [bitfield_set_test_self hset]
  · have u := run_untouched h (fun res hh => c1 ⟨res, hh⟩) (fun res rf hh => c2 ⟨res, rf, hh⟩)
      (fun res hh => c3 ⟨res, hh⟩) (fun resp rf hh => c4 ⟨resp, rf, hh⟩)
    refine ⟨?_, Or.inl u.2, fun res hh => absurd ⟨res, hh⟩ c3,
      fun resp rf hh => absurd ⟨resp, rf, hh⟩ c4, fun resp rf hh => absurd ⟨resp, rf, hh⟩ c4⟩
    intro i hi hi'
    rw [bitSet_of_eq u.1] at hi'; rw [hi] at hi'; cases hi'

/-- C1 (witness): the sample engine handles the write response for piece 0. -/
theorem bit_set_only_by_writer_or_verifier_witness :
    run exEnv exDownloading (.writeResponse { Piece := { Index := 0 } } false) = some exWritten ∧
      bitSet exWritten 0 = true :=
  ⟨by decide,
    (bit_set_only_by_writer_or_verifier exEnv exDownloading exWritten
      (.writeResponse { Piece := { Index := 0 } } false) (by decide)).2.2.2.2
      { Piece := { Index := 0 } } false rfl rfl⟩

/-- C1 (counterexample): while the verifier runs no bit is set; the verifier result, which is
not a response of the piece writer, leaves bit 0 set. -/
theorem bit_set_by_verifier_result :
    bitSet exVerifying 0 = false ∧
      (run exEnv exVerifying (.verifierResult { Bitfield := ⟨[true, false]⟩ } false)).map
        (fun t => bitSet t 0) = some true := by
  decide

theorem mapSet_fresh {κ α : Type} [DecidableEq κ] (m : List (κ × α)) (k : κ) (v : α)
    (h : ∀ e ∈ m, e.1 ≠ k) : mapSet m k v = m ++ [(k, v)] := by
  induction m with
  | nil => rfl
  | cons e rest ih =>
    obtain ⟨k', v'⟩ := e
    have hk : k' ≠ k := h (k', v') (List.mem_cons_self _ _)
    simp only [mapSet, hk, if_false, List.cons_append]
    rw [ih (fun e he => h e (List.mem_cons_of_mem _ he))]

theorem sendFirstMessage_fields (env : Env) (t : Torrent) (p : Conn) :
    (sendFirstMessage env t p).heap = t.heap ∧
    (sendFirstMessage env t p).connectedPeers = t.connectedPeers ∧
    (sendFirstMessage env t p).peerIDs = t.peerIDs ∧
    (sendFirstMessage env t p).incomingPeers = t.incomingPeers ∧
    (sendFirstMessage env t p).outgoingPeers = t.outgoingPeers := by
  unfold sendFirstMessage
  simp only [Torrent.emit]
  split
  · split
    · exact ⟨rfl, rfl, rfl, rfl, rfl⟩
    · split <;> exact ⟨rfl, rfl, rfl, rfl, rfl⟩
  · split <;> exact ⟨rfl, rfl, rfl, rfl, rfl⟩

theorem unchokePeer_fields {t t' : Torrent} {p : PeerPtr} (h : unchokePeer t p = some t') :
    t'.connectedPeers = t.connectedPeers ∧ t'.peerIDs = t.peerIDs ∧
    t'.incomingPeers = t.incomingPeers ∧ t'.outgoingPeers = t.outgoingPeers ∧
    (t'.heap = t.heap ∨ ∃ pe, t.heap[p]? = some pe ∧
      t'.heap = t.heap.set p { pe with AmChoking := false }) := by
  unfold unchokePeer at h
  simp only [Option.bind_eq_bind, Option.bind_eq_some] at h
  obtain ⟨pe, hpe, h⟩ := h
  split at h
  · cases h
    exact ⟨rfl, rfl, rfl, rfl, Or.inr ⟨pe, hpe, rfl⟩⟩
  · cases h
    exact ⟨rfl, rfl, rfl, rfl, Or.inl rfl⟩

theorem startPeer_total (env : Env) (t : Torrent) (p : Conn) (l : PeerList) :
    ∃ t', startPeer env t p l = some t' := by
  unfold startPeer
  split
  · exact ⟨_, rfl⟩
  · simp only
    split
    · have hh : ∀ t2 : Torrent, t2.heap = t.heap ++ [Peer.new p] →
          ∃ t', unchokePeer (sendFirstMessage env (t2.emit (.peerRun t.heap.length)) p)
            t.heap.length = some t' := by
        intro t2 h2
        unfold unchokePeer
        have : (sendFirstMessage env (t2.emit (.peerRun t.heap.length)) p).heap[t.heap.length]?
            = some (Peer.new p) := by
          rw [(sendFirstMessage_fields env _ p).1]
          show t2.heap[t.heap.length]? = _
          rw [h2]; simp
        simp only [this, Option.bind_eq_bind, Option.some_bind]
        split <;> exact ⟨_, rfl⟩
      cases l <;> exact hh _ rfl
    · exact ⟨_, rfl⟩

theorem startPeer_duplicate (env : Env) (t : Torrent) (p : Conn) (l : PeerList)
    (h : p.ID ∈ t.peerIDs) : startPeer env t p l = some (t.emit (.connCloseConn p)) := by
  unfold startPeer
  simp [h]

theorem startPeer_fresh {env : Env} {t t' : Torrent} {p : Conn} {l : PeerList}
    (hid : p.ID ∉ t.peerIDs) (h : startPeer env t p l = some t') :
    t'.peerIDs = setInsert t.peerIDs p.ID ∧
    t'.connectedPeers = mapSet t.connectedPeers p t.heap.length ∧
    ∃ pe, t'.heap = t.heap ++ [pe] ∧ pe.Conn = p := by
  unfold startPeer at h
  simp only [hid, if_false] at h
  have key : ∀ t2 : Torrent, t2.heap = t.heap ++ [Peer.new p] →
      t2.peerIDs = setInsert t.peerIDs p.ID →
      t2.connectedPeers = mapSet t.connectedPeers p t.heap.length →
      (if (sendFirstMessage env (t2.emit (.peerRun t.heap.length)) p).connectedPeers.length ≤ 4
        then unchokePeer (sendFirstMessage env (t2.emit (.peerRun t.heap.length)) p) t.heap.length
        else some (sendFirstMessage env (t2.emit (.peerRun t.heap.length)) p)) = some t' →
      t'.peerIDs = setInsert t.peerIDs p.ID ∧
      t'.connectedPeers = mapSet t.connectedPeers p t.heap.length ∧
      ∃ pe, t'.heap = t.heap ++ [pe] ∧ pe.Conn = p := by
    intro t2 hh hi hc h
    obtain ⟨f1, f2, f3, -, -⟩ := sendFirstMessage_fields env (t2.emit (.peerRun t.heap.length)) p
    have f1' : (sendFirstMessage env (t2.emit (.peerRun t.heap.length)) p).heap =
        t.heap ++ [Peer.new p] := f1.trans hh
    split at h
    · obtain ⟨g1, g2, -, -, g5⟩ := unchokePeer_fields h
      refine ⟨g2.trans (f3.trans hi), g1.trans (f2.trans hc), ?_⟩
      rcases g5 with g5 | ⟨pe, hpe, g5⟩
      · exact ⟨Peer.new p, g5.trans f1', rfl⟩
      · rw [f1'] at hpe g5
        simp at hpe
        subst hpe
        refine ⟨{ Peer.new p with AmChoking := false }, ?_, rfl⟩
        rw [g5]
        simp
    · cases h
      exact ⟨f3.trans hi, f2.trans hc, Peer.new p, f1', rfl⟩
  cases l
  · exact key _ rfl rfl rfl h
  · exact key _ rfl rfl rfl h

theorem peerDisconnected_fields {t t' : Torrent} {p : PeerPtr} {pe : Peer}
    (hp : t.heap[p]? = some pe) (h : peerDisconnected t p = some t') :
    t'.peerIDs = setDelete t.peerIDs pe.ID ∧
    t'.connectedPeers = mapDelete t.connectedPeers pe.Conn ∧
    t'.heap = t.heap := by
  unfold peerDisconnected at h
  simp only [hp, Option.bind_eq_bind, Option.some_bind] at h
  cases h
  refine ⟨?_, ?_, ?_⟩
  · simp only; split <;> split <;> rfl
  · simp only; split <;> split <;> rfl
  · simp only; split <;> split <;> rfl

theorem PeerInv.peerInv_start {env : Env} {t t' : Torrent} {p : Conn} {l : PeerList}
    (inv : PeerInv t) (h : startPeer env t p l = some t') : PeerInv t' := by
  by_cases hid : p.ID ∈ t.peerIDs
  · rw [startPeer_duplicate env t p l hid] at h
    cases h
    exact ⟨inv.conn, inv.nodup, inv.ids, inv.idsNodup⟩
  · obtain ⟨h1, h2, pe, h3, h4⟩ := startPeer_fresh hid h
    have hfresh : ∀ e ∈ t.connectedPeers, e.1.ID ≠ p.ID := by
      intro e he hh
      exact hid ((inv.ids p.ID).2 ⟨e, he, hh⟩)
    have hcp : t'.connectedPeers = t.connectedPeers ++ [(p, t.heap.length)] := by
      rw [h2]
      apply mapSet_fresh
      intro e he hh
      exact hfresh e he (by rw [hh])
    have hids : t'.peerIDs = t.peerIDs ++ [p.ID] := by
      rw [h1]; unfold setInsert; simp [hid]
    refine ⟨?_, ?_, ?_, ?_⟩
    · intro c q hc
      rw [hcp, List.mem_append] at hc
      rcases hc with hc | hc
      · obtain ⟨pe', hpe', hc'⟩ := inv.conn c q hc
        refine ⟨pe', ?_, hc'⟩
        rw [h3]
        have hlt : q < t.heap.length := by
          rcases Nat.lt_or_ge q t.heap.length with hlt | hge
          · exact hlt
          · rw [List.getElem?_eq_none hge] at hpe'
            cases hpe'
        rw [List.getElem?_append_left hlt]
        exact hpe'
      · simp only [List.mem_singleton, Prod.mk.injEq] at hc
        obtain ⟨rfl, rfl⟩ := hc
        exact ⟨pe, by rw [h3]; simp, h4⟩
    · rw [hcp, List.map_append, List.nodup_append]
      refine ⟨inv.nodup, by simp, ?_⟩
      intro a ha hb
      simp only [List.map_cons, List.map_nil, List.mem_singleton] at hb
      obtain ⟨e, he, hea⟩ := List.mem_map.1 ha
      exact hfresh e he (hea.trans hb)
    · intro id
      rw [hids, hcp, List.mem_append, List.mem_singleton, inv.ids id]
      constructor
      · rintro (⟨e, he, hh⟩ | hh)
        · exact ⟨e, List.mem_append_left _ he, hh⟩
        · exact ⟨(p, t.heap.length), by simp, hh.symm⟩
      · rintro ⟨e, he, hh⟩
        rw [List.mem_append, List.mem_singleton] at he
        rcases he with he | he
        · exact Or.inl ⟨e, he, hh⟩
        · right; rw [← hh, he]
    · rw [hids]
      exact List.Nodup.append inv.idsNodup (by simp) (by simpa using hid)

theorem PeerInv.peerInv_disconnected {t t' : Torrent} {c : Conn} {p : PeerPtr}
    (inv : PeerInv t) (hc : (c, p) ∈ t.connectedPeers)
    (h : peerDisconnected t p = some t') : PeerInv t' := by
  obtain ⟨pe, hpe, hconn⟩ := inv.conn c p hc
  obtain ⟨h1, h2, h3⟩ := peerDisconnected_fields hpe h
  have hID : pe.ID = c.ID := by unfold Peer.ID; rw [hconn]
  rw [hconn] at h2
  rw [hID] at h1
  have hsub : ∀ e, e ∈ t'.connectedPeers ↔ e ∈ t.connectedPeers ∧ e.1 ≠ c := by
    intro e; rw [h2]; unfold mapDelete; simp
  have hinj : ∀ e ∈ t.connectedPeers, e.1.ID = c.ID → e.1 = c := by
    intro e he hh
    have := List.inj_on_of_nodup_map inv.nodup he hc hh
    rw [this]
  refine ⟨?_, ?_, ?_, ?_⟩
  · intro c' q hq
    rw [h3]
    exact inv.conn c' q ((hsub _).1 hq).1
  · rw [h2]; unfold mapDelete
    exact (List.Nodup.sublist (List.Sublist.map _ (List.filter_sublist _)) inv.nodup)
  · intro id
    rw [h1]; unfold setDelete
    simp only [List.mem_filter, decide_eq_true_eq, inv.ids id]
    constructor
    · rintro ⟨⟨e, he, hh⟩, hne⟩
      refine ⟨e, (hsub e).2 ⟨he, ?_⟩, hh⟩
      intro hec
      exact hne (by rw [← hh, hec])
    · rintro ⟨e, he, hh⟩
      obtain ⟨he1, he2⟩ := (hsub e).1 he
      refine ⟨⟨e, he1, hh⟩, ?_⟩
      intro hidc
      exact he2 (hinj e he1 (hh.trans hidc))
  · rw [h1]; unfold setDelete
    exact List.Nodup.sublist (List.filter_sublist _) inv.idsNodup

theorem PeerReach.peerReach_inv {env : Env} {t : Torrent} (h : PeerReach env t) : PeerInv t := by
  induction h with
  | init t hc hi =>
    refine ⟨?_, ?_, ?_, ?_⟩
    · intro c p hcp; rw [hc] at hcp; cases hcp
    · rw [hc]; simp
    · intro id; rw [hc, hi]; simp
    · rw [hi]; simp
  | start t t' p l _ hs ih => exact ih.peerInv_start hs
  | disconnected t t' c pe _ hc hs ih => exact ih.peerInv_disconnected hc hs

/-- C2: in every state that an engine without peers reaches by calls of `startPeer` and by
peer-disconnected events (each for a peer connected at that moment), the identities of the
connected peers are pairwise distinct, every connected peer has one, `peerIDs` holds exactly
those identities, each once, and `startPeer` with a connection whose identity is in `peerIDs`
only closes that connection: the state after it is the state before it with that one effect
added.  Both kinds of event can always be handled. -/
theorem peer_ids_unique (env : Env) (t : Torrent) (h : PeerReach env t) :
    (t.connectedPeers.map (fun e => peerIDOf t e.2)).Nodup ∧
    (∀ e ∈ t.connectedPeers, ∃ id, peerIDOf t e.2 = some id) ∧
    (∀ id, id ∈ t.peerIDs ↔ ∃ e ∈ t.connectedPeers, peerIDOf t e.2 = some id) ∧
    t.peerIDs.Nodup ∧
    (∀ p l, p.ID ∈ t.peerIDs → startPeer env t p l = some (t.emit (.connCloseConn p))) ∧
    (∀ p l, ∃ t', startPeer env t p l = some t') ∧
    (∀ c pe, (c, pe) ∈ t.connectedPeers → ∃ t', run env t (.peerDisconnected pe) = some t') := by
  have inv := h.peerReach_inv
  have hid : ∀ e ∈ t.connectedPeers, peerIDOf t e.2 = some e.1.ID := by
    intro e he
    obtain ⟨pe, hpe, hc⟩ := inv.conn e.1 e.2 he
    unfold peerIDOf Peer.ID
    rw [hpe, Option.map_some', hc]
  refine ⟨?_, ?_, ?_, inv.idsNodup, ?_, ?_, ?_⟩
  · rw [List.map_congr_left hid]
    have : (t.connectedPeers.map (fun e => some e.1.ID)) =
        (t.connectedPeers.map (fun e => e.1.ID)).map some := by
      rw [List.map_map]; rfl
    rw [this]
    exact inv.nodup.map (Option.some_injective _)
  · intro e he
    exact ⟨_, hid e he⟩
  · intro id
    rw [inv.ids id]
    constructor
    · rintro ⟨e, he, hh⟩
      exact ⟨e, he, by rw [hid e he, hh]⟩
    · rintro ⟨e, he, hh⟩
      rw [hid e he] at hh
      exact ⟨e, he, Option.some.inj hh⟩
  · intro p l hp
    exact startPeer_duplicate env t p l hp
  · intro p l
    exact startPeer_total env t p l
  · intro c pe hc
    obtain ⟨po, hpo, -⟩ := inv.conn c pe hc
    simp [run, peerDisconnected, hpo]

/-- C2 (witness): the engine with one peer is reachable, and a second connection with the
identity of that peer is closed. -/
theorem peer_ids_unique_witness :
    PeerReach exEnv exOnePeer ∧
      startPeer exEnv exOnePeer { addr := 5, ID := [1] } .incoming =
        some (exOnePeer.emit (.connCloseConn { addr := 5, ID := [1] })) :=
  have hr : PeerReach exEnv exOnePeer :=
    PeerReach.start {} exOnePeer exConn1 .outgoing (PeerReach.init {} rfl rfl) (by decide)
  ⟨hr, (peer_ids_unique exEnv exOnePeer hr).2.2.2.2.1 { addr := 5, ID := [1] } .incoming
    (by decide)⟩

/-- C3: `PieceWriter.Run` sets `HashOK` to the outcome of the verification of the buffer
against the piece.  It writes the buffer to the piece, once, exactly when the verification
succeeds; `Error` is then the error that the write returned, and otherwise what it was before,
which is a nil error for a writer made by `New`. -/
theorem piece_writer_run (verifyHash : DataPiece → List Byte → Bool)
    (writeError : Option String) (closed : Bool) (w : PieceWriter)
    (p : DataPiece) (s : Nat) (b : List Byte) :
    (PieceWriter.Run verifyHash writeError closed w).1.HashOK = verifyHash w.Piece w.Buffer ∧
    (writerWrites (PieceWriter.Run verifyHash writeError closed w).2 =
      if verifyHash w.Piece w.Buffer then [(w.Piece, w.Buffer)] else []) ∧
    ((PieceWriter.Run verifyHash writeError closed w).1.Error =
      if verifyHash w.Piece w.Buffer then writeError else w.Error) ∧
    ((PieceWriter.Run verifyHash writeError closed (PieceWriter.New p s b)).1.Error =
      if verifyHash p b then writeError else none) ∧
    ((PieceWriter.Run verifyHash writeError closed (PieceWriter.New p s b)).1.HashOK =
      verifyHash p b) := by
  unfold PieceWriter.Run
  cases hv : verifyHash w.Piece w.Buffer <;> cases hv' : verifyHash p b <;> cases closed <;>
    simp [writerWrites, PieceWriter.New, hv']

namespace Librain

/-- C5: `sendHandShake` writes exactly 68 bytes: the byte 19, the 19 bytes of
`BitTorrent protocol`, eight zero bytes, the 20 bytes of the info hash and the 20 bytes of the
peer identity; `readHandShake1` applied to a connection that delivers those bytes (followed by
anything) succeeds with that info hash, and `readHandShake2` applied to the connection after
it succeeds with that peer identity and leaves what follows. -/
theorem handshake_roundtrip (ih : InfoHash) (id : PeerID) (p : peerConn) (rest out : List Byte) :
    (sendHandShake p ih id).output = p.output ++
      ([19] ++ [66, 105, 116, 84, 111, 114, 114, 101, 110, 116, 32, 112, 114, 111, 116, 111, 99,
        111, 108] ++ [0, 0, 0, 0, 0, 0, 0, 0] ++ ih.val ++ id.val) ∧
    ((sendHandShake p ih id).output.drop p.output.length).length = 68 ∧
    readHandShake1 { input := (sendHandShake p ih id).output.drop p.output.length ++ rest,
                     output := out } =
      .ok (ih, { input := id.val ++ rest, output := out }) ∧
    readHandShake2 { input := id.val ++ rest, output := out } =
      .ok (id, { input := rest, output := out }) := by
  obtain ⟨ihv, hih⟩ := ih
  obtain ⟨idv, hid⟩ := id
  have henc : (newPeerHandShake ⟨ihv, hih⟩ ⟨idv, hid⟩).encode =
      19 :: ([66, 105, 116, 84, 111, 114, 114, 101, 110, 116, 32, 112, 114, 111, 116, 111, 99,
        111, 108] ++ ([0, 0, 0, 0, 0, 0, 0, 0] ++ (ihv ++ idv))) := rfl
  have hdrop : (sendHandShake p ⟨ihv, hih⟩ ⟨idv, hid⟩).output.drop p.output.length =
      (newPeerHandShake ⟨ihv, hih⟩ ⟨idv, hid⟩).encode := by
    simp [sendHandShake]
  refine ⟨?_, ?_, ?_, ?_⟩
  · simp [sendHandShake, henc]
  · rw [hdrop, henc]; simp [hih, hid]
  · rw [hdrop, henc]
    simp [readHandShake1, readFull, copyN, bitTorrent10pstrLen, bitTorrent10pstr, hih, hid]
    rfl
  · simp [readHandShake2, readFull, hid]

end Librain

/-- C7: a `Piece`, `Request` or `Reject` message that arrives while the engine has no bitfield
is answered by closing the connection of its sender and by nothing else: the state
afterwards is the state before with that one effect added to the log. -/
theorem early_transfer_message_closes_peer (env : Env) (t : Torrent) (p : PeerPtr) (pe : Peer)
    (index begin length : Nat) (data : List Byte)
    (hb : t.bitfield = none) (hp : t.heap[p]? = some pe) :
    handlePeerMessage env t { Peer := p, Message := .piece index begin length data } =
      some (t.emit (.connClose pe.Conn)) ∧
    handlePeerMessage env t { Peer := p, Message := .request index begin length } =
      some (t.emit (.connClose pe.Conn)) ∧
    handlePeerMessage env t { Peer := p, Message := .reject index begin length } =
      some (t.emit (.connClose pe.Conn)) := by
  simp [handlePeerMessage, hp, hb]

/-- C7 (witness): the sample engine before the verifier has answered. -/
theorem early_transfer_message_closes_peer_witness :
    handlePeerMessage exEnv exVerifying { Peer := 0, Message := .piece 0 0 4 [7, 7, 7, 7] } =
      some (exVerifying.emit (.connClose exConn1)) ∧
    handlePeerMessage exEnv exVerifying { Peer := 0, Message := .request 0 0 4 } =
      some (exVerifying.emit (.connClose exConn1)) ∧
    handlePeerMessage exEnv exVerifying { Peer := 0, Message := .reject 0 0 4 } =
      some (exVerifying.emit (.connClose exConn1)) :=
  early_transfer_message_closes_peer exEnv exVerifying 0 (Peer.new exConn1) 0 0 4 [7, 7, 7, 7]
    rfl rfl

/-- The info-downloader result of a connected peer: when the peer that delivers the result
is connected, the result is handled; the info of the engine changes only if the result carries no error and the SHA-1 of
its bytes is the info hash of the torrent; a result with an error, or with bytes of another
SHA-1, closes the connection of the delivering peer, leaves the info and the allocator as they
were and starts no allocator: all it adds to the log are signals to the info-downloader slots
and the close of that connection. -/
theorem info_result_checked (env : Env) (t : Torrent) (res : InfoDownloaderResult) (rf : Bool)
    (p : PeerPtr) (pe : Peer) (hc : mapGet t.connectedPeers res.Peer = some p)
    (hp : t.heap[p]? = some pe) :
    ∃ t', run env t (.infoDownloaderResult res rf) = some t' ∧
      (t'.info ≠ t.info → res.Error = false ∧ env.sha1 res.Bytes = t.infoHash) ∧
      (res.Error = true →
        t'.log = t.log ++ [.infoDownloadersSignal 1, .connClose res.Peer] ∧
        t'.info = t.info ∧ t'.allocator = t.allocator) ∧
      (res.Error = false → env.sha1 res.Bytes ≠ t.infoHash →
        t'.log = t.log ++ [.infoDownloadersSignal 1, .infoDownloadersSignal 1,
          .connClose res.Peer] ∧
        t'.info = t.info ∧ t'.allocator = t.allocator) := by
  simp only [run, infoDownloaderResult, hc, hp, Option.bind_eq_bind, Option.some_bind]
  split
  · rename_i he
    refine ⟨_, rfl, fun h => absurd rfl h, fun _ => ⟨?_, rfl, rfl⟩,
      fun h => (by rw [he] at h; cases h)⟩
    simp [Torrent.emit, Torrent.setPeer]
  · rename_i he
    have he' : res.Error = false := by simpa using he
    split
    · rename_i hs
      have hs' : env.sha1 res.Bytes ≠ t.infoHash := hs
      refine ⟨_, rfl, fun h => absurd rfl h, fun h => (by rw [he'] at h; cases h),
        fun _ _ => ⟨?_, rfl, rfl⟩⟩
      simp [Torrent.emit, Torrent.setPeer]
    · rename_i hs
      have hs' : env.sha1 res.Bytes = t.infoHash := not_not.1 hs
      split
      · exact ⟨_, rfl, fun _ => ⟨he', hs'⟩, fun h => (by rw [he'] at h; cases h),
          fun _ h => absurd hs' h⟩
      · split
        · exact ⟨_, rfl, fun _ => ⟨he', hs'⟩, fun h => (by rw [he'] at h; cases h),
            fun _ h => absurd hs' h⟩
        · exact ⟨_, rfl, fun _ => ⟨he', hs'⟩, fun h => (by rw [he'] at h; cases h),
            fun _ h => absurd hs' h⟩

/-- The result of a connected peer, on the sample: the peer of the magnet engine delivers
bytes of another digest. -/
theorem info_result_checked_witness :
    mapGet exMagnet.connectedPeers exConn1 = some 0 ∧
    (run exEnv exMagnet (.infoDownloaderResult { Peer := exConn1, Bytes := [2, 2] } false)).map
      (fun t => (t.info, t.allocator)) = some (none, false) := by
  refine ⟨rfl, ?_⟩
  obtain ⟨t', h, -, -, hm⟩ := info_result_checked exEnv exMagnet
    { Peer := exConn1, Bytes := [2, 2] } false 0 _ rfl rfl
  obtain ⟨-, hi, ha⟩ := hm rfl (by decide)
  rw [h, Option.map_some', hi, ha]
  rfl

/-- C4 (failing input): the one peer of the magnet engine disconnects while its info download
is under way; the case closes the downloader and removes the peer from `connectedPeers`.  A
result of that downloader which arrives afterwards, with an error or with bytes of another
digest, is not handled: the first statement of the case writes through
`t.connectedPeers[res.Peer]`, which is nil, and the handler panics before any connection is
closed.  The same results close the connection while the peer is connected. -/
theorem info_result_after_disconnect :
    (run exEnv exMagnet (.peerDisconnected 0)).map
      (fun t => (t.connectedPeers, t.infoDownloads, t.info, t.log)) =
      some ([], [], none, [.infoDownloaderClose ⟨exConn1⟩]) ∧
    runAll exEnv exMagnet [.peerDisconnected 0,
      .infoDownloaderResult { Peer := exConn1, Error := true } false] = none ∧
    runAll exEnv exMagnet [.peerDisconnected 0,
      .infoDownloaderResult { Peer := exConn1, Bytes := [2, 2] } false] = none ∧
    (run exEnv exMagnet (.infoDownloaderResult { Peer := exConn1, Error := true } false)).map
      (fun t => t.log) = some [.infoDownloadersSignal 1, .connClose exConn1] := by
  decide

theorem checkCompletions_append (l₁ l₂ : List Bitfield) :
    ∀ t : Torrent, checkCompletions t (l₁ ++ l₂) =
      (checkCompletions t l₁).bind (fun s => checkCompletions s l₂) := by
  induction l₁ with
  | nil => intro t; rfl
  | cons b rest ih =>
    intro t
    simp only [List.cons_append, checkCompletions, Option.bind_eq_bind]
    cases checkCompletion { t with bitfield := some b } with
    | none => rfl
    | some t1 => simp only [Option.some_bind]; exact ih t1

theorem checkCompletions_completed (bfs : List Bitfield) :
    ∀ t : Torrent, t.completed = true →
      ∃ t', checkCompletions t bfs = some t' ∧ t'.completed = true ∧
        t'.completeCClosed = t.completeCClosed ∧ t'.log = t.log := by
  induction bfs with
  | nil => intro t h; exact ⟨t, rfl, h, rfl, rfl⟩
  | cons bf rest ih =>
    intro t h
    have h1 : checkCompletion { t with bitfield := some bf } =
        some { t with bitfield := some bf } := by
      simp [checkCompletion, h]
    simp only [checkCompletions, h1, Option.bind_eq_bind, Option.some_bind]
    exact ih _ h

theorem checkCompletions_incomplete (bfs : List Bitfield) :
    ∀ t : Torrent, t.completed = false → (∀ bf ∈ bfs, bf.All = false) →
      ∃ t', checkCompletions t bfs = some t' ∧ t'.completed = false ∧
        t'.completeCClosed = t.completeCClosed ∧ t'.log = t.log := by
  induction bfs with
  | nil => intro t h _; exact ⟨t, rfl, h, rfl, rfl⟩
  | cons bf rest ih =>
    intro t h hall
    have hbf : bf.All = false := hall bf (List.mem_cons_self _ _)
    have h1 : checkCompletion { t with bitfield := some bf } =
        some { t with bitfield := some bf } := by
      simp [checkCompletion, h, hbf]
    simp only [checkCompletions, h1, Option.bind_eq_bind, Option.some_bind]
    exact ih _ h (fun b hb => hall b (List.mem_cons_of_mem _ hb))

/-- C9: take a torrent that is not completed and whose completion channel is open, and call
`checkCompletion` any number of times, with any bitfield at each call; no call panics.  As
long as no bitfield was full, nothing is closed and `completed` is false.  The first call with a
full bitfield closes the channel and sets `completed`; after any further calls the channel
has still been closed exactly once and `completed` is still true.  `status` is `Seeding`
exactly when `running` and `completed` hold. -/
theorem completion_fires_once (t : Torrent) (before after : List Bitfield) (bf : Bitfield)
    (hc : t.completed = false) (ho : t.completeCClosed = false)
    (hb : ∀ b ∈ before, b.All = false) (hf : bf.All = true) :
    (∃ t₁, checkCompletions t before = some t₁ ∧ t₁.completed = false ∧ t₁.log = t.log) ∧
    (∃ t₂, checkCompletions t (before ++ [bf]) = some t₂ ∧ t₂.completed = true ∧
      t₂.log = t.log ++ [.closeCompleteC]) ∧
    (∃ t₃, checkCompletions t (before ++ bf :: after) = some t₃ ∧ t₃.completed = true ∧
      t₃.log = t.log ++ [.closeCompleteC] ∧
      completeCloses t₃.log = completeCloses t.log + 1) ∧
    (∀ s : Torrent, status s = .Seeding ↔ s.running = true ∧ s.completed = true) := by
  obtain ⟨t1, h1, c1, o1, l1⟩ := checkCompletions_incomplete before t hc hb
  have hfirst : checkCompletion { t1 with bitfield := some bf } =
      some { t1 with bitfield := some bf, completed := true, completeCClosed := true,
                     log := t1.log ++ [.closeCompleteC] } := by
    simp [checkCompletion, c1, o1, ho, hf, Torrent.emit]
  obtain ⟨t3, h3, c3, -, l3⟩ := checkCompletions_completed after
    { t1 with bitfield := some bf, completed := true, completeCClosed := true,
              log := t1.log ++ [.closeCompleteC] } rfl
  refine ⟨⟨t1, h1, c1, l1⟩,
    ⟨{ t1 with bitfield := some bf, completed := true, completeCClosed := true,
               log := t1.log ++ [.closeCompleteC] }, ?_, rfl, ?_⟩,
    ⟨t3, ?_, c3, ?_, ?_⟩, ?_⟩
  · rw [checkCompletions_append, h1]
    simp only [Option.some_bind, checkCompletions, hfirst, Option.bind_eq_bind]
  · simp [l1]
  · rw [checkCompletions_append, h1]
    simp only [Option.some_bind, checkCompletions, hfirst, Option.bind_eq_bind]
    exact h3
  · rw [l3]; simp [l1]
  · rw [l3]; simp [l1, completeCloses]
  · intro s
    unfold status
    cases s.running <;> cases s.completed <;> simp

/-- C9 (witness): the sample engine, checked with one bit missing, then full, then once
more. -/
theorem completion_fires_once_witness :
    (checkCompletions exDownloading [⟨[true, false]⟩, ⟨[true, true]⟩, ⟨[true, true]⟩]).map
      (fun t => (t.completed, completeCloses t.log)) = some (true, 1) := by
  obtain ⟨t₃, h, hc, -, hn⟩ := (completion_fires_once exDownloading [⟨[true, false]⟩]
    [⟨[true, true]⟩] ⟨[true, true]⟩ rfl rfl (by decide) rfl).2.2.1
  rw [show [(⟨[true, false]⟩ : Bitfield), ⟨[true, true]⟩, ⟨[true, true]⟩] =
    [⟨[true, false]⟩] ++ ⟨[true, true]⟩ :: [⟨[true, true]⟩] from rfl, h, Option.map_some', hc, hn]
  rfl

theorem Kept.kept_refl (t : Torrent) : Kept t t := ⟨rfl, rfl, rfl⟩

theorem Kept.kept_trans {a b c : Torrent} (h₁ : Kept a b) (h₂ : Kept b c) : Kept a c :=
  ⟨h₂.1.trans h₁.1, h₂.2.1.trans h₁.2.1, h₂.2.2.trans h₁.2.2⟩

theorem set_messages {heap : List Peer} {p : PeerPtr} {pe pe' : Peer}
    (hp : heap[p]? = some pe) (hm : pe'.Messages = pe.Messages) :
    (heap.set p pe').map (fun pe => pe.Messages) = heap.map (fun pe => pe.Messages) := by
  apply List.ext_getElem?
  intro i
  simp only [List.getElem?_map, List.getElem?_set]
  split
  · rename_i hpi
    subst hpi
    split
    · rw [hp]; simp [hm]
    · rename_i hlt
      rw [List.getElem?_eq_none (Nat.le_of_not_lt hlt)]
  · rfl

theorem updateInterestedState_kept {t t' : Torrent} {p : PeerPtr}
    (h : updateInterestedState t p = some t') : Kept t t' := by
  unfold updateInterestedState at h
  split at h
  · cases h; exact Kept.kept_refl _
  · simp only [Option.bind_eq_bind, Option.bind_eq_some] at h
    obtain ⟨bf, -, pe, hpe, b, -, h⟩ := h
    split at h
    · cases h; exact ⟨rfl, rfl, set_messages hpe rfl⟩
    · split at h
      · cases h; exact ⟨rfl, rfl, set_messages hpe rfl⟩
      · cases h; exact Kept.kept_refl _

theorem handlePeerMessage_kept {env : Env} {t t' : Torrent} {pm : PeerMessage} {bf : Bitfield}
    (hb : t.bitfield = some bf) (h : handlePeerMessage env t pm = some t') : Kept t t' := by
  unfold handlePeerMessage at h
  simp only [Option.bind_eq_bind, Option.bind_eq_some] at h
  obtain ⟨pe, hpe, h⟩ := h
  repeat' first
    | (cases h <;> exact ⟨rfl, rfl, rfl⟩)
    | (cases h <;> exact ⟨rfl, rfl, set_messages hpe rfl⟩)
    | (have hu := updateInterestedState_kept h
       exact ⟨hu.1, hu.2.1, hu.2.2⟩)
    | (rename_i hn; rw [hb] at hn; cases hn; done)
    | split at h
    | (obtain ⟨_, _, h⟩ := h)
    | (simp only [Option.bind_eq_bind, Option.bind_eq_some] at h)

theorem queuedEvents_congr {t t' : Torrent}
    (h : t'.heap.map (fun pe => pe.Messages) = t.heap.map (fun pe => pe.Messages))
    (l : List (Conn × PeerPtr)) : queuedEvents t' l = queuedEvents t l := by
  induction l with
  | nil => rfl
  | cons e rest ih =>
    obtain ⟨c, p⟩ := e
    have hp : (t'.heap[p]?).map (fun pe => pe.Messages) =
        (t.heap[p]?).map (fun pe => pe.Messages) := by
      rw [← List.getElem?_map, ← List.getElem?_map, h]
    simp only [queuedEvents, hp, ih]

theorem runAll_append (env : Env) (l₁ l₂ : List Event) :
    ∀ t : Torrent, runAll env t (l₁ ++ l₂) = (runAll env t l₁).bind (fun s => runAll env s l₂) := by
  induction l₁ with
  | nil => intro t; rfl
  | cons e rest ih =>
    intro t
    simp only [List.cons_append, runAll, Option.bind_eq_bind]
    cases run env t e with
    | none => rfl
    | some t1 => simp only [Option.some_bind]; exact ih t1

theorem processPeerMessages_eq_runAll (env : Env) (p : PeerPtr) (msgs : List Message) :
    ∀ t : Torrent, processPeerMessages env p t msgs =
      runAll env t (msgs.map (fun m => Event.message { Peer := p, Message := m })) := by
  induction msgs with
  | nil => intro t; rfl
  | cons m rest ih =>
    intro t
    simp only [processPeerMessages, List.map_cons, runAll, run, Option.bind_eq_bind]
    cases handlePeerMessage env t { Peer := p, Message := m } with
    | none => rfl
    | some t1 => simp only [Option.some_bind]; exact ih t1

theorem processPeerMessages_kept {env : Env} {p : PeerPtr} (msgs : List Message) :
    ∀ {t t' : Torrent} {bf : Bitfield}, t.bitfield = some bf →
      processPeerMessages env p t msgs = some t' → Kept t t' := by
  induction msgs with
  | nil => intro t t' bf _ h; cases h; exact Kept.kept_refl _
  | cons m rest ih =>
    intro t t' bf hb h
    simp only [processPeerMessages, Option.bind_eq_bind, Option.bind_eq_some] at h
    obtain ⟨t1, h1, h2⟩ := h
    have k1 := handlePeerMessage_kept hb h1
    exact k1.kept_trans (ih (k1.1.trans hb) h2)

theorem processQueuedLoop_eq_runAll (env : Env) (l : List (Conn × PeerPtr)) :
    ∀ (t : Torrent) (bf : Bitfield), t.bitfield = some bf →
      processQueuedLoop env t l = (queuedEvents t l).bind (runAll env t) := by
  induction l with
  | nil => intro t bf _; rfl
  | cons e rest ih =>
    intro t bf hb
    obtain ⟨c, p⟩ := e
    simp only [processQueuedLoop, queuedEvents, Option.bind_eq_bind]
    cases hp : t.heap[p]? with
    | none => rfl
    | some pe =>
      simp only [Option.some_bind, Option.map_some']
      cases h1 : processPeerMessages env p t pe.Messages with
      | none =>
        rw [processPeerMessages_eq_runAll] at h1
        cases queuedEvents t rest with
        | none => rfl
        | some tail =>
          simp only [Option.some_bind, Option.none_bind, runAll_append, h1]
      | some t1 =>
        have k := processPeerMessages_kept _ hb h1
        rw [processPeerMessages_eq_runAll] at h1
        simp only [Option.some_bind]
        rw [ih t1 bf (k.1.trans hb), queuedEvents_congr k.2.2]
        cases queuedEvents t rest with
        | none => rfl
        | some tail =>
          simp only [Option.some_bind, runAll_append, h1]

/-- C6: while the engine has no bitfield, a `Have`, `Bitfield`, `HaveAll` or `AllowedFast`
message is appended to the end of the queue of its sender, and nothing else changes and
nothing is done.  Once the bitfield exists, `processQueuedMessages` does exactly what the
event loop does when it receives the queued messages one after the other, peer by peer and for
each peer in the order of its queue. -/
theorem queued_messages_replayed (env : Env) (t s : Torrent) (p : PeerPtr) (pe : Peer)
    (index : Nat) (data : List Byte) (bf : Bitfield)
    (hn : t.bitfield = none) (hp : t.heap[p]? = some pe) (hb : s.bitfield = some bf) :
    handlePeerMessage env t { Peer := p, Message := .have index } =
      some (t.setPeer p { pe with Messages := pe.Messages ++ [.have index] }) ∧
    handlePeerMessage env t { Peer := p, Message := .bitfield data } =
      some (t.setPeer p { pe with Messages := pe.Messages ++ [.bitfield data] }) ∧
    handlePeerMessage env t { Peer := p, Message := .haveAll } =
      some (t.setPeer p { pe with Messages := pe.Messages ++ [.haveAll] }) ∧
    handlePeerMessage env t { Peer := p, Message := .allowedFast index } =
      some (t.setPeer p { pe with Messages := pe.Messages ++ [.allowedFast index] }) ∧
    processQueuedMessages env s = (queuedEvents s s.connectedPeers).bind (runAll env s) := by
  refine ⟨?_, ?_, ?_, ?_, processQueuedLoop_eq_runAll env _ s bf hb⟩ <;>
    simp [handlePeerMessage, hp, hn]

/-- C6 (witness): before the verifier has answered, a `Have` is queued; with the bitfield,
the two queued messages of the sample peer are handled as if they arrived in their order. -/
theorem queued_messages_replayed_witness :
    handlePeerMessage exEnv exVerifying { Peer := 0, Message := .have 1 } =
      some (exVerifying.setPeer 0 { Peer.new exConn1 with Messages := [.have 1] }) ∧
    processQueuedMessages exEnv exQueued =
      runAll exEnv exQueued [.message { Peer := 0, Message := .have 1 },
        .message { Peer := 0, Message := .have 0 }] :=
  have h := queued_messages_replayed exEnv exVerifying exQueued 0 (Peer.new exConn1) 1 []
    ⟨[false, false]⟩ rfl rfl rfl
  ⟨h.1, h.2.2.2.2⟩

theorem Stable.stable_refl (t : Torrent) : Stable t t := ⟨rfl, rfl, rfl, rfl, rfl⟩

theorem Stable.stable_trans {a b c : Torrent} (h₁ : Stable a b) (h₂ : Stable b c) : Stable a c :=
  ⟨h₂.1.trans h₁.1, h₂.2.1.trans h₁.2.1, h₂.2.2.1.trans h₁.2.2.1, h₂.2.2.2.1.trans h₁.2.2.2.1,
    h₂.2.2.2.2.trans h₁.2.2.2.2⟩

theorem sentTo_append (l : List Effect) (e : Effect) (p : PeerPtr) (m : Message) :
    sentTo (l ++ [e]) p m = sentTo l p m + if e = .peerSend p m then 1 else 0 := by
  unfold sentTo
  rw [List.count_append, List.count_singleton]
  simp only [beq_iff_eq]

theorem interestedLoop_total (bf : Bitfield) (pieces : List Piece) (c : Conn) (l : List Nat)
    (h : ∀ i ∈ l, i < bf.Len ∧ i < pieces.length) :
    ∃ b, interestedLoop bf pieces c l = some b := by
  induction l with
  | nil => exact ⟨false, rfl⟩
  | cons i rest ih =>
    obtain ⟨h1, h2⟩ := h i (List.mem_cons_self _ _)
    have ht : bf.Test i = some bf.bits[i] := by
      unfold Bitfield.Test; exact List.getElem?_eq_getElem h1
    have hp : pieces[i]? = some pieces[i] := List.getElem?_eq_getElem h2
    simp only [interestedLoop, ht, hp, Option.bind_eq_bind, Option.some_bind]
    split
    · exact ⟨true, rfl⟩
    · exact ih (fun j hj => h j (List.mem_cons_of_mem _ hj))

theorem updateInterestedState_total {t : Torrent} {p : PeerPtr} {bf : Bitfield}
    (hb : t.bitfield = some bf) (hl : bf.Len ≤ t.pieces.length) (hp : p < t.heap.length) :
    ∃ t', updateInterestedState t p = some t' ∧ Stable t t' ∧
      ∀ q m, sentTo t'.log q m = sentTo t.log q m := by
  unfold updateInterestedState
  split
  · exact ⟨t, rfl, Stable.stable_refl _, fun _ _ => rfl⟩
  · obtain ⟨b, hb'⟩ := interestedLoop_total bf t.pieces t.heap[p].Conn (List.range bf.Len)
      (fun i hi => by
        have := List.mem_range.1 hi
        exact ⟨this, Nat.lt_of_lt_of_le this hl⟩)
    have hpe : t.heap[p]? = some t.heap[p] := List.getElem?_eq_getElem hp
    simp only [hb, hpe, hb', Option.bind_eq_bind, Option.some_bind]
    split
    · refine ⟨_, rfl, ⟨rfl, rfl, rfl, rfl, by simp [Torrent.setPeer, Torrent.emit]⟩, ?_⟩
      intro q m
      simp [Torrent.emit, Torrent.setPeer, sentTo_append]
    · split
      · refine ⟨_, rfl, ⟨rfl, rfl, rfl, rfl, by simp [Torrent.setPeer, Torrent.emit]⟩, ?_⟩
        intro q m
        simp [Torrent.emit, Torrent.setPeer, sentTo_append]
      · exact ⟨t, rfl, Stable.stable_refl _, fun _ _ => rfl⟩

theorem haveLoop_total (index : Nat) (l : List (Conn × PeerPtr)) :
    ∀ (t : Torrent) (bf : Bitfield), t.bitfield = some bf → bf.Len ≤ t.pieces.length →
      (∀ e ∈ l, e.2 < t.heap.length) →
      ∃ t', haveLoop index t l = some t' ∧ Stable t t' ∧
        ∀ q, sentTo t'.log q (.have index) =
          sentTo t.log q (.have index) + (l.map (fun e => e.2)).count q := by
  induction l with
  | nil => intro t bf _ _ _; exact ⟨t, rfl, Stable.stable_refl _, fun _ => rfl⟩
  | cons e rest ih =>
    intro t bf hb hl hv
    obtain ⟨c, p⟩ := e
    have hp : p < t.heap.length := hv (c, p) (List.mem_cons_self _ _)
    obtain ⟨t1, h1, s1, n1⟩ := updateInterestedState_total
      (t := t.emit (.peerSend p (.have index))) (p := p) hb hl hp
    have s0 : Stable t t1 := ⟨s1.1, s1.2.1, s1.2.2.1, s1.2.2.2.1, s1.2.2.2.2⟩
    obtain ⟨t2, h2, s2, n2⟩ := ih t1 bf (s0.1.trans hb) (by rw [s0.2.1]; exact hl)
      (fun e he => by rw [s0.2.2.2.2]; exact hv e (List.mem_cons_of_mem _ he))
    refine ⟨t2, ?_, s0.stable_trans s2, ?_⟩
    · simp only [haveLoop, h1, Option.bind_eq_bind, Option.some_bind]
      exact h2
    · intro q
      rw [n2 q, n1 q]
      simp only [Torrent.emit, sentTo_append, List.map_cons, List.count_cons]
      by_cases hq : p = q
      · subst hq; simp; omega
      · have : ¬ (Effect.peerSend p (Message.have index) = Effect.peerSend q (Message.have index)) := by
          intro hh; injection hh with h1 _; exact hq h1
        simp [this, hq]

theorem checkCompletion_total {t : Torrent} {bf : Bitfield} (hb : t.bitfield = some bf)
    (hc : t.completed = false → t.completeCClosed = false) :
    ∃ t', checkCompletion t = some t' ∧ Stable t t' ∧
      ∀ q m, sentTo t'.log q m = sentTo t.log q m := by
  unfold checkCompletion
  split
  · exact ⟨t, rfl, Stable.stable_refl _, fun _ _ => rfl⟩
  · rename_i hcf
    simp only [hb, Option.bind_eq_bind, Option.some_bind]
    split
    · have : t.completeCClosed = false := hc (by simpa using hcf)
      simp only [this, Bool.false_eq_true, if_false]
      refine ⟨_, rfl, ⟨rfl, rfl, rfl, rfl, rfl⟩, ?_⟩
      intro q m
      simp [Torrent.emit, sentTo_append]
    · exact ⟨t, rfl, Stable.stable_refl _, fun _ _ => rfl⟩

/-- C8 (as amended): when the engine is ready for the write response of a piece (the bitfield
has a bit for it, there is a piece for every bit, every connected peer has its own object),
the response carries no error, and there is no resume database or it accepts the bitfield,
then the response is handled, the connected peers stay the same, and every connected peer is
handed exactly one more `Have` for that piece by `SendMessage`. -/
theorem have_sent_to_every_peer (env : Env) (t : Torrent) (resp : WriteResponse) (rf : Bool)
    (hw : WriteReady t resp.Piece.Index) (he : resp.Error = false)
    (hr : t.resume = false ∨ rf = false)
    (hd : (t.connectedPeers.map (fun e => e.2)).Nodup) :
    ∃ t', run env t (.writeResponse resp rf) = some t' ∧
      t'.connectedPeers = t.connectedPeers ∧
      ∀ e ∈ t.connectedPeers, sentTo t'.log e.2 (.have resp.Piece.Index) =
        sentTo t.log e.2 (.have resp.Piece.Index) + 1 := by
  obtain ⟨bf, hb, hi, hl, hv, hc⟩ := hw
  have hpc : t.pieces[resp.Piece.Index]? = some t.pieces[resp.Piece.Index] :=
    List.getElem?_eq_getElem (Nat.lt_of_lt_of_le hi hl)
  have hset : bf.Set resp.Piece.Index = some ⟨bf.bits.set resp.Piece.Index true⟩ := by
    unfold Bitfield.Set; exact if_pos hi
  have hlen : (⟨bf.bits.set resp.Piece.Index true⟩ : Bitfield).Len = bf.Len := by
    simp [Bitfield.Len]
  have main : ∀ t3 : Torrent,
      t3.bitfield = some ⟨bf.bits.set resp.Piece.Index true⟩ →
      t3.pieces.length = t.pieces.length → t3.connectedPeers = t.connectedPeers →
      t3.heap.length = t.heap.length → t3.completed = t.completed →
      t3.completeCClosed = t.completeCClosed →
      (∀ q m, sentTo t3.log q m = sentTo t.log q m) →
      ∃ t', (checkCompletion t3).bind (fun t4 => haveLoop resp.Piece.Index t4 t4.connectedPeers)
          = some t' ∧ t'.connectedPeers = t.connectedPeers ∧
        ∀ e ∈ t.connectedPeers, sentTo t'.log e.2 (.have resp.Piece.Index) =
          sentTo t.log e.2 (.have resp.Piece.Index) + 1 := by
    intro t3 h3b h3p h3c h3h h3d h3o h3n
    obtain ⟨t4, h4, s4, n4⟩ := checkCompletion_total h3b
      (by rw [h3d, h3o]; exact hc)
    obtain ⟨t5, h5, s5, n5⟩ := haveLoop_total resp.Piece.Index t4.connectedPeers t4
      ⟨bf.bits.set resp.Piece.Index true⟩ (s4.1.trans h3b)
      (by rw [s4.2.1, hlen]; exact le_of_le_of_eq hl h3p.symm)
      (fun e he => by
        rw [s4.2.2.2.2, h3h]
        rw [s4.2.2.2.1, h3c] at he
        exact hv e he)
    refine ⟨t5, ?_, ?_, ?_⟩
    · rw [h4]; exact h5
    · rw [s5.2.2.2.1, s4.2.2.2.1, h3c]
    · intro e hmem
      rw [n5 e.2, n4, h3n, s4.2.2.2.1, h3c]
      congr 1
      exact List.count_eq_one_of_mem hd (List.mem_map_of_mem _ hmem)
  simp only [run, writeResponse, hpc, he, hb, hset, Option.bind_eq_bind, Option.some_bind,
    Bool.false_eq_true, if_false]
  rcases hr with hr | hr
  · simp only [hr, Bool.false_eq_true, if_false]
    exact main _ rfl (by simp) rfl rfl rfl rfl (fun _ _ => rfl)
  · cases hres : t.resume
    · simp only [Bool.false_eq_true, if_false]
      exact main _ rfl (by simp) rfl rfl rfl rfl (fun _ _ => rfl)
    · simp only [if_true, hr, Bool.false_eq_true, if_false]
      exact main _ rfl (by simp [Torrent.emit]) rfl rfl rfl rfl
        (fun q m => by simp [Torrent.emit, sentTo_append])

/-- C8 (witness): the sample engine handles the write response for piece 0. -/
theorem have_sent_to_every_peer_witness :
    WriteReady exDownloading 0 ∧
    (run exEnv exDownloading (.writeResponse { Piece := { Index := 0 } } false)).map
      (fun t => sentTo t.log 0 (.have 0)) = some 1 := by
  have hw : WriteReady exDownloading 0 :=
    ⟨⟨[false, false]⟩, rfl, by decide, by decide, by decide, fun _ => rfl⟩
  refine ⟨hw, ?_⟩
  obtain ⟨t', h, -, hn⟩ := have_sent_to_every_peer exEnv exDownloading
    { Piece := { Index := 0 } } false hw rfl (Or.inl rfl) (by decide)
  rw [h, Option.map_some', hn (exConn1, 0) (by decide)]
  rfl

/-- C8 (counterexample): with a resume database that rejects the bitfield, the write response
for piece 0, which carries no error, is handled without any `Have` for the connected peer. -/
theorem no_have_when_resume_write_fails :
    exResuming.connectedPeers = [(exConn1, 0)] ∧
    (run exEnv exResuming (.writeResponse { Piece := { Index := 0 }, Error := false } true)).map
      (fun t => sentTo t.log 0 (.have 0)) = some 0 := by
  decide

theorem selectPeers_eq (heap : List Peer) (keep : Peer → Bool) (l : List (Conn × PeerPtr))
    (hv : ∀ e ∈ l, e.2 < heap.length) :
    selectPeers heap keep l = some ((l.map (fun e => e.2)).filter (peerHas heap keep)) := by
  induction l with
  | nil => rfl
  | cons e rest ih =>
    obtain ⟨c, p⟩ := e
    have hlt : p < heap.length := hv (c, p) (List.mem_cons_self _ _)
    have hp : heap[p]? = some heap[p] := List.getElem?_eq_getElem hlt
    simp only [selectPeers, hp, ih (fun e he => hv e (List.mem_cons_of_mem _ he)),
      Option.bind_eq_bind, Option.some_bind, List.map_cons, List.filter_cons, peerHas]

theorem insertByRate_perm (env : Env) (heap : List Peer) (p : PeerPtr) (l : List PeerPtr) :
    (insertByRate env heap p l).Perm (p :: l) := by
  induction l with
  | nil => exact List.Perm.refl _
  | cons q rest ih =>
    unfold insertByRate
    split
    · split
      · exact (List.Perm.cons q ih).trans (List.Perm.swap p q rest)
      · exact List.Perm.refl _
    · exact List.Perm.refl _

theorem sortByRate_perm (env : Env) (heap : List Peer) (l : List PeerPtr) :
    (sortByRate env heap l).Perm l := by
  induction l with
  | nil => exact List.Perm.refl _
  | cons p rest ih =>
    unfold sortByRate
    exact (insertByRate_perm env heap p _).trans (List.Perm.cons p ih)

theorem SamePeers.samePeers_refl (t : Torrent) : SamePeers t t := ⟨rfl, rfl, fun _ => rfl⟩

theorem SamePeers.samePeers_trans {a b c : Torrent} (h₁ : SamePeers a b) (h₂ : SamePeers b c) :
    SamePeers a c :=
  ⟨h₂.1.trans h₁.1, h₂.2.1.trans h₁.2.1, fun q => (h₂.2.2 q).trans (h₁.2.2 q)⟩

theorem getElem?_set_map {heap : List Peer} {p q : PeerPtr} {pe' : Peer} {α : Type}
    (f : Peer → α) (hp : p < heap.length) :
    ((heap.set p pe')[q]?).map f = if q = p then some (f pe') else (heap[q]?).map f := by
  rw [List.getElem?_set]
  by_cases hq : p = q
  · subst hq; simp [hp]
  · have : ¬ q = p := fun h => hq h.symm
    simp [hq, this]

theorem chokePeer_total {t : Torrent} {p : PeerPtr} (hp : p < t.heap.length) :
    ∃ t', chokePeer t p = some t' ∧ SamePeers t t' ∧
      ∀ q, choking t' q = if q = p then some true else choking t q := by
  have hpe : t.heap[p]? = some t.heap[p] := List.getElem?_eq_getElem hp
  unfold chokePeer
  simp only [hpe, Option.bind_eq_bind, Option.some_bind]
  split
  · refine ⟨_, rfl, ⟨rfl, by simp [Torrent.setPeer, Torrent.emit], ?_⟩, ?_⟩
    · intro q
      simp only [optimistic, Torrent.emit, Torrent.setPeer, getElem?_set_map _ hp]
      split
      · rename_i hq; subst hq; simp [hpe]
      · rfl
    · intro q
      simp only [choking, Torrent.emit, Torrent.setPeer, getElem?_set_map _ hp]
  · rename_i hc
    refine ⟨t, rfl, SamePeers.samePeers_refl _, ?_⟩
    intro q
    split
    · rename_i hq; subst hq
      simp only [choking, hpe, Option.map_some']
      simpa using hc
    · rfl

theorem unchokePeer_total {t : Torrent} {p : PeerPtr} (hp : p < t.heap.length) :
    ∃ t', unchokePeer t p = some t' ∧ SamePeers t t' ∧
      ∀ q, choking t' q = if q = p then some false else choking t q := by
  have hpe : t.heap[p]? = some t.heap[p] := List.getElem?_eq_getElem hp
  unfold unchokePeer
  simp only [hpe, Option.bind_eq_bind, Option.some_bind]
  split
  · refine ⟨_, rfl, ⟨rfl, by simp [Torrent.setPeer, Torrent.emit], ?_⟩, ?_⟩
    · intro q
      simp only [optimistic, Torrent.emit, Torrent.setPeer, getElem?_set_map _ hp]
      split
      · rename_i hq; subst hq; simp [hpe]
      · rfl
    · intro q
      simp only [choking, Torrent.emit, Torrent.setPeer, getElem?_set_map _ hp]
  · rename_i hc
    refine ⟨t, rfl, SamePeers.samePeers_refl _, ?_⟩
    intro q
    split
    · rename_i hq; subst hq
      simp only [choking, hpe, Option.map_some']
      simpa using hc
    · rfl

theorem resetCounters_total (l : List (Conn × PeerPtr)) :
    ∀ t : Torrent, (∀ e ∈ l, e.2 < t.heap.length) →
      ∃ t', resetCounters t l = some t' ∧ SamePeers t t' ∧ ∀ q, choking t' q = choking t q := by
  induction l with
  | nil => intro t _; exact ⟨t, rfl, SamePeers.samePeers_refl _, fun _ => rfl⟩
  | cons e rest ih =>
    intro t hv
    obtain ⟨c, p⟩ := e
    have hp : p < t.heap.length := hv (c, p) (List.mem_cons_self _ _)
    have hpe : t.heap[p]? = some t.heap[p] := List.getElem?_eq_getElem hp
    simp only [resetCounters, hpe, Option.bind_eq_bind, Option.some_bind]
    obtain ⟨t', h', s', c'⟩ := ih (t.setPeer p { t.heap[p] with BytesDownlaodedInChokePeriod := 0 })
      (fun e he => by
        simp only [Torrent.setPeer, List.length_set]
        exact hv e (List.mem_cons_of_mem _ he))
    have s0 : SamePeers t (t.setPeer p { t.heap[p] with BytesDownlaodedInChokePeriod := 0 }) := by
      refine ⟨rfl, by simp [Torrent.setPeer], ?_⟩
      intro q
      simp only [optimistic, Torrent.setPeer, getElem?_set_map _ hp]
      split
      · rename_i hq; subst hq; simp [hpe]
      · rfl
    refine ⟨t', h', s0.samePeers_trans s', ?_⟩
    intro q
    rw [c' q]
    simp only [choking, Torrent.setPeer, getElem?_set_map _ hp]
    split
    · rename_i hq; subst hq; simp [hpe]
    · rfl

theorem unchokeAll_total (l : List PeerPtr) :
    ∀ t : Torrent, (∀ p ∈ l, p < t.heap.length) →
      ∃ t', unchokeAll t l = some t' ∧ SamePeers t t' ∧
        ∀ q, choking t' q = if q ∈ l then some false else choking t q := by
  induction l with
  | nil => intro t _; exact ⟨t, rfl, SamePeers.samePeers_refl _, fun q => by simp⟩
  | cons p rest ih =>
    intro t hv
    obtain ⟨t1, h1, s1, c1⟩ := unchokePeer_total (t := t) (hv p (List.mem_cons_self _ _))
    obtain ⟨t2, h2, s2, c2⟩ := ih t1
      (fun q hq => by rw [s1.2.1]; exact hv q (List.mem_cons_of_mem _ hq))
    refine ⟨t2, ?_, s1.samePeers_trans s2, ?_⟩
    · simp only [unchokeAll, h1, Option.bind_eq_bind, Option.some_bind]; exact h2
    · intro q
      rw [c2 q, c1 q]
      by_cases hq : q ∈ rest
      · simp [hq]
      · by_cases hqp : q = p
        · simp [hqp]
        · simp [hq, hqp]

theorem chokeOthers_total (u : List PeerPtr) (l : List (Conn × PeerPtr)) :
    ∀ t : Torrent, (∀ e ∈ l, e.2 < t.heap.length) →
      ∃ t', chokeOthers u t l = some t' ∧ SamePeers t t' ∧
        ∀ q, choking t' q =
          if q ∈ l.map (fun e => e.2) ∧ q ∉ u then some true else choking t q := by
  induction l with
  | nil => intro t _; exact ⟨t, rfl, SamePeers.samePeers_refl _, fun q => by simp⟩
  | cons e rest ih =>
    intro t hv
    obtain ⟨c, p⟩ := e
    by_cases hu : p ∈ u
    · obtain ⟨t2, h2, s2, c2⟩ := ih t (fun e he => hv e (List.mem_cons_of_mem _ he))
      refine ⟨t2, ?_, s2, ?_⟩
      · simp only [chokeOthers, hu, if_true]; exact h2
      · intro q
        rw [c2 q]
        by_cases hq : q = p
        · subst hq; simp [hu]
        · by_cases hm : q ∈ rest.map (fun e => e.2) <;> by_cases hqu : q ∈ u <;>
            simp [hq, hm, hqu, List.mem_cons]
    · obtain ⟨t1, h1, s1, c1⟩ := chokePeer_total (t := t) (hv (c, p) (List.mem_cons_self _ _))
      obtain ⟨t2, h2, s2, c2⟩ := ih t1
        (fun e he => by rw [s1.2.1]; exact hv e (List.mem_cons_of_mem _ he))
      refine ⟨t2, ?_, s1.samePeers_trans s2, ?_⟩
      · simp only [chokeOthers, hu, if_false, h1, Option.bind_eq_bind, Option.some_bind]
        exact h2
      · intro q
        rw [c2 q, c1 q]
        by_cases hq : q = p
        · subst hq; simp [hu]
        · by_cases hm : q ∈ rest.map (fun e => e.2) <;> by_cases hqu : q ∈ u <;>
            simp [hq, hm, hqu, List.mem_cons]

theorem filter_mem_length {l top : List PeerPtr} (hl : l.Nodup) (ht : top.Nodup)
    (hs : ∀ p ∈ top, p ∈ l) : (l.filter (fun p => decide (p ∈ top))).length = top.length := by
  apply List.Perm.length_eq
  apply (List.perm_ext_iff_of_nodup (hl.filter _) ht).2
  intro a
  simp only [List.mem_filter, decide_eq_true_eq]
  exact ⟨fun h => h.2, fun h => ⟨hs a h, h⟩⟩

theorem countPeers_eq (t : Torrent) (f : Peer → Bool) :
    countPeers t f = ((t.connectedPeers.map (fun e => e.2)).filter (peerHas t.heap f)).length := by
  unfold countPeers
  rw [List.filter_map, List.length_map]
  rfl

theorem filter_length_congr {l : List PeerPtr} {f g : PeerPtr → Bool}
    (h : ∀ p ∈ l, f p = g p) : (l.filter f).length = (l.filter g).length := by
  rw [List.filter_congr h]

/-- C10: when every connected peer has its own object, a regular unchoke tick is handled and
leaves the connected peers and their optimistic flags as they were; afterwards the number of
connected peers that are neither optimistically unchoked nor choked is the smaller of 3 and the
number of connected peers that are not optimistically unchoked, and the number of connected
peers that are not choked is at most one more than that. -/
theorem unchoke_tick_counts (env : Env) (t : Torrent)
    (hv : ∀ e ∈ t.connectedPeers, e.2 < t.heap.length)
    (hd : (t.connectedPeers.map (fun e => e.2)).Nodup) :
    ∃ t', run env t .unchokeTimer = some t' ∧
      t'.connectedPeers = t.connectedPeers ∧
      countPeers t' (fun pe => !pe.OptimisticUnhoked) =
        countPeers t (fun pe => !pe.OptimisticUnhoked) ∧
      countPeers t' (fun pe => !pe.OptimisticUnhoked && !pe.AmChoking) =
        min 3 (countPeers t (fun pe => !pe.OptimisticUnhoked)) ∧
      countPeers t' (fun pe => !pe.AmChoking) ≤
        min 3 (countPeers t (fun pe => !pe.OptimisticUnhoked)) + 1 := by
  -- the ranking and its first three
  obtain ⟨L, hL⟩ : ∃ L, L = (t.connectedPeers.map (fun e => e.2)).filter
      (peerHas t.heap (fun pe => !pe.OptimisticUnhoked)) := ⟨_, rfl⟩
  obtain ⟨top, htop⟩ : ∃ top, top = (sortByRate env t.heap L).take 3 := ⟨_, rfl⟩
  have hsel : selectPeers t.heap (fun pe => !pe.OptimisticUnhoked) t.connectedPeers = some L := by
    rw [hL]; exact selectPeers_eq t.heap _ t.connectedPeers hv
  have hperm := sortByRate_perm env t.heap L
  obtain ⟨t1, h1, s1, c1⟩ := resetCounters_total t.connectedPeers t hv
  have htopmem : ∀ p ∈ top, p ∈ t.connectedPeers.map (fun e => e.2) ∧
      peerHas t.heap (fun pe => !pe.OptimisticUnhoked) p = true := by
    intro p hp
    rw [htop] at hp
    have := hperm.subset (List.mem_of_mem_take hp)
    rw [hL] at this
    exact List.mem_filter.1 this
  have hvalid : ∀ p ∈ t.connectedPeers.map (fun e => e.2), p < t.heap.length := by
    intro p hp
    obtain ⟨e, he, rfl⟩ := List.mem_map.1 hp
    exact hv e he
  obtain ⟨t2, h2, s2, c2⟩ := unchokeAll_total top t1
    (fun p hp => by rw [s1.2.1]; exact hvalid p (htopmem p hp).1)
  obtain ⟨t3, h3, s3, c3⟩ := chokeOthers_total top t2.connectedPeers t2
    (fun e he => by
      rw [s2.2.1, s1.2.1]
      rw [s2.1, s1.1] at he
      exact hv e he)
  have s : SamePeers t t3 := (s1.samePeers_trans s2).samePeers_trans s3
  have hrun : run env t .unchokeTimer = some t3 := by
    simp only [run, unchokeTick, hsel, h1, ← htop, h2, Option.bind_eq_bind, Option.some_bind]
    exact h3
  -- the flags of the connected peers afterwards
  have hopt : ∀ p, peerHas t3.heap (fun pe => !pe.OptimisticUnhoked) p =
      peerHas t.heap (fun pe => !pe.OptimisticUnhoked) p := by
    intro p
    have := s.2.2 p
    unfold optimistic at this
    unfold peerHas
    cases h3p : t3.heap[p]? <;> cases hp : t.heap[p]? <;> simp_all
  have hchoke : ∀ p ∈ t.connectedPeers.map (fun e => e.2),
      choking t3 p = some (decide (p ∉ top)) := by
    intro p hp
    rw [c3 p, c2 p, c1 p, s2.1, s1.1]
    by_cases hin : p ∈ top
    · simp [hin]
    · simp [hin, hp]
  have hA : ∀ p ∈ t.connectedPeers.map (fun e => e.2),
      peerHas t3.heap (fun pe => !pe.AmChoking) p = decide (p ∈ top) := by
    intro p hp
    have := hchoke p hp
    unfold choking at this
    unfold peerHas
    cases h3p : t3.heap[p]? with
    | none => rw [h3p] at this; cases this
    | some pe =>
      rw [h3p] at this
      simp only [Option.map_some', Option.some.injEq] at this
      show (!pe.AmChoking) = decide (p ∈ top)
      rw [this]
      by_cases hin : p ∈ top <;> simp [hin]
  have hB : ∀ p ∈ t.connectedPeers.map (fun e => e.2),
      peerHas t3.heap (fun pe => !pe.OptimisticUnhoked && !pe.AmChoking) p =
        decide (p ∈ top) := by
    intro p hp
    have hAp := hA p hp
    have hOp := hopt p
    unfold peerHas at hAp hOp ⊢
    cases h3p : t3.heap[p]? with
    | none => rw [h3p] at hAp; exact hAp
    | some pe =>
      rw [h3p] at hAp hOp
      simp only at hAp hOp ⊢
      by_cases hin : p ∈ top
      · have ho := (htopmem p hin).2
        unfold peerHas at ho
        rw [← hOp] at ho
        rw [hAp, ho]
        simp [hin]
      · rw [hAp]
        simp [hin]
  -- the counts
  have hnodupL : L.Nodup := by rw [hL]; exact hd.filter _
  have hnodupTop : top.Nodup := by
    rw [htop]
    exact (hperm.nodup_iff.2 hnodupL).sublist (List.take_sublist _ _)
  have hlen : top.length = min 3 (countPeers t (fun pe => !pe.OptimisticUnhoked)) := by
    rw [htop, List.length_take, hperm.length_eq, countPeers_eq, hL]
  have hcount := filter_mem_length hd hnodupTop (fun p hp => (htopmem p hp).1)
  refine ⟨t3, hrun, s.1, ?_, ?_, ?_⟩
  · rw [countPeers_eq, countPeers_eq, s.1]
    exact filter_length_congr (fun p _ => hopt p)
  · rw [countPeers_eq, s.1, filter_length_congr hB, hcount, hlen]
  · rw [countPeers_eq, s.1, filter_length_congr hA, hcount, hlen]
    exact Nat.le_succ _

/-- C10 (witness): after a regular tick in the swarm of five, three of the four peers that
are not optimistically unchoked are unchoked. -/
theorem unchoke_tick_counts_witness :
    (exSwarm.connectedPeers.map (fun e => e.2)).Nodup ∧
    (run exEnv exSwarm .unchokeTimer).map
      (fun t => countPeers t (fun pe => !pe.OptimisticUnhoked && !pe.AmChoking)) = some 3 := by
  refine ⟨by decide, ?_⟩
  obtain ⟨t', h, -, -, h3, -⟩ := unchoke_tick_counts exEnv exSwarm (by decide) (by decide)
  rw [h, Option.map_some', h3]
  rfl

/-- C13: for a peer that is not choked, `chokePeer` sets `AmChoking` and hands the peer
exactly one `Choke`; for a choked peer it changes nothing and sends nothing.  Symmetrically
`unchokePeer` clears `AmChoking` and hands a choked peer exactly one `Unchoke`, and changes
nothing for a peer that is not choked.  A second call right after the first is always without
effect. -/
theorem choke_unchoke_once (t : Torrent) (p : PeerPtr) (pe : Peer) (hp : t.heap[p]? = some pe) :
    chokePeer t p =
      (if pe.AmChoking then some t
       else some ((t.setPeer p { pe with AmChoking := true }).emit (.peerSend p .choke))) ∧
    unchokePeer t p =
      (if pe.AmChoking then
         some ((t.setPeer p { pe with AmChoking := false }).emit (.peerSend p .unchoke))
       else some t) ∧
    (∀ t', chokePeer t p = some t' → chokePeer t' p = some t') ∧
    (∀ t', unchokePeer t p = some t' → unchokePeer t' p = some t') := by
  have hlt : p < t.heap.length := by
    rcases Nat.lt_or_ge p t.heap.length with h | h
    · exact h
    · rw [List.getElem?_eq_none h] at hp; cases hp
  refine ⟨?_, ?_, ?_, ?_⟩
  · cases hc : pe.AmChoking <;> simp [chokePeer, hp, hc]
  · cases hc : pe.AmChoking <;> simp [unchokePeer, hp, hc]
  · intro t' h
    cases hc : pe.AmChoking
    · simp [chokePeer, hp, hc] at h
      subst h
      simp [chokePeer, Torrent.setPeer, Torrent.emit, hlt]
    · simp [chokePeer, hp, hc] at h
      subst h
      simp [chokePeer, hp, hc]
  · intro t' h
    cases hc : pe.AmChoking
    · simp [unchokePeer, hp, hc] at h
      subst h
      simp [unchokePeer, hp, hc]
    · simp [unchokePeer, hp, hc] at h
      subst h
      simp [unchokePeer, Torrent.setPeer, Torrent.emit, hlt]

/-- C13 (witness): the choked peer of the sample engine is unchoked once. -/
theorem choke_unchoke_once_witness :
    exDownloading.heap[0]? = some (Peer.new exConn1) ∧
    unchokePeer exDownloading 0 =
      some ((exDownloading.setPeer 0 { Peer.new exConn1 with AmChoking := false }).emit
        (.peerSend 0 .unchoke)) ∧
    chokePeer exDownloading 0 = some exDownloading :=
  have h := choke_unchoke_once exDownloading 0 (Peer.new exConn1) rfl
  ⟨rfl, h.2.1, h.1⟩

/-- C11 (failing input): in the sample swarm peer 4 is the optimistic pick, connected, flagged
and unchoked.  The regular tick leaves it choked and sends it one Choke message, because the
last loop of the case chokes every connected peer that is not among the three unchoked ones;
the other peer outside the top three is choked and all counters are zero. -/
theorem regular_tick_chokes_optimistic_pick :
    exSwarm.optimisticUnchokedPeer = some 4 ∧
    4 ∈ exSwarm.connectedPeers.map (fun e => e.2) ∧
    optimistic exSwarm 4 = some true ∧ choking exSwarm 4 = some false ∧
    (run exEnv exSwarm .unchokeTimer).map
      (fun t => (choking t 4, sentTo t.log 4 .choke, choking t 0,
        t.heap.map (fun pe => pe.BytesDownlaodedInChokePeriod))) =
      some (some true, 1, some true, [0, 0, 0, 0, 0]) := by decide

/-- C18 (failing input): piece 0 of the sample torrent has length 4.  A Request with
Begin = 4294967295 and Length = 2 passes the length check, since the 32-bit sum is 1, and is
served with `SendPiece`, although Begin + Length is 4294967297 as an unbounded integer. -/
theorem request_bound_wraps :
    exServing.bitfield ≠ none ∧
    (exData[0]?).map (fun p => p.Length) = some 4 ∧
    handlePeerMessage exEnv exServing { Peer := 0, Message := .request 0 4294967295 2 } =
      some (exServing.emit (.connSendPiece exConn1 0 4294967295 2
        { Index := 0, Length := 4, Hash := [7],
          Blocks := [{ Index := 0, Begin := 0, Length := 4 }] })) := by decide

/-- C19 (failing input): the sample metadata has 3 bytes and the peer has sent an extension
handshake.  A metadata Request for piece 1 makes the handler slice `Info.Bytes[16384:3]`,
which is out of range (the handler panics); the Request for piece 0 is answered with the
three bytes. -/
theorem metadata_request_out_of_range :
    exSeeding.info.map (fun i => i.Bytes.length) = some 3 ∧
    handlePeerMessage exEnv exSeeding
      { Peer := 0, Message := .extensionMetadata { MsgType := .request, Piece := 1 } } = none ∧
    handlePeerMessage exEnv exSeeding
      { Peer := 0, Message := .extensionMetadata { MsgType := .request, Piece := 0 } } =
    some (exSeeding.emit (.connSend exConn1 (.extension 3 (.metadata
      { MsgType := .data, Piece := 0, TotalSize := 3, Data := [1, 2, 3] })))) := by
  decide

/-- C20 (failing input): the sample torrent has pieces of 4 and 2 bytes, piece length 4 and
total length 6.  With both bits set the announcer request is answered with
BytesLeft = 6 - 4 * 2 = -2, while `stats` reports BytesIncomplete = 0. -/
theorem bytes_left_ignores_last_piece :
    exSeeding.info = some exInfo ∧ exSeeding.bitfield = some ⟨[true, true]⟩ ∧
    bytesLeft exSeeding = some (-2) ∧
    (announcerRequest exSeeding).map (fun t => t.log) = some [.announcerResponse
      { InfoHash := exSeeding.infoHash, PeerID := exSeeding.peerID, Port := exSeeding.port,
        BytesLeft := -2 }] ∧
    (stats exSeeding).map (fun s => s.BytesIncomplete) = some 0 := by decide

theorem foldl_emit_eq {α : Type} (f : α → Effect) (l : List α) :
    ∀ t : Torrent, l.foldl (fun t a => t.emit (f a)) t = { t with log := t.log ++ l.map f } := by
  induction l with
  | nil => intro t; simp
  | cons a rest ih =>
    intro t
    rw [List.foldl_cons, ih]
    simp [Torrent.emit]

/-- C17 (what the code does): `close()` stops the torrent and then closes, in this order, the
outgoing handshakers, the incoming handshakers, the info downloaders, the piece downloaders,
the incoming peers and the outgoing peers.  That is all it does: the last effect is the close
of the last of these, no effect releases the storage, and the state changes in nothing but
`running` and the log. -/
theorem close_effects (t : Torrent) :
    close t = { t with
      running := false
      log := t.log ++ [.stop .closed] ++
        t.outgoingHandshakers.map (fun e => Effect.outgoingHandshakerClose e.1) ++
        t.incomingHandshakers.map (fun e => Effect.incomingHandshakerClose e.1) ++
        t.infoDownloads.map (fun e => Effect.infoDownloaderClose e.2) ++
        t.pieceDownloads.map (fun e => Effect.downloaderClose e.2) ++
        t.incomingPeers.map (fun p => Effect.peerClose p) ++
        t.outgoingPeers.map (fun p => Effect.peerClose p) } := by
  unfold close
  simp only [foldl_emit_eq]
  simp [stop, Torrent.emit]

theorem setFlag_fields {t : Torrent} {p : PeerPtr} (b : Bool) (hp : p < t.heap.length) :
    (t.setPeer p { t.heap[p] with OptimisticUnhoked := b }).connectedPeers = t.connectedPeers ∧
    (t.setPeer p { t.heap[p] with OptimisticUnhoked := b }).heap.length = t.heap.length ∧
    (∀ x, optimistic (t.setPeer p { t.heap[p] with OptimisticUnhoked := b }) x =
      if x = p then some b else optimistic t x) ∧
    (∀ x, choking (t.setPeer p { t.heap[p] with OptimisticUnhoked := b }) x = choking t x) := by
  have hpe : t.heap[p]? = some t.heap[p] := List.getElem?_eq_getElem hp
  refine ⟨rfl, by simp [Torrent.setPeer], ?_, ?_⟩
  · intro x
    simp only [optimistic, Torrent.setPeer, getElem?_set_map _ hp]
  · intro x
    simp only [choking, Torrent.setPeer, getElem?_set_map _ hp]
    split
    · rename_i hx; subst hx; simp [hpe]
    · rfl

theorem chokePreviousPick_total {t : Torrent}
    (hq : ∀ q, t.optimisticUnchokedPeer = some q → q < t.heap.length) :
    ∃ t1, chokePreviousPick t = some t1 ∧ t1.connectedPeers = t.connectedPeers ∧
      t1.heap.length = t.heap.length ∧
      (∀ x, optimistic t1 x =
        if t.optimisticUnchokedPeer = some x then some false else optimistic t x) ∧
      (∀ x, choking t1 x =
        if t.optimisticUnchokedPeer = some x then some true else choking t x) := by
  unfold chokePreviousPick
  cases hs : t.optimisticUnchokedPeer with
  | none => exact ⟨t, rfl, rfl, rfl, fun x => by simp, fun x => by simp⟩
  | some q =>
    have hlt : q < t.heap.length := hq q hs
    have hpe : t.heap[q]? = some t.heap[q] := List.getElem?_eq_getElem hlt
    obtain ⟨f1, f2, f3, f4⟩ := setFlag_fields (t := t) false hlt
    obtain ⟨t1, h1, s1, c1⟩ := chokePeer_total
      (t := t.setPeer q { t.heap[q] with OptimisticUnhoked := false }) (p := q)
      (by rw [f2]; exact hlt)
    refine ⟨t1, ?_, s1.1.trans f1, s1.2.1.trans f2, ?_, ?_⟩
    · simp only [hpe, Option.bind_eq_bind, Option.some_bind]
      exact h1
    · intro x
      rw [s1.2.2 x, f3 x]
      by_cases hx : x = q
      · subst hx; simp
      · have : ¬ q = x := fun h => hx h.symm
        simp [hx, this]
    · intro x
      rw [c1 x, f4 x]
      by_cases hx : x = q
      · subst hx; simp
      · have : ¬ q = x := fun h => hx h.symm
        simp [hx, this]

theorem valid_flag {t : Torrent} {p : PeerPtr} (hp : p < t.heap.length)
    (h : optimistic t p ≠ some true) : optimistic t p = some false := by
  have hpe : t.heap[p]? = some t.heap[p] := List.getElem?_eq_getElem hp
  unfold optimistic at h ⊢
  rw [hpe] at h ⊢
  simp only [Option.map_some', ne_eq, Option.some.injEq] at h ⊢
  simpa using h

theorem peerHas_candidate {t : Torrent} {p : PeerPtr} :
    peerHas t.heap (fun pe => !pe.OptimisticUnhoked && pe.AmChoking) p = true ↔
      choking t p = some true ∧ optimistic t p = some false := by
  unfold peerHas choking optimistic
  cases t.heap[p]? with
  | none => simp
  | some pe => simp [and_comm]

/-- C12: take a state in which every connected peer and the previous pick have an object and a
connected peer carries the optimistic flag exactly when it is `optimisticUnchokedPeer`.  An
optimistic tick is then handled and leaves the connected peers as they were.  Afterwards the
previous pick, if any, is choked and has lost its flag.  If some connected peer was choked and
had no flag before the tick, then `optimisticUnchokedPeer` is a connected peer that was choked
and had no flag before, that differs from the previous pick, that is now unchoked and has the
flag, and no other connected peer has the flag.  Otherwise `optimisticUnchokedPeer` is absent
and no connected peer has the flag. -/
theorem optimistic_tick_picks_one (env : Env) (t : Torrent) (rnd : Nat)
    (hv : ∀ e ∈ t.connectedPeers, e.2 < t.heap.length)
    (hq : ∀ q, t.optimisticUnchokedPeer = some q → q < t.heap.length)
    (hs : ∀ p ∈ t.connectedPeers.map (fun e => e.2),
      optimistic t p = some true ↔ t.optimisticUnchokedPeer = some p) :
    ∃ t', run env t (.optimisticUnchokeTimer rnd) = some t' ∧
      t'.connectedPeers = t.connectedPeers ∧
      (∀ q, t.optimisticUnchokedPeer = some q →
        optimistic t' q = some false ∧ choking t' q = some true) ∧
      ((∃ p ∈ t.connectedPeers.map (fun e => e.2),
          choking t p = some true ∧ optimistic t p = some false) →
        ∃ p ∈ t.connectedPeers.map (fun e => e.2),
          t'.optimisticUnchokedPeer = some p ∧
          optimistic t' p = some true ∧ choking t' p = some false ∧
          choking t p = some true ∧ optimistic t p = some false ∧
          t.optimisticUnchokedPeer ≠ some p ∧
          ∀ p' ∈ t.connectedPeers.map (fun e => e.2), optimistic t' p' = some true → p' = p) ∧
      ((¬ ∃ p ∈ t.connectedPeers.map (fun e => e.2),
          choking t p = some true ∧ optimistic t p = some false) →
        t'.optimisticUnchokedPeer = none ∧
        ∀ p ∈ t.connectedPeers.map (fun e => e.2), optimistic t' p = some false) := by
  obtain ⟨peers, hpeers⟩ : ∃ peers, peers = (t.connectedPeers.map (fun e => e.2)).filter
      (peerHas t.heap (fun pe => !pe.OptimisticUnhoked && pe.AmChoking)) := ⟨_, rfl⟩
  have hsel : selectPeers t.heap (fun pe => !pe.OptimisticUnhoked && pe.AmChoking)
      t.connectedPeers = some peers := by
    rw [hpeers]; exact selectPeers_eq t.heap _ t.connectedPeers hv
  have hmem : ∀ p, p ∈ peers ↔ p ∈ t.connectedPeers.map (fun e => e.2) ∧
      choking t p = some true ∧ optimistic t p = some false := by
    intro p
    rw [hpeers, List.mem_filter, peerHas_candidate]
  have hvalid : ∀ p ∈ t.connectedPeers.map (fun e => e.2), p < t.heap.length := by
    intro p hp
    obtain ⟨e, he, rfl⟩ := List.mem_map.1 hp
    exact hv e he
  obtain ⟨t1, h1, c1, l1, o1, k1⟩ := chokePreviousPick_total hq
  have hunflag : ∀ p ∈ t.connectedPeers.map (fun e => e.2), optimistic t1 p ≠ some true := by
    intro p hp h
    rw [o1 p] at h
    split at h
    · cases h
    · rename_i hne
      exact hne ((hs p hp).1 h)
  by_cases hempty : peers.length = 0
  · -- nobody to pick
    have hnil : peers = [] := List.length_eq_zero.1 hempty
    have hrun : run env t (.optimisticUnchokeTimer rnd) =
        some { t1 with optimisticUnchokedPeer := none } := by
      simp only [run, optimisticUnchokeTick, hsel, h1, hempty, Option.bind_eq_bind,
        Option.some_bind, if_true]
    refine ⟨_, hrun, c1, ?_, ?_, ?_⟩
    · intro q hqs
      have ho := o1 q
      have hk := k1 q
      rw [if_pos hqs] at ho hk
      exact ⟨ho, hk⟩
    · rintro ⟨p, hp, hc, ho⟩
      have : p ∈ peers := (hmem p).2 ⟨hp, hc, ho⟩
      rw [hnil] at this
      cases this
    · intro _
      refine ⟨rfl, ?_⟩
      intro p hp
      have hlt : p < t1.heap.length := by rw [l1]; exact hvalid p hp
      exact valid_flag hlt (hunflag p hp)
  · -- the pick
    have hpos : rnd % peers.length < peers.length := Nat.mod_lt _ (Nat.pos_of_ne_zero hempty)
    have hget : peers[rnd % peers.length]? = some peers[rnd % peers.length] :=
      List.getElem?_eq_getElem hpos
    obtain ⟨p, hp⟩ : ∃ p, p = peers[rnd % peers.length] := ⟨_, rfl⟩
    rw [← hp] at hget
    have hpin : p ∈ peers := by rw [hp]; exact List.getElem_mem _
    obtain ⟨hpM, hpc, hpo⟩ := (hmem p).1 hpin
    have hplt : p < t1.heap.length := by rw [l1]; exact hvalid p hpM
    have hpe : t1.heap[p]? = some t1.heap[p] := List.getElem?_eq_getElem hplt
    have hnotprev : t.optimisticUnchokedPeer ≠ some p := by
      intro h
      have := (hs p hpM).2 h
      rw [hpo] at this
      cases this
    obtain ⟨f1, f2, f3, f4⟩ := setFlag_fields (t := t1) true hplt
    obtain ⟨t2, h2, s2, c2⟩ := unchokePeer_total
      (t := t1.setPeer p { t1.heap[p] with OptimisticUnhoked := true }) (p := p)
      (by rw [f2]; exact hplt)
    have hrun : run env t (.optimisticUnchokeTimer rnd) =
        some { t2 with optimisticUnchokedPeer := some p } := by
      simp only [run, optimisticUnchokeTick, hsel, h1, hempty, hget, hpe, h2,
        Option.bind_eq_bind, Option.some_bind, if_false]
    have hopt : ∀ x, optimistic t2 x = if x = p then some true else optimistic t1 x := by
      intro x; rw [s2.2.2 x, f3 x]
    have hchk : ∀ x, choking t2 x = if x = p then some false else choking t1 x := by
      intro x; rw [c2 x, f4 x]
    refine ⟨_, hrun, (s2.1.trans f1).trans c1, ?_, ?_, ?_⟩
    · intro q hqs
      have hqp : q ≠ p := fun h => hnotprev (h ▸ hqs)
      have ho := o1 q
      have hk := k1 q
      rw [if_pos hqs] at ho hk
      refine ⟨?_, ?_⟩
      · show optimistic t2 q = some false
        rw [hopt q, if_neg hqp]; exact ho
      · show choking t2 q = some true
        rw [hchk q, if_neg hqp]; exact hk
    · intro _
      refine ⟨p, hpM, rfl, ?_, ?_, hpc, hpo, hnotprev, ?_⟩
      · show optimistic t2 p = some true
        rw [hopt p, if_pos rfl]
      · show choking t2 p = some false
        rw [hchk p, if_pos rfl]
      · intro p' hp' hflag
        by_contra hne
        have : optimistic t2 p' = some true := hflag
        rw [hopt p', if_neg hne] at this
        exact hunflag p' hp' this
    · intro hnone
      exact absurd ⟨p, hpM, hpc, hpo⟩ hnone

/-- C12 (witness): an optimistic tick in the swarm of five; the pick of before, peer 4, is
choked and loses its flag. -/
theorem optimistic_tick_picks_one_witness :
    (∀ e ∈ exSwarm.connectedPeers, e.2 < exSwarm.heap.length) ∧
    (run exEnv exSwarm (.optimisticUnchokeTimer 7)).map
      (fun t => (optimistic t 4, choking t 4)) = some (some false, some true) := by
  have hv : ∀ e ∈ exSwarm.connectedPeers, e.2 < exSwarm.heap.length := by decide
  refine ⟨hv, ?_⟩
  obtain ⟨t', h, -, hprev, -, -⟩ := optimistic_tick_picks_one exEnv exSwarm 7 hv
    (by decide) (by decide)
  obtain ⟨ho, hc⟩ := hprev 4 rfl
  rw [h, Option.map_some', ho, hc]

theorem mapGet_mapSet_self {κ α : Type} [DecidableEq κ] (m : List (κ × α)) (k : κ) (v : α) :
    mapGet (mapSet m k v) k = some v := by
  induction m with
  | nil => simp [mapSet, mapGet]
  | cons e rest ih =>
    obtain ⟨k', v'⟩ := e
    by_cases h : k' = k
    · simp [mapSet, mapGet, h]
    · simp [mapSet, mapGet, h, ih]

theorem mapGet_mapSet_other {κ α : Type} [DecidableEq κ] (m : List (κ × α)) (k k' : κ) (v : α)
    (hk : k' ≠ k) : mapGet (mapSet m k v) k' = mapGet m k' := by
  induction m with
  | nil => simp [mapSet, mapGet, hk.symm]
  | cons e rest ih =>
    obtain ⟨k'', v'⟩ := e
    by_cases h : k'' = k
    · subst h
      simp [mapSet, mapGet, hk.symm]
    · by_cases h' : k'' = k'
      · subst h'
        simp [mapSet, mapGet, h]
      · simp [mapSet, mapGet, h, h', ih]

theorem mapSet_length {κ α : Type} [DecidableEq κ] (m : List (κ × α)) (k : κ) (v : α) :
    (mapSet m k v).length ≤ m.length + 1 := by
  induction m with
  | nil => simp [mapSet]
  | cons e rest ih =>
    obtain ⟨k', v'⟩ := e
    by_cases h : k' = k
    · simp [mapSet, h]
    · simp [mapSet, h]; omega

theorem mapDelete_length {κ α : Type} [DecidableEq κ] (m : List (κ × α)) (k : κ) (v : α)
    (h : mapGet m k = some v) : (mapDelete m k).length + 1 ≤ m.length := by
  induction m with
  | nil => simp [mapGet] at h
  | cons e rest ih =>
    obtain ⟨k', v'⟩ := e
    by_cases hk : k' = k
    · have : ((k', v') :: rest).filter (fun e => decide (e.1 ≠ k)) =
          rest.filter (fun e => decide (e.1 ≠ k)) := by
        simp [List.filter_cons, hk]
      simp only [mapDelete, this, List.length_cons]
      exact Nat.succ_le_succ (List.length_filter_le _ _)
    · have hrest : mapGet rest k = some v := by simpa [mapGet, hk] using h
      have : ((k', v') :: rest).filter (fun e => decide (e.1 ≠ k)) =
          (k', v') :: rest.filter (fun e => decide (e.1 ≠ k)) := by
        simp [List.filter_cons, hk]
      simp only [mapDelete, this, List.length_cons]
      exact Nat.succ_le_succ (ih hrest)

theorem sendFirstMessage_inbound (env : Env) (t : Torrent) (p : Conn) :
    (sendFirstMessage env t p).incomingHandshakers = t.incomingHandshakers ∧
    (sendFirstMessage env t p).incomingPeers = t.incomingPeers := by
  unfold sendFirstMessage
  simp only [Torrent.emit]
  split
  · split
    · exact ⟨rfl, rfl⟩
    · split <;> exact ⟨rfl, rfl⟩
  · split <;> exact ⟨rfl, rfl⟩

theorem unchokePeer_inbound {t t' : Torrent} {p : PeerPtr} (h : unchokePeer t p = some t') :
    t'.incomingHandshakers = t.incomingHandshakers ∧ t'.incomingPeers = t.incomingPeers := by
  unfold unchokePeer at h
  simp only [Option.bind_eq_bind, Option.bind_eq_some] at h
  obtain ⟨pe, -, h⟩ := h
  split at h <;> cases h <;> exact ⟨rfl, rfl⟩

theorem startPeer_inbound {env : Env} {t t' : Torrent} {p : Conn}
    (h : startPeer env t p .incoming = some t') :
    t'.incomingHandshakers = t.incomingHandshakers ∧
      t'.incomingPeers.length ≤ t.incomingPeers.length + 1 := by
  unfold startPeer at h
  split at h
  · cases h; exact ⟨rfl, Nat.le_succ _⟩
  · simp only at h
    have key : ∀ t2 : Torrent, t2.incomingHandshakers = t.incomingHandshakers →
        t2.incomingPeers = t.incomingPeers ++ [t.heap.length] →
        (sendFirstMessage env (t2.emit (.peerRun t.heap.length)) p).incomingHandshakers =
          t.incomingHandshakers ∧
        (sendFirstMessage env (t2.emit (.peerRun t.heap.length)) p).incomingPeers.length ≤
          t.incomingPeers.length + 1 := by
      intro t2 h1 h2
      obtain ⟨g1, g2⟩ := sendFirstMessage_inbound env (t2.emit (.peerRun t.heap.length)) p
      rw [g1, g2]
      exact ⟨h1, by rw [show (t2.emit (.peerRun t.heap.length)).incomingPeers =
        t2.incomingPeers from rfl, h2]; simp⟩
    split at h
    · obtain ⟨u1, u2⟩ := unchokePeer_inbound h
      rw [u1, u2]
      exact key _ rfl rfl
    · cases h
      exact key _ rfl rfl

/-- C14 (failing input): with `maxPeerAccept = 2` the fresh engine satisfies the bound and
every prefix of the run is handled.  The second connection comes from the address of the first
and replaces its handshaker in the map, the failure of the first then removes the entry of the
second, and the success of the second adds a peer while no entry is left to remove: at the end
two handshakers and one incoming peer are counted, one more than the cap that the
new-connection case enforces. -/
theorem inbound_cap_broken :
    exEnv.maxPeerAccept = 2 ∧ inboundCount {} ≤ exEnv.maxPeerAccept ∧
    (runAll exEnv {} (exInboundRun.take 5)).map inboundCount = some 2 ∧
    (runAll exEnv {} exInboundRun).map
      (fun t => (t.incomingHandshakers.map (fun e => e.2), t.incomingPeers, inboundCount t)) =
      some ([exInB, exInC], [0], 3) := by
  decide

/-- What holds of the inbound cap in every state: a new inbound connection is closed, with the
handshakers unchanged, exactly when handshakers plus incoming peers have reached
`maxPeerAccept`; otherwise one handshaker is started and registered under the remote address
of the connection, the other entries staying as they are.  The bound on handshakers plus
incoming peers is preserved by the new-connection event, by every incoming-handshake result
with an error, and by a successful one whose remote address is registered. -/
theorem inbound_cap (env : Env) (t : Torrent) (conn : NetConn) (res : IncomingHandshakerResult) :
    (((newInConn env t conn).log = t.log ++ [.netConnClose conn] ∧
        (newInConn env t conn).incomingHandshakers = t.incomingHandshakers) ↔
      env.maxPeerAccept ≤ inboundCount t) ∧
    (inboundCount t < env.maxPeerAccept →
      (newInConn env t conn).log = t.log ++ [.incomingHandshakerRun conn] ∧
      mapGet (newInConn env t conn).incomingHandshakers conn.RemoteAddr = some conn ∧
      ∀ k, k ≠ conn.RemoteAddr →
        mapGet (newInConn env t conn).incomingHandshakers k = mapGet t.incomingHandshakers k) ∧
    (newInConn env t conn).incomingPeers = t.incomingPeers ∧
    (inboundCount t ≤ env.maxPeerAccept →
      inboundCount (newInConn env t conn) ≤ env.maxPeerAccept) ∧
    (inboundCount t ≤ env.maxPeerAccept →
      (mapGet t.incomingHandshakers res.Conn.RemoteAddr).isSome ∨ res.Error = true →
      ∃ t', incomingHandshakerResult env t res = some t' ∧
        inboundCount t' ≤ env.maxPeerAccept) := by
  refine ⟨?_, ?_, ?_, ?_, ?_⟩
  · unfold newInConn inboundCount
    split
    · rename_i h
      simp only [Torrent.emit, true_and, and_self, true_iff]
      exact h
    · rename_i h
      simp only [Torrent.emit, List.append_cancel_left_eq, List.cons.injEq, and_true,
        reduceCtorEq, false_and, false_iff]
      exact h
  · intro h
    have hn : ¬ (t.incomingHandshakers.length + t.incomingPeers.length ≥ env.maxPeerAccept) := by
      unfold inboundCount at h; omega
    unfold newInConn
    rw [if_neg hn]
    exact ⟨rfl, mapGet_mapSet_self _ _ _, fun k hk => mapGet_mapSet_other _ _ _ _ hk⟩
  · unfold newInConn
    split <;> rfl
  · intro h
    unfold newInConn inboundCount
    split
    · exact h
    · rename_i hn
      have := mapSet_length t.incomingHandshakers conn.RemoteAddr conn
      simp only [Torrent.emit]
      omega
  · intro h hk
    have hle : (mapDelete t.incomingHandshakers res.Conn.RemoteAddr).length ≤
        t.incomingHandshakers.length := by
      unfold mapDelete
      exact List.length_filter_le _ _
    unfold incomingHandshakerResult
    simp only
    split
    · refine ⟨_, rfl, ?_⟩
      unfold inboundCount at h ⊢
      simp only [Torrent.emit]
      omega
    · rename_i hne
      have hk' : (mapGet t.incomingHandshakers res.Conn.RemoteAddr).isSome := by
        rcases hk with hk | hk
        · exact hk
        · exact absurd hk hne
      obtain ⟨v, hv⟩ := Option.isSome_iff_exists.mp hk'
      have hd := mapDelete_length t.incomingHandshakers res.Conn.RemoteAddr v hv
      obtain ⟨t', ht'⟩ := startPeer_total env
        { t with incomingHandshakers := mapDelete t.incomingHandshakers res.Conn.RemoteAddr }
        res.Peer .incoming
      refine ⟨t', ht', ?_⟩
      obtain ⟨h1, h2⟩ := startPeer_inbound ht'
      unfold inboundCount at h ⊢
      rw [h1]
      simp only at h2 ⊢
      omega

/-- The inbound cap on the sample: with `maxPeerAccept = 2` and one registered handshaker, a
connection from a new address is registered, and the failed handshake of the registered one
keeps the bound. -/
theorem inbound_cap_witness :
    inboundCount exAccepting < exEnv.maxPeerAccept ∧
    mapGet (newInConn exEnv exAccepting exInC).incomingHandshakers exInC.RemoteAddr =
      some exInC ∧
    inboundCount (newInConn exEnv exAccepting exInC) ≤ exEnv.maxPeerAccept ∧
    ∃ t', incomingHandshakerResult exEnv exAccepting
        { Conn := exInB, Peer := exConn1, Error := true } = some t' ∧
      inboundCount t' ≤ exEnv.maxPeerAccept :=
  have h := inbound_cap exEnv exAccepting exInC { Conn := exInB, Peer := exConn1, Error := true }
  ⟨by decide, (h.2.1 (by decide)).2.1, h.2.2.2.1 (by decide),
    h.2.2.2.2 (by decide) (Or.inl (by decide))⟩

theorem toInt64_of_range {x : Int} (h0 : -(2 ^ 63) ≤ x) (h1 : x < 2 ^ 63) : toInt64 x = x := by
  unfold toInt64
  omega

theorem toInt64_add_left (a b : Int) : toInt64 (toInt64 a + b) = toInt64 (a + b) := by
  unfold toInt64
  omega

theorem toInt64_sub_left (a b : Int) : toInt64 (toInt64 a - b) = toInt64 (a - b) := by
  unfold toInt64
  omega

/-- With equal piece lengths the sum over the set bits is the product. -/
theorem completeLength_uniform (L : Nat) :
    ∀ (pcs : List Rain.Piece) (bs : List Bool), pcs.length = bs.length →
      (∀ pc ∈ pcs, pc.Piece.Length = L) → completeLength pcs bs = L * bs.count true := by
  intro pcs
  induction pcs with
  | nil => intro bs h _; cases bs <;> simp_all [completeLength]
  | cons pc pcs ih =>
    intro bs h hl
    cases bs with
    | nil => simp at h
    | cons b bs =>
      have h1 := ih bs (by simpa using h) (fun q hq => hl q (List.mem_cons_of_mem _ hq))
      have h2 := hl pc (List.mem_cons_self _ _)
      cases b <;> simp [completeLength, h1, h2, List.count_cons, Nat.mul_add, Nat.add_comm]

theorem completeLength_append (pcs : List Rain.Piece) :
    ∀ (bs : List Bool) (pcs2 : List Rain.Piece) (bs2 : List Bool), pcs.length = bs.length →
      completeLength (pcs ++ pcs2) (bs ++ bs2) = completeLength pcs bs + completeLength pcs2 bs2 := by
  induction pcs with
  | nil => intro bs pcs2 bs2 h; cases bs <;> simp_all [completeLength]
  | cons pc pcs ih =>
    intro bs pcs2 bs2 h
    cases bs with
    | nil => simp at h
    | cons b bs =>
      have := ih bs pcs2 bs2 (by simpa using h)
      simp [completeLength, this, Nat.add_assoc]

theorem completeLength_all (pcs : List Rain.Piece) :
    ∀ bs : List Bool, pcs.length = bs.length → bs.all id = true →
      completeLength pcs bs = piecesLength pcs := by
  induction pcs with
  | nil => intro bs h _; cases bs <;> simp_all [completeLength, piecesLength]
  | cons pc pcs ih =>
    intro bs h ha
    cases bs with
    | nil => simp at h
    | cons b bs =>
      simp only [List.all_cons, id, Bool.and_eq_true] at ha
      have := ih bs (by simpa using h) ha.2
      simp [completeLength, this, ha.1, piecesLength]

/-- The value that `stats` computes for BytesComplete, before any range assumption. -/
theorem bytesComplete_eq (t : Torrent) (info : Info) (bf : Bitfield)
    (hn : 0 < bf.Len) (hw : bf.Len < u32) (hp : t.pieces.length = bf.Len)
    (hl : ∀ pc ∈ t.pieces.dropLast, pc.Piece.Length = info.PieceLength) :
    bytesComplete t info bf = some (toInt64 (completeLength t.pieces bf.bits)) := by
  obtain ⟨bs⟩ := bf
  simp only [Bitfield.Len] at hn hw hp
  have hbs : bs ≠ [] := by intro h; simp [h] at hn
  have hps : t.pieces ≠ [] := by intro h; rw [h] at hp; simp at hp; omega
  obtain ⟨B, lb, hB⟩ : ∃ B lb, bs = B ++ [lb] :=
    ⟨_, _, (List.dropLast_append_getLast hbs).symm⟩
  obtain ⟨P, lp, hP⟩ : ∃ P lp, t.pieces = P ++ [lp] :=
    ⟨_, _, (List.dropLast_append_getLast hps).symm⟩
  have hPB : P.length = B.length := by
    rw [hP, hB] at hp; simpa using hp
  have hlast : (bs.length + u32 - 1) % u32 = B.length := by
    rw [hB] at hw ⊢
    simp only [List.length_append, List.length_singleton] at hw ⊢
    unfold u32 at hw ⊢
    omega
  have hP2 : ∀ pc ∈ P, pc.Piece.Length = info.PieceLength := by
    intro pc hpc
    apply hl
    rw [hP, List.dropLast_concat]
    exact hpc
  have hsum : completeLength t.pieces bs =
      info.PieceLength * B.count true + (if lb then lp.Piece.Length else 0) := by
    rw [hP, hB, completeLength_append P B [lp] [lb] hPB,
      completeLength_uniform info.PieceLength P B hPB hP2]
    simp [completeLength]
  have hcount : bs.count true = B.count true + (if lb then 1 else 0) := by
    rw [hB]; cases lb <;> simp
  have htest : bs[B.length]? = some lb := by
    rw [hB]; simp
  have hpiece : t.pieces[B.length]? = some lp := by
    rw [hP, ← hPB]; simp
  unfold bytesComplete
  simp only [Bitfield.Len, Bitfield.Test, Bitfield.Count, hlast, htest, hpiece,
    Option.bind_eq_bind, Option.some_bind, hsum, hcount]
  cases lb
  · simp
  · simp only [if_true, toInt64_sub_left, toInt64_add_left]
    apply congrArg some
    apply congrArg toInt64
    push_cast
    ring

/-- C16: with info and bitfield present, at least one piece, one piece per bit and every
piece but the last of length PieceLength, `stats` returns a result whose BytesComplete is
the sum of the lengths of the pieces whose bit is set and whose BytesIncomplete is
BytesTotal - BytesComplete, both as 64-bit values, hence exactly when the sums fit in 63
bits; if moreover TotalLength is the sum of all piece lengths and every bit is set,
BytesComplete = BytesTotal and BytesIncomplete = 0. -/
theorem stats_bytes (t : Torrent) (info : Info) (bf : Bitfield)
    (hi : t.info = some info) (hb : t.bitfield = some bf)
    (hn : 0 < bf.Len) (hw : bf.Len < u32) (hp : t.pieces.length = bf.Len)
    (hl : ∀ pc ∈ t.pieces.dropLast, pc.Piece.Length = info.PieceLength) :
    ∃ s, stats t = some s ∧ s.Status = status t ∧ s.BytesTotal = info.TotalLength ∧
      s.BytesComplete = toInt64 (completeLength t.pieces bf.bits) ∧
      s.BytesIncomplete = toInt64 (s.BytesTotal - s.BytesComplete) ∧
      ((completeLength t.pieces bf.bits : Int) < 2 ^ 63 →
        s.BytesComplete = completeLength t.pieces bf.bits ∧
        (0 ≤ info.TotalLength → info.TotalLength < 2 ^ 63 →
          s.BytesIncomplete = s.BytesTotal - s.BytesComplete)) ∧
      (info.TotalLength = piecesLength t.pieces → bf.All = true →
        info.TotalLength < 2 ^ 63 →
        s.BytesComplete = s.BytesTotal ∧ s.BytesIncomplete = 0) := by
  have hc := bytesComplete_eq t info bf hn hw hp hl
  have hnn : (0 : Int) ≤ (completeLength t.pieces bf.bits : Int) := Int.ofNat_nonneg _
  refine ⟨{ Status := status t, BytesTotal := info.TotalLength,
            BytesComplete := toInt64 (completeLength t.pieces bf.bits),
            BytesIncomplete := toInt64 (info.TotalLength -
              toInt64 (completeLength t.pieces bf.bits)) }, ?_, rfl, rfl, rfl, rfl, ?_, ?_⟩
  · unfold stats
    rw [hi, hb]
    simp only [hc, Option.bind_eq_bind, Option.some_bind]
  · intro hr
    have h1 : toInt64 (completeLength t.pieces bf.bits) = completeLength t.pieces bf.bits :=
      toInt64_of_range (by omega) hr
    refine ⟨h1, fun h0 h2 => ?_⟩
    simp only [h1]
    exact toInt64_of_range (by omega) (by omega)
  · intro htot hall hr
    have hcl : completeLength t.pieces bf.bits = piecesLength t.pieces :=
      completeLength_all t.pieces bf.bits hp hall
    have h1 : toInt64 (completeLength t.pieces bf.bits) = info.TotalLength := by
      rw [hcl, ← htot]
      exact toInt64_of_range (by rw [htot]; have := Int.ofNat_nonneg (piecesLength t.pieces); omega) hr
    refine ⟨h1, ?_⟩
    show toInt64 (info.TotalLength - toInt64 (completeLength t.pieces bf.bits)) = 0
    rw [h1, sub_self]
    unfold toInt64
    omega

/-- C16 (witness): the sample torrent with both pieces (4 and 2 bytes, piece length 4, total
length 6) reports BytesComplete = BytesTotal = 6 and BytesIncomplete = 0. -/
theorem stats_bytes_witness :
    exSeeding.info = some exInfo ∧ exSeeding.bitfield = some ⟨[true, true]⟩ ∧
    (∀ pc ∈ exSeeding.pieces.dropLast, pc.Piece.Length = exInfo.PieceLength) ∧
    ∃ s, stats exSeeding = some s ∧ s.BytesTotal = 6 ∧ s.BytesComplete = s.BytesTotal ∧
      s.BytesIncomplete = 0 := by
  have hl : ∀ pc ∈ exSeeding.pieces.dropLast, pc.Piece.Length = exInfo.PieceLength := by decide
  obtain ⟨s, hs, -, ht, -, -, -, hall⟩ :=
    stats_bytes exSeeding exInfo ⟨[true, true]⟩ rfl rfl (by decide) (by decide) (by decide) hl
  exact ⟨rfl, rfl, hl, s, hs, ht, hall (by decide) (by decide) (by decide)⟩

/-! ## The announcer -/

namespace Announcer

theorem announce_log (s : State) (e : TrackerEvent) (r : AnnounceOutcome) :
    (announce s e r).log = s.log ++ (.announce e ::
      (if r.Error then [.logError]
       else .retryReset :: (if r.Sent then [.newPeers r.Peers] else []))) ∧
    (announce s e r).returned = s.returned ∧ (announce s e r).completedC = s.completedC := by
  unfold announce
  cases r.Error <;> cases r.Sent <;> simp [State.emit]

theorem announced_append (l1 l2 : List Action) :
    announced (l1 ++ l2) = announced l1 ++ announced l2 := by
  simp [announced, List.filterMap_append]

theorem announced_announce (s : State) (e : TrackerEvent) (r : AnnounceOutcome) :
    announced (announce s e r).log = announced s.log ++ [e] := by
  rw [(announce_log s e r).1, announced_append]
  cases r.Error <;> cases r.Sent <;> simp [announced]

theorem pushAfterSuccess_quiet {l l2 : List Action} (h : PushAfterSuccess l)
    (h2 : ∀ ps, Action.newPeers ps ∉ l2) : PushAfterSuccess (l ++ l2) := by
  intro pre ps post heq
  rcases List.append_eq_append_iff.mp heq with ⟨a', rfl, h3⟩ | ⟨c', rfl, h3⟩
  · exact absurd (h3 ▸ List.mem_append_right _ (List.mem_cons_self _ _)) (h2 ps)
  · cases c' with
    | nil =>
      simp only [List.nil_append] at h3
      exact absurd (h3 ▸ List.mem_cons_self _ _) (h2 ps)
    | cons c c'' =>
      simp only [List.cons_append, List.cons.injEq] at h3
      obtain ⟨rfl, -⟩ := h3
      exact h pre ps c'' rfl

theorem pushAfterSuccess_push {l : List Action} (h : PushAfterSuccess l) (e : TrackerEvent)
    (qs : List String) :
    PushAfterSuccess (l ++ [.announce e, .retryReset, .newPeers qs]) := by
  intro pre ps post heq
  rcases List.append_eq_append_iff.mp heq with ⟨a', rfl, h3⟩ | ⟨c', rfl, h3⟩
  · rcases a' with _ | ⟨a1, _ | ⟨a2, _ | ⟨a3, a4⟩⟩⟩
    · simp at h3
    · simp at h3
    · simp only [List.cons_append, List.nil_append, List.cons.injEq] at h3
      obtain ⟨rfl, rfl, -⟩ := h3
      exact ⟨l, e, rfl⟩
    · simp at h3
  · cases c' with
    | nil => simp at h3
    | cons c c'' =>
      simp only [List.cons_append, List.cons.injEq] at h3
      obtain ⟨rfl, -⟩ := h3
      exact h pre ps c'' rfl

theorem announce_pushAfterSuccess {s : State} (h : PushAfterSuccess s.log) (e : TrackerEvent)
    (r : AnnounceOutcome) : PushAfterSuccess (announce s e r).log := by
  rw [(announce_log s e r).1]
  cases hE : r.Error
  · cases hS : r.Sent
    · exact pushAfterSuccess_quiet h (by simp)
    · simpa using pushAfterSuccess_push h e r.Peers
  · exact pushAfterSuccess_quiet h (by simp)

theorem announce_pushed {s : State} {e : TrackerEvent} {r : AnnounceOutcome} {ps : List String}
    (h : Action.newPeers ps ∈ (announce s e r).log) :
    Action.newPeers ps ∈ s.log ∨ (r.Error = false ∧ r.Sent = true ∧ r.Peers = ps) := by
  rw [(announce_log s e r).1] at h
  cases hE : r.Error <;> cases hS : r.Sent <;> simp [hE, hS] at h <;> first
    | exact Or.inl h
    | (rcases h with h | h
       · exact Or.inl h
       · exact Or.inr ⟨rfl, rfl, h.symm⟩)

/-- What the loop adds to a run that has not returned. -/
theorem loop_spec (sigs : List Signal) :
    ∀ s : State, s.returned = false → PushAfterSuccess s.log →
      ∃ mid, announced (loop s sigs).log = announced s.log ++ mid ++
          (if (loop s sigs).returned then [.EventStopped] else []) ∧
        (∀ e ∈ mid, e = .EventNone ∨ e = .EventCompleted) ∧
        mid.count .EventCompleted ≤ (if s.completedC then 1 else 0) ∧
        ((loop s sigs).returned = true ↔ ∃ r, Signal.stop r ∈ sigs) ∧
        PushAfterSuccess (loop s sigs).log ∧
        (∀ ps, Action.newPeers ps ∈ (loop s sigs).log → Action.newPeers ps ∈ s.log ∨
          ∃ r ∈ sigs.map Signal.outcome, r.Error = false ∧ r.Sent = true ∧ r.Peers = ps) := by
  induction sigs with
  | nil =>
    intro s hr hp
    refine ⟨[], ?_, by simp, by simp, ?_, hp, fun ps h => Or.inl h⟩
    · simp [loop, hr]
    · simp [loop, hr]
  | cons sig rest ih =>
    intro s hr hp
    cases sig with
    | timer r =>
      have hr1 : (announce s .EventNone r).returned = false := by
        rw [(announce_log s _ r).2.1]; exact hr
      obtain ⟨mid, h1, h2, h3, h4, h5, h6⟩ :=
        ih (announce s .EventNone r) hr1 (announce_pushAfterSuccess hp _ r)
      refine ⟨.EventNone :: mid, ?_, ?_, ?_, ?_, h5, ?_⟩
      · show announced (loop (announce s .EventNone r) rest).log = _
        rw [h1, announced_announce]
        simp [loop]
      · intro e he
        rcases List.mem_cons.mp he with rfl | he
        · exact Or.inl rfl
        · exact h2 e he
      · rw [(announce_log s _ r).2.2] at h3
        simpa using h3
      · show (loop (announce s .EventNone r) rest).returned = true ↔ _
        rw [h4]
        simp
      · intro ps hps
        rcases h6 ps hps with h | ⟨r', hr', h⟩
        · rcases announce_pushed h with h | h
          · exact Or.inl h
          · exact Or.inr ⟨r, by simp [Signal.outcome], h⟩
        · exact Or.inr ⟨r', by simp only [List.map_cons]; exact List.mem_cons_of_mem _ hr', h⟩
    | completed r =>
      cases hc : s.completedC
      · obtain ⟨mid, h1, h2, h3, h4, h5, h6⟩ := ih s hr hp
        have hl : loop s (.completed r :: rest) = loop s rest := by simp [loop, hc]
        rw [hl]
        refine ⟨mid, h1, h2, ?_, ?_, h5, ?_⟩
        · rw [hc] at h3; simpa using h3
        · rw [h4]; simp
        · intro ps hps
          rcases h6 ps hps with h | ⟨r', hr', h⟩
          · exact Or.inl h
          · exact Or.inr ⟨r', by simp only [List.map_cons]; exact List.mem_cons_of_mem _ hr', h⟩
      · have hl : loop s (.completed r :: rest) =
            loop { announce s .EventCompleted r with completedC := false } rest := by
          simp [loop, hc]
        rw [hl]
        have hr1 : ({ announce s .EventCompleted r with completedC := false } : State).returned
            = false := by
          show (announce s .EventCompleted r).returned = false
          rw [(announce_log s _ r).2.1]; exact hr
        obtain ⟨mid, h1, h2, h3, h4, h5, h6⟩ :=
          ih { announce s .EventCompleted r with completedC := false } hr1
            (announce_pushAfterSuccess hp _ r)
        refine ⟨.EventCompleted :: mid, ?_, ?_, ?_, ?_, h5, ?_⟩
        · rw [h1]
          show announced (announce s .EventCompleted r).log ++ mid ++ _ = _
          rw [announced_announce]
          simp
        · intro e he
          rcases List.mem_cons.mp he with rfl | he
          · exact Or.inr rfl
          · exact h2 e he
        · simp only [Bool.false_eq_true, if_false, Nat.le_zero] at h3
          simp [h3]
        · rw [h4]; simp
        · intro ps hps
          rcases h6 ps hps with h | ⟨r', hr', h⟩
          · rcases announce_pushed (s := s) (e := .EventCompleted) (r := r) h with h | h
            · exact Or.inl h
            · exact Or.inr ⟨r, by simp [Signal.outcome], h⟩
          · exact Or.inr ⟨r', by simp only [List.map_cons]; exact List.mem_cons_of_mem _ hr', h⟩
    | stop r =>
      have hl : loop s (.stop r :: rest) =
          { (announce s .EventStopped r).emit .trackerClose with returned := true } := rfl
      rw [hl]
      refine ⟨[], ?_, by simp, by simp, ?_, ?_, ?_⟩
      · show announced ((announce s .EventStopped r).log ++ [.trackerClose]) = _
        rw [announced_append, announced_announce]
        simp [announced]
      · simp
      · show PushAfterSuccess ((announce s .EventStopped r).log ++ [.trackerClose])
        exact pushAfterSuccess_quiet (announce_pushAfterSuccess hp _ r) (by simp)
      · intro ps hps
        have hps2 : Action.newPeers ps ∈ (announce s .EventStopped r).log := by
          have : Action.newPeers ps ∈ (announce s .EventStopped r).log ++ [.trackerClose] := hps
          simpa using this
        rcases announce_pushed hps2 with h | h
        · exact Or.inl h
        · exact Or.inr ⟨r, by simp [Signal.outcome], h⟩

/-- The run after the tracker has been made. -/
theorem run_core (c : Bool) (l0 : List Action) (h0 : announced l0 = [])
    (hp0 : ∀ ps, Action.newPeers ps ∉ l0) (first : AnnounceOutcome) (sigs : List Signal) :
    ∃ mid, announced (loop (announce { completedC := c, log := l0 } .EventStarted first) sigs).log
          = .EventStarted :: mid ++
          (if (loop (announce { completedC := c, log := l0 } .EventStarted first) sigs).returned
            then [.EventStopped] else []) ∧
      (∀ e ∈ mid, e = .EventNone ∨ e = .EventCompleted) ∧
      mid.count .EventCompleted ≤ 1 ∧
      ((loop (announce { completedC := c, log := l0 } .EventStarted first) sigs).returned = true ↔
        ∃ r, Signal.stop r ∈ sigs) ∧
      PushAfterSuccess
        (loop (announce { completedC := c, log := l0 } .EventStarted first) sigs).log ∧
      (∀ ps, Action.newPeers ps ∈
          (loop (announce { completedC := c, log := l0 } .EventStarted first) sigs).log →
        ∃ r ∈ first :: sigs.map Signal.outcome,
          r.Error = false ∧ r.Sent = true ∧ r.Peers = ps) := by
  have hq : PushAfterSuccess ({ completedC := c, log := l0 } : State).log := by
    intro pre ps post heq
    exact absurd (show Action.newPeers ps ∈ l0 from
      (show l0 = pre ++ Action.newPeers ps :: post from heq) ▸
        List.mem_append_right _ (List.mem_cons_self _ _)) (hp0 ps)
  have hr1 : (announce { completedC := c, log := l0 } .EventStarted first).returned = false := by
    rw [(announce_log _ _ first).2.1]
  obtain ⟨mid, h1, h2, h3, h4, h5, h6⟩ :=
    loop_spec sigs _ hr1 (announce_pushAfterSuccess hq .EventStarted first)
  refine ⟨mid, ?_, h2, ?_, h4, h5, ?_⟩
  · rw [h1, announced_announce]
    show (announced l0 ++ [TrackerEvent.EventStarted]) ++ mid ++ _ = _
    rw [h0]
    simp
  · refine le_trans h3 ?_
    split <;> simp
  · intro ps hps
    rcases h6 ps hps with h | ⟨r, hr, h⟩
    · rcases announce_pushed h with h | h
      · exact absurd h (hp0 ps)
      · exact ⟨first, List.mem_cons_self _ _, h⟩
    · exact ⟨r, List.mem_cons_of_mem _ hr, h⟩

/-- C15: with a tracker URL of scheme http, https or udp, for every outcome of the first
announce and every sequence of timer, completion and stop signals with their announce
outcomes, the events announced by `Run` are Started, then only None and Completed events with
at most one Completed, then Stopped exactly if `Run` has returned, which it has exactly if a
stop signal arrived; so Started is announced once and first, and nothing follows Stopped.
Every push of peers directly follows an announce that succeeded and carries its peers. -/
theorem run_announces (a : Announcer) (first : AnnounceOutcome) (sigs : List Signal)
    (hs : a.scheme = some "http" ∨ a.scheme = some "https" ∨ a.scheme = some "udp") :
    ∃ mid, announced (Run a first sigs).log = .EventStarted :: mid ++
          (if (Run a first sigs).returned then [.EventStopped] else []) ∧
      (∀ e ∈ mid, e = .EventNone ∨ e = .EventCompleted) ∧
      mid.count .EventCompleted ≤ 1 ∧
      (announced (Run a first sigs).log).count .EventStarted = 1 ∧
      (announced (Run a first sigs).log).count .EventCompleted ≤ 1 ∧
      (announced (Run a first sigs).log).count .EventStopped =
        (if (Run a first sigs).returned then 1 else 0) ∧
      ((Run a first sigs).returned = true ↔ ∃ r, Signal.stop r ∈ sigs) ∧
      PushAfterSuccess (Run a first sigs).log ∧
      (∀ ps, Action.newPeers ps ∈ (Run a first sigs).log →
        ∃ r ∈ first :: sigs.map Signal.outcome,
          r.Error = false ∧ r.Sent = true ∧ r.Peers = ps) := by
  have key : ∃ l0, announced l0 = [] ∧ (∀ ps, Action.newPeers ps ∉ l0) ∧
      Run a first sigs =
        loop (announce { completedC := a.completedC, log := l0 } .EventStarted first) sigs := by
    rcases hs with h | h | h
    · exact ⟨[.httptrackerNew, .retryReset], rfl, by simp, by simp [Run, h]⟩
    · exact ⟨[.httptrackerNew, .retryReset], rfl, by simp, by simp [Run, h]⟩
    · exact ⟨[.udptrackerNew, .retryReset], rfl, by simp, by simp [Run, h]⟩
  obtain ⟨l0, h0, hp0, hrun⟩ := key
  rw [hrun]
  obtain ⟨mid, h1, h2, h3, h4, h5, h6⟩ := run_core a.completedC l0 h0 hp0 first sigs
  have hns : mid.count .EventStarted = 0 := by
    rw [List.count_eq_zero]
    intro hm
    rcases h2 _ hm with h | h <;> cases h
  have hnt : mid.count .EventStopped = 0 := by
    rw [List.count_eq_zero]
    intro hm
    rcases h2 _ hm with h | h <;> cases h
  refine ⟨mid, h1, h2, h3, ?_, ?_, ?_, h4, h5, h6⟩
  · rw [h1]
    split <;> simp [List.count_cons, List.count_append, hns]
  · rw [h1]
    split <;> simp [List.count_cons, List.count_append, h3]
  · rw [h1]
    split <;> simp [List.count_cons, List.count_append, hnt]

/-- C15 (witness): the sample run over a UDP tracker announces Started once, Completed at most
once and Stopped once, and has returned. -/
theorem run_announces_witness :
    exAnnouncer.scheme = some "udp" ∧
    (announced (Run exAnnouncer { Error := true, NextBackOff := 5 } exSignals).log).count
      .EventStarted = 1 ∧
    (announced (Run exAnnouncer { Error := true, NextBackOff := 5 } exSignals).log).count
      .EventCompleted ≤ 1 ∧
    (Run exAnnouncer { Error := true, NextBackOff := 5 } exSignals).returned = true := by
  obtain ⟨mid, -, -, -, h4, h5, -, h7, -, -⟩ :=
    run_announces exAnnouncer { Error := true, NextBackOff := 5 } exSignals (Or.inr (Or.inr rfl))
  exact ⟨rfl, h4, h5, h7.mpr ⟨{ Error := true }, by decide⟩⟩

end Announcer

end Rain
